import Mathlib

/-!
Verification of the gamedb repository's RDB binary codec
(`app/core/rdb/reader.py`), RDB reconciliation importer
(`app/core/rdb/importer.py`) and media matcher
(`app/core/media/importer.py`) against its natural-language
specification.

Python byte strings are modelled as `List Nat` (each element < 256),
Python `int` as `Int`, Python `str` as Lean `String`.  Dynamically typed
Python values occurring in decoded rows are modelled by the closed
variant `RValue`; ordered dictionaries are association lists with
first-insertion position and last-assignment value (`insertOD`).
-/

namespace GameDb

/-- A dynamically typed Python value as it occurs in decoded RDB rows:
`int` (covering both signed and unsigned wire types), `str`
(also used for the hex rendering of binary payloads), `bool`, `None`,
and raw `bytearray` slices (only produced for fixarray payloads). -/
inductive RValue where
  | num (n : Int)
  | str (s : String)
  | bool (b : Bool)
  | none
  | bytes (bs : List Nat)
  deriving DecidableEq, Repr

/-- The `rmsg` named tuple of `reader.py`: a decoded wire message,
tag (`typ`) plus payload value. -/
inductive RMsg where
  | int (n : Int)
  | uint (n : Nat)
  | string (s : String)
  | binstr (s : String)
  | bool (b : Bool)
  | nil
  | fixmap (n : Nat)
  | fixarray (bs : List Nat)
  deriving DecidableEq, Repr

/-- The `typ` field of an `rmsg` (a Python string in the source). -/
def RMsg.typ : RMsg → String
  | .int _ => "int"
  | .uint _ => "uint"
  | .string _ => "string"
  | .binstr _ => "binstr"
  | .bool _ => "bool"
  | .nil => "nil"
  | .fixmap _ => "fixmap"
  | .fixarray _ => "fixarray"

/-- The `value` field of an `rmsg`, as the dynamic value stored in rows. -/
def RMsg.val : RMsg → RValue
  | .int n => .num n
  | .uint n => .num n
  | .string s => .str s
  | .binstr s => .str s
  | .bool b => .bool b
  | .nil => .none
  | .fixmap n => .num n
  | .fixarray bs => .bytes bs

/-- Failure modes of decoding.  `tooSmall` models the explicit
`ValueError` for inputs shorter than 16 bytes; `unknownPrefix i` the
`ValueError("Unknown MessagePack prefix ... at offset i")`;
`truncated i` an `IndexError`/`struct.error` from reading past the end
of the buffer at offset `i`; `typeErr` a `TypeError` from sorting rows
whose `name` values are not mutually comparable; `fuelOut` is the
(unreachable) exhaustion of the step bound of the decode loop. -/
inductive Err where
  | tooSmall
  | unknownPrefix (i : Nat)
  | truncated (i : Nat)
  | typeErr
  | fuelOut
  deriving DecidableEq, Repr

/-- Big-endian value of a byte sequence. -/
def beVal (l : List Nat) : Nat := l.foldl (fun a b => a * 256 + b) 0

/-- Big-endian bytes of `n`, `w` bytes wide (value taken mod `256 ^ w`),
as produced by `struct.pack` with formats `>B`, `>H`, `>I`, `>Q`. -/
def beBytes : Nat → Nat → List Nat
  | 0, _ => []
  | w + 1, n => beBytes w (n / 256) ++ [n % 256]

/-- Little-endian bytes of `n`, `w` bytes wide, as produced by
`struct.pack` with the native (x86, little-endian) `Q` format used for
the header offset. -/
def leBytes : Nat → Nat → List Nat
  | 0, _ => []
  | w + 1, n => n % 256 :: leBytes w (n / 256)

/-- Little-endian value of a byte sequence. -/
def leVal : List Nat → Nat
  | [] => 0
  | b :: l => b + 256 * leVal l

/-- Two's-complement interpretation of an unsigned `w*8`-bit value, as
`struct.unpack` with formats `b`, `>h`, `>i`, `>q`. -/
def toSigned (v : Nat) (w : Nat) : Int :=
  if v < 2 ^ (8 * w - 1) then (v : Int) else (v : Int) - 2 ^ (8 * w)

/-- Two's-complement `w*8`-bit bytes of a signed integer, as
`struct.pack` with formats `b`, `>h`, `>i`, `>q`. -/
def beSigned (w : Nat) (n : Int) : List Nat :=
  beBytes w (n % (2 ^ (8 * w))).toNat

/-- The Python pySlice `data[a:b]` (lenient at both ends). -/
def pySlice (data : List Nat) (a b : Nat) : List Nat :=
  (data.drop a).take (b - a)

/-- Value of a hexadecimal digit, accepting both cases
(as `binascii.unhexlify`). -/
def hexDigVal (c : Char) : Option Nat :=
  let n := c.toNat
  if 48 ≤ n ∧ n ≤ 57 then some (n - 48)
  else if 97 ≤ n ∧ n ≤ 102 then some (n - 97 + 10)
  else if 65 ≤ n ∧ n ≤ 70 then some (n - 65 + 10)
  else Option.none

/-- Lowercase hexadecimal digit of a value < 16
(as `binascii.hexlify`). -/
def hexDig (n : Nat) : Char :=
  if n < 10 then Char.ofNat ('0'.toNat + n) else Char.ofNat ('a'.toNat + n - 10)

/-- `binascii.unhexlify`: hex string to bytes; fails on odd length or a
non-hex character. -/
def unhexlify : List Char → Option (List Nat)
  | [] => some []
  | [_] => Option.none
  | c1 :: c2 :: rest => do
    let h ← hexDigVal c1
    let l ← hexDigVal c2
    let tl ← unhexlify rest
    pure ((h * 16 + l) :: tl)

/-- `binascii.hexlify(...).decode("ascii")`: bytes to lowercase hex. -/
def hexlify (bs : List Nat) : List Char :=
  bs.foldr (fun b acc => hexDig (b / 16 % 16) :: hexDig (b % 16) :: acc) []

/-- UTF-8 encoding of one character (`str.encode("utf-8")`). -/
def utf8Char (c : Char) : List Nat :=
  let n := c.toNat
  if n < 0x80 then [n]
  else if n < 0x800 then [0xC0 + n / 64, 0x80 + n % 64]
  else if n < 0x10000 then [0xE0 + n / 4096, 0x80 + n / 64 % 64, 0x80 + n % 64]
  else [0xF0 + n / 262144, 0x80 + n / 4096 % 64, 0x80 + n / 64 % 64, 0x80 + n % 64]

/-- UTF-8 encoding of a string. -/
def utf8Enc (s : String) : List Nat := (s.data.map utf8Char).flatten

/-- Is `b` a UTF-8 continuation byte? -/
def utf8Cont (b : Nat) : Bool := 0x80 ≤ b ∧ b < 0xC0

/-- UTF-8 decoding with `errors="replace"`: malformed sequences become
U+FFFD.  Surrogates and overlong forms are rejected like CPython.
The fuel argument is structural; one byte is always consumed per step,
so `fuel = length` suffices. -/
def utf8DecF : Nat → List Nat → List Char
  | 0, _ => []
  | _, [] => []
  | fuel + 1, b :: rest =>
    if b < 0x80 then Char.ofNat b :: utf8DecF fuel rest
    else if b < 0xC2 then '�' :: utf8DecF fuel rest
    else if b < 0xE0 then
      match rest with
      | b1 :: r1 =>
        if utf8Cont b1 then Char.ofNat ((b - 0xC0) * 64 + (b1 - 0x80)) :: utf8DecF fuel r1
        else '�' :: utf8DecF fuel rest
      | [] => ['�']
    else if b < 0xF0 then
      match rest with
      | b1 :: b2 :: r2 =>
        if utf8Cont b1 ∧ utf8Cont b2 then
          let v := (b - 0xE0) * 4096 + (b1 - 0x80) * 64 + (b2 - 0x80)
          if v < 0x800 ∨ (0xD800 ≤ v ∧ v < 0xE000) then '�' :: utf8DecF fuel (b2 :: r2)
          else Char.ofNat v :: utf8DecF fuel r2
        else '�' :: utf8DecF fuel rest
      | _ => ['�']
    else if b < 0xF5 then
      match rest with
      | b1 :: b2 :: b3 :: r3 =>
        if utf8Cont b1 ∧ utf8Cont b2 ∧ utf8Cont b3 then
          let v := (b - 0xF0) * 262144 + (b1 - 0x80) * 4096 + (b2 - 0x80) * 64 + (b3 - 0x80)
          if v < 0x10000 ∨ 0x110000 ≤ v then '�' :: utf8DecF fuel (b3 :: r3)
          else Char.ofNat v :: utf8DecF fuel r3
        else '�' :: utf8DecF fuel rest
      | _ => ['�']
    else '�' :: utf8DecF fuel rest

/-- `bytes.decode("utf-8", errors="replace")` as a `String`. -/
def pyDecodeUtf8 (bs : List Nat) : String := String.mk (utf8DecF bs.length bs)

/-- Ordered-dictionary insert: keeps the first-insertion position of a
key and overwrites its value (Python `dict`/`OrderedDict` assignment). -/
def insertOD {α β : Type} [DecidableEq α] : List (α × β) → α → β → List (α × β)
  | [], k, v => [(k, v)]
  | (k', v') :: rest, k, v =>
    if k' = k then (k', v) :: rest else (k', v') :: insertOD rest k v

/-- Ordered-dictionary lookup (`dict.get`, returning an option). -/
def lookupOD {α β : Type} [DecidableEq α] : List (α × β) → α → Option β
  | [], _ => Option.none
  | (k', v') :: rest, k => if k' = k then some v' else lookupOD rest k

/-- `dict.setdefault`: inserts at the end only when absent. -/
def setdefaultOD {α β : Type} [DecidableEq α] (l : List (α × β)) (k : α) (v : β) :
    List (α × β) :=
  match lookupOD l k with
  | some _ => l
  | Option.none => l ++ [(k, v)]

/-- Python `str()` of a dynamic value.  The `bytes` rendering is
simplified to a deterministic hex form (Python shows printable ASCII
directly inside `bytearray(b...)`); only `int`, `bool`, `None` and
`str` renderings are ever relied upon. -/
def pyStr : RValue → String
  | .num n => toString n
  | .str s => s
  | .bool b => if b then "True" else "False"
  | .none => "None"
  | .bytes bs => "bytearray(" ++ String.mk (hexlify bs) ++ ")"

/-- `Rdb._normalize_key`: coerce a decoded key message value to `str`. -/
def normalize_key : RValue → String
  | .str s => s
  | .bytes bs => pyDecodeUtf8 bs
  | v => pyStr v

/-- `Rdb._get_rmsg`: decode one tagged message at offset `i`.
Returns the new offset and the message.  The branch structure and the
arithmetic mirror the source, including its treatment of the bin/str
length prefixes: `bytelen = (buf ^ base) + 1` (which yields widths
1/2/3 for bin8/16/32 and 1/4/3 for str8/16/32) and
`struct.unpack(f"{bytelen}B", ...)[0]`, which is the FIRST prefix byte,
not a big-endian value. -/
def get_rmsg (data : List Nat) (i : Nat) : Except Err (Nat × RMsg) :=
  match data.drop i with
  | [] => .error (.truncated i)
  | buf :: tail =>
    if buf ≤ 0x7F then .ok (i + 1, .int buf)
    else if 0xE0 ≤ buf then .ok (i + 1, .int (toSigned buf 1))
    else if 0x80 ≤ buf ∧ buf ≤ 0x8F then .ok (i + 1, .fixmap (buf % 16))
    else if 0x90 ≤ buf ∧ buf ≤ 0x9F then
      let msglen := buf % 16
      .ok (i + msglen + 1, .fixarray (tail.take msglen))
    else if 0xA0 ≤ buf ∧ buf ≤ 0xBF then
      let msglen := buf % 32
      .ok (i + msglen + 1, .string (pyDecodeUtf8 (tail.take msglen)))
    else if buf = 0xC0 then .ok (i + 1, .nil)
    else if buf = 0xC2 then .ok (i + 1, .bool false)
    else if buf = 0xC3 then .ok (i + 1, .bool true)
    else if buf = 0xC4 ∨ buf = 0xC5 ∨ buf = 0xC6 then
      let bytelen := (buf ^^^ 0xC4) + 1
      let pre := pySlice data (i + 1) (i + bytelen + 1)
      if pre.length = bytelen then
        let msglen := pre.headD 0
        let payload := pySlice data (i + bytelen + 1) (i + bytelen + msglen + 1)
        .ok (i + msglen + bytelen + 1, .binstr (String.mk (hexlify payload)))
      else .error (.truncated i)
    else if buf = 0xCC then
      let pre := pySlice data (i + 1) (i + 2)
      if pre.length = 1 then .ok (i + 2, .uint (beVal pre)) else .error (.truncated i)
    else if buf = 0xCD then
      let pre := pySlice data (i + 1) (i + 3)
      if pre.length = 2 then .ok (i + 3, .uint (beVal pre)) else .error (.truncated i)
    else if buf = 0xCE then
      let pre := pySlice data (i + 1) (i + 5)
      if pre.length = 4 then .ok (i + 5, .uint (beVal pre)) else .error (.truncated i)
    else if buf = 0xCF then
      let pre := pySlice data (i + 1) (i + 9)
      if pre.length = 8 then .ok (i + 9, .uint (beVal pre)) else .error (.truncated i)
    else if buf = 0xD0 then
      let pre := pySlice data (i + 1) (i + 2)
      if pre.length = 1 then .ok (i + 2, .int (toSigned (beVal pre) 1)) else .error (.truncated i)
    else if buf = 0xD1 then
      let pre := pySlice data (i + 1) (i + 3)
      if pre.length = 2 then .ok (i + 3, .int (toSigned (beVal pre) 2)) else .error (.truncated i)
    else if buf = 0xD2 then
      let pre := pySlice data (i + 1) (i + 5)
      if pre.length = 4 then .ok (i + 5, .int (toSigned (beVal pre) 4)) else .error (.truncated i)
    else if buf = 0xD3 then
      let pre := pySlice data (i + 1) (i + 9)
      if pre.length = 8 then .ok (i + 9, .int (toSigned (beVal pre) 8)) else .error (.truncated i)
    else if buf = 0xD9 ∨ buf = 0xDA ∨ buf = 0xDB then
      let bytelen := (buf ^^^ 0xD9) + 1
      let pre := pySlice data (i + 1) (i + bytelen + 1)
      if pre.length = bytelen then
        let msglen := pre.headD 0
        let payload := pySlice data (i + bytelen + 1) (i + bytelen + msglen + 1)
        .ok (i + msglen + bytelen + 1, .string (pyDecodeUtf8 payload))
      else .error (.truncated i)
    else if buf = 0xDE then
      let pre := pySlice data (i + 1) (i + 3)
      if pre.length = 2 then .ok (i + 3, .fixmap (beVal pre)) else .error (.truncated i)
    else if buf = 0xDF then
      let pre := pySlice data (i + 1) (i + 5)
      if pre.length = 4 then .ok (i + 5, .fixmap (beVal pre)) else .error (.truncated i)
    else .error (.unknownPrefix i)

/-- Truthiness of a dynamic value (Python `if value:`). -/
def truthy : RValue → Bool
  | .num n => n ≠ 0
  | .str s => s ≠ ""
  | .bool b => b
  | .none => false
  | .bytes bs => bs ≠ []

/-- `Rdb._set_rmsg`: encode one message (given as its `typ` string and
dynamic value, exactly as the source dispatches on `message.typ`).
Returns `none` where the Python code raises (`struct.error` on
out-of-range packs, `TypeError` on mismatched value kinds,
`binascii.Error` on bad hex); any unrecognized `typ` falls through to
`return bytearray()`, i.e. `some []`. -/
def set_rmsg (typ : String) (v : RValue) : Option (List Nat) :=
  if typ = "fixmap" then
    match v with
    | .num n =>
      if n < 16 then (if 0 ≤ n then some [0x80 + n.toNat] else Option.none)
      else if n < 65536 then some (0xDE :: beBytes 2 n.toNat)
      else if n < 4294967296 then some (0xDF :: beBytes 4 n.toNat)
      else some []
    | _ => Option.none
  else if typ = "string" then
    match v with
    | .str s =>
      let strlen := s.length
      -- struct.pack(f"..{strlen}s", s.encode("utf-8")) truncates the
      -- UTF-8 payload to the CHARACTER count of the string.
      let payload := (utf8Enc s).take strlen
      if strlen < 32 then some ((0xA0 + strlen) :: payload)
      else if strlen < 256 then some (0xD9 :: strlen :: payload)
      else if strlen < 65536 then some (0xDA :: (beBytes 2 strlen ++ payload))
      else if strlen < 4294967296 then some (0xDB :: (beBytes 4 strlen ++ payload))
      else Option.none
    | _ => Option.none
  else if typ = "binstr" then
    match v with
    | .str s =>
      match unhexlify s.data with
      | some binstr =>
        let strlen := binstr.length
        if strlen < 256 then some (0xC4 :: strlen :: binstr)
        else if strlen < 65536 then some (0xC5 :: (beBytes 2 strlen ++ binstr))
        else if strlen < 4294967296 then some (0xC6 :: (beBytes 4 strlen ++ binstr))
        else Option.none
      | Option.none => Option.none
    | _ => Option.none
  else if typ = "uint" then
    match v with
    | .num n =>
      if n < 256 then (if 0 ≤ n then some [0xCC, n.toNat] else Option.none)
      else if n < 65536 then some (0xCD :: beBytes 2 n.toNat)
      else if n < 4294967296 then some (0xCE :: beBytes 4 n.toNat)
      else if n < 18446744073709551616 then some (0xCF :: beBytes 8 n.toNat)
      else Option.none
    | _ => Option.none
  else if typ = "int" then
    match v with
    | .num n =>
      if -32 ≤ n ∧ n < 128 then some (beSigned 1 n)
      else if -128 ≤ n ∧ n < 128 then some (0xD0 :: beSigned 1 n)
      else if -32768 ≤ n ∧ n < 32768 then some (0xD1 :: beSigned 2 n)
      else if -2147483648 ≤ n ∧ n < 2147483648 then some (0xD2 :: beSigned 4 n)
      else if -9223372036854775808 ≤ n ∧ n < 9223372036854775808 then
        some (0xD3 :: beSigned 8 n)
      else Option.none
    | _ => Option.none
  else if typ = "nil" then some [0xC0]
  else if typ = "bool" then some [if truthy v then 0xC3 else 0xC2]
  else some []

/-- `Rdb._infer_field_type`. -/
def infer_field_type : RValue → String
  | .none => "nil"
  | .bool _ => "bool"
  | .num n => if 0 ≤ n then "uint" else "int"
  | .bytes _ => "binstr"
  | .str _ => "string"

/-- `Rdb._write_rfield`: a key message (always written with the
`"string"` type) followed by the value message. -/
def write_rfield (name : RValue) (value : RValue) (ftyp : String) : Option (List Nat) :=
  match set_rmsg "string" name, set_rmsg ftyp value with
  | some a, some b => some (a ++ b)
  | _, _ => Option.none

/-- A decoded row: an ordered field map.  Keys are dynamic values
(Python dict keys), although the decoder only ever produces `str`
keys (see `normalize_key`). -/
abbrev Row := List (RValue × RValue)

/-- `Rdb._read_rfield` iterated `n` times: the (name, value, value-type)
field triples of one fixmap record, in wire order. -/
def readFields (data : List Nat) : Nat → Nat → Except Err (Nat × List (String × RValue × String))
  | i, 0 => .ok (i, [])
  | i, n + 1 =>
    match get_rmsg data i with
    | .error e => .error e
    | .ok (j, namemsg) =>
      match get_rmsg data j with
      | .error e => .error e
      | .ok (k, valmsg) =>
        match readFields data k n with
        | .error e => .error e
        | .ok (fin, rest) =>
          .ok (fin, (normalize_key namemsg.val, valmsg.val, valmsg.typ) :: rest)

/-- The record (ordered field map) built from field triples by
sequential dict assignment. -/
def buildRecord (fields : List (String × RValue × String)) : Row :=
  fields.foldl (fun r f => insertOD r (RValue.str f.1) f.2.1) []

/-- The per-record `field_types` dict built from field triples. -/
def buildFtypes (fields : List (String × RValue × String)) : List (String × String) :=
  fields.foldl (fun m f => insertOD m f.1 f.2.2) []

/-- The decode loop of `Rdb.from_bytes`: repeatedly decode one message;
only fixmap records are meaningful; a one-field `count` record is
metadata; every other fixmap is a row whose field types extend the
column map (first occurrence wins).  `fuel` bounds the number of
iterations; each iteration consumes at least one byte, so
`data.length + 1` is always sufficient. -/
def parseLoop (data : List Nat) :
    Nat → Nat → List (String × String) → List Row → List (String × RValue) →
    Except Err (List (String × String) × List Row × List (String × RValue))
  | 0, _, _, _, _ => .error .fuelOut
  | fuel + 1, i, columns, rows, metadata =>
    if i < data.length then
      match get_rmsg data i with
      | .error e => .error e
      | .ok (j, msg) =>
        match msg with
        | .fixmap n =>
          match readFields data j n with
          | .error e => .error e
          | .ok (k, fields) =>
            let record := buildRecord fields
            match (if record.length = 1 then lookupOD record (RValue.str "count")
                else Option.none) with
            | some v => parseLoop data fuel k columns rows (insertOD metadata "count" v)
            | Option.none =>
              let columns2 :=
                (buildFtypes fields).foldl (fun c nt => setdefaultOD c nt.1 nt.2) columns
              parseLoop data fuel k columns2 (rows ++ [record]) metadata
        | _ => parseLoop data fuel j columns rows metadata
    else .ok (columns, rows, metadata)

/-- The `name` sort key of a row: `row.get("name", "")`. -/
def nameKeyOf (row : Row) : RValue :=
  (lookupOD row (RValue.str "name")).getD (RValue.str "")

/-- String reading of a sort key (total on the all-strings case). -/
def strKey (row : Row) : String :=
  match nameKeyOf row with
  | .str s => s
  | _ => ""

/-- Code-point lexicographic string order (Python `str` comparison).
Defined directly on the character lists so that it evaluates by
kernel reduction. -/
def pyStrLeL : List Char → List Char → Bool
  | [], _ => true
  | _ :: _, [] => false
  | a :: as, b :: bs =>
    if a.toNat < b.toNat then true
    else if b.toNat < a.toNat then false
    else pyStrLeL as bs

/-- Code-point lexicographic order on strings. -/
def pyStrLe (a b : String) : Bool := pyStrLeL a.data b.data

/-- Integer reading of a sort key (Python compares `bool` with `int`). -/
def intKey (row : Row) : Int :=
  match nameKeyOf row with
  | .num n => n
  | .bool b => if b then 1 else 0
  | _ => 0

/-- `rows.sort(key=lambda row: row.get("name", ""))`: Python sorts the
keys dynamically; all-string keys and all-numeric keys are comparable,
any other mix raises `TypeError`. -/
def sortRows (rows : List Row) : Except Err (List Row) :=
  let keys := rows.map nameKeyOf
  if keys.all (fun k => match k with | .str _ => true | _ => false) then
    .ok (List.insertionSort (fun r1 r2 => pyStrLe (strKey r1) (strKey r2) = true) rows)
  else if keys.all (fun k => match k with | .num _ => true | .bool _ => true | _ => false) then
    .ok (List.insertionSort (fun r1 r2 => intKey r1 ≤ intKey r2) rows)
  else .error .typeErr

/-- The `rdbheader` named tuple: 8 magic bytes and the
(platform-endian, unused) metadata offset. -/
structure RdbHeader where
  magic : List Nat
  offset : Nat
  deriving DecidableEq, Repr

/-- The `Rdb` table object: ordered column→type map, ordered rows,
metadata dict and the file header (the `path` attribute is dropped). -/
structure Rdb where
  columns : List (String × String)
  rows : List Row
  metadata : List (String × RValue)
  header : RdbHeader
  deriving DecidableEq, Repr

/-- `Rdb.from_bytes`. -/
def from_bytes (data : List Nat) : Except Err Rdb :=
  if data.length < 16 then .error .tooSmall
  else
    match parseLoop data (data.length + 1) 16 [] [] [] with
    | .error e => .error e
    | .ok (columns, rows, metadata) =>
      match (if (lookupOD columns "name").isSome then sortRows rows else .ok rows) with
      | .error e => .error e
      | .ok rows2 =>
        .ok ⟨columns, rows2, setdefaultOD metadata "count" (RValue.num (rows.length : Int)),
          ⟨data.take 8, leVal (pySlice data 8 16)⟩⟩

/-- `struct.pack("8sQ", magic, offset)`: the magic is truncated/padded
to 8 bytes; the offset must fit an unsigned 64-bit native integer. -/
def packHeader (h : RdbHeader) : Option (List Nat) :=
  if h.offset < 18446744073709551616 then
    some (h.magic.take 8 ++ List.replicate (8 - h.magic.length) 0 ++ leBytes 8 h.offset)
  else Option.none

/-- The column type used to re-encode a field:
`self.columns.get(key, self._infer_field_type(value))`. -/
def colType (columns : List (String × String)) (key : RValue) (value : RValue) : String :=
  match key with
  | .str s => (lookupOD columns s).getD (infer_field_type value)
  | _ => infer_field_type value

/-- One row of `Rdb.to_bytes`: a fixmap header followed by the fields. -/
def encRecord (columns : List (String × String)) (record : Row) : Option (List Nat) := do
  let hdr ← set_rmsg "fixmap" (.num (record.length : Int))
  let fields ← record.mapM (fun kv => write_rfield kv.1 kv.2 (colType columns kv.1 kv.2))
  pure (hdr ++ fields.flatten)

/-- `Rdb.to_bytes`: header, rows, then a bare nil and the one-field
`{count: uint(len(rows))}` trailer. -/
def to_bytes (t : Rdb) : Option (List Nat) := do
  let hdr ← packHeader t.header
  let body ← t.rows.mapM (encRecord t.columns)
  let nilMsg ← set_rmsg "nil" RValue.none
  let mapHdr ← set_rmsg "fixmap" (.num 1)
  let countField ← write_rfield (.str "count") (.num (t.rows.length : Int)) "uint"
  pure (hdr ++ body.flatten ++ nilMsg ++ mapHdr ++ countField)

/-! ## The RDB reconciliation importer (`app/core/rdb/importer.py`) -/

/-- `KNOWN_FIELDS`. -/
def KNOWN_FIELDS : List String :=
  ["name", "description", "region", "releaseyear", "releasemonth", "serial",
   "rom_name", "size", "crc", "md5", "sha1"]

/-- `ImportStats`. -/
structure ImportStats where
  systems : Nat := 0
  titles : Nat := 0
  releases : Nat := 0
  roms : Nat := 0
  attributes : Nat := 0
  skipped_rows : Nat := 0
  skipped_fields : Nat := 0
  deriving DecidableEq, Repr

/-- A `systems` table row. -/
structure DbSystem where
  id : Nat
  name : String
  deriving DecidableEq, Repr

/-- A `titles` table row.  `name` and `description` hold the dynamic
row values the importer passes through. -/
structure DbTitle where
  id : Nat
  system_id : Nat
  name : RValue
  description : RValue
  deriving DecidableEq, Repr

/-- A `releases` table row. -/
structure DbRelease where
  id : Nat
  title_id : Nat
  region : RValue
  release_year : Option Int
  release_month : Option Int
  serial : RValue
  display_name : Option String
  deriving DecidableEq, Repr

/-- A `roms` table row. -/
structure DbRom where
  id : Nat
  release_id : Nat
  rom_name : RValue
  size : Option Int
  crc : RValue
  md5 : RValue
  sha1 : RValue
  deriving DecidableEq, Repr

/-- An `attributes` table row. -/
structure DbAttribute where
  id : Nat
  entity_type : String
  entity_id : Nat
  key : String
  value : String
  source : String
  deriving DecidableEq, Repr

/-- The relational store visible to the RDB importer, with per-table
autoincrement counters (ids start at 1). -/
structure DbState where
  systems : List DbSystem := []
  titles : List DbTitle := []
  releases : List DbRelease := []
  roms : List DbRom := []
  attrs : List DbAttribute := []
  nextSystemId : Nat := 1
  nextTitleId : Nat := 1
  nextReleaseId : Nat := 1
  nextRomId : Nat := 1
  nextAttrId : Nat := 1
  deriving DecidableEq, Repr

/-- Python `int(str)` on the common decimal forms: optional surrounding
whitespace, optional sign, one or more ASCII digits.  (CPython also
accepts underscore separators and non-ASCII decimal digits; those
corners are immaterial here — only determinism of the parse is used.) -/
def pyIntOfChars (cs : List Char) : Option Int :=
  let t := ((cs.dropWhile (fun c => c.toNat ≤ 32)).reverse.dropWhile (fun c => c.toNat ≤ 32)).reverse
  let signed : Bool × List Char :=
    match t with
    | '-' :: r => (true, r)
    | '+' :: r => (false, r)
    | r => (false, r)
  if signed.2 ≠ [] ∧ signed.2.all Char.isDigit then
    let v : Nat := signed.2.foldl (fun a c => a * 10 + (c.toNat - '0'.toNat)) 0
    some (if signed.1 then -(v : Int) else (v : Int))
  else Option.none

/-- `RdbImporter._to_int`: best-effort integer coercion, `none` where
Python returns `None` (unparsable string, `None`, bytes). -/
def to_int : RValue → Option Int
  | .none => Option.none
  | .num n => some n
  | .bool b => some (if b then 1 else 0)
  | .str s => pyIntOfChars s.data
  | .bytes _ => Option.none

/-- `row.get(key)` with a `None` default, on a decoded row. -/
def rowGet (row : Row) (k : String) : RValue :=
  (lookupOD row (RValue.str k)).getD RValue.none

/-- `_get_or_create_system`. -/
def get_or_create_system (name : String) (st : DbState) (stats : ImportStats) :
    DbSystem × DbState × ImportStats :=
  match st.systems.find? (fun s => s.name == name) with
  | some s => (s, st, stats)
  | Option.none =>
    let s : DbSystem := ⟨st.nextSystemId, name⟩
    (s, { st with systems := st.systems ++ [s], nextSystemId := st.nextSystemId + 1 },
     { stats with systems := stats.systems + 1 })

/-- `_get_or_create_title`, including the description backfill on an
existing title with an empty description. -/
def get_or_create_title (system_id : Nat) (name : RValue) (description : RValue)
    (st : DbState) (stats : ImportStats) : DbTitle × DbState × ImportStats :=
  match st.titles.find? (fun t => t.system_id == system_id && t.name == name) with
  | some t =>
    if truthy description ∧ ¬ truthy t.description then
      let t2 := { t with description := description }
      (t2, { st with titles := st.titles.map (fun x => if x.id == t.id then t2 else x) }, stats)
    else (t, st, stats)
  | Option.none =>
    let t : DbTitle := ⟨st.nextTitleId, system_id, name, description⟩
    (t, { st with titles := st.titles ++ [t], nextTitleId := st.nextTitleId + 1 },
     { stats with titles := stats.titles + 1 })

/-- `_get_or_create_release`: exact-match lookup on the full six-field
natural key, create when absent. -/
def get_or_create_release (title_id : Nat) (row : Row) (st : DbState) (stats : ImportStats) :
    DbRelease × DbState × ImportStats :=
  let region := rowGet row "region"
  let release_year := to_int (rowGet row "releaseyear")
  let release_month := to_int (rowGet row "releasemonth")
  let serial := rowGet row "serial"
  let display_name : Option String := Option.none
  match st.releases.find? (fun r =>
      r.title_id == title_id && r.region == region && r.release_year == release_year &&
      r.release_month == release_month && r.serial == serial &&
      r.display_name == display_name) with
  | some r => (r, st, stats)
  | Option.none =>
    let r : DbRelease :=
      ⟨st.nextReleaseId, title_id, region, release_year, release_month, serial, display_name⟩
    (r, { st with releases := st.releases ++ [r], nextReleaseId := st.nextReleaseId + 1 },
     { stats with releases := stats.releases + 1 })

/-- `_get_or_create_rom`. -/
def get_or_create_rom (release_id : Nat) (row : Row) (st : DbState) (stats : ImportStats) :
    DbRom × DbState × ImportStats :=
  let rom_name := rowGet row "rom_name"
  let size := to_int (rowGet row "size")
  let crc := rowGet row "crc"
  let md5 := rowGet row "md5"
  let sha1 := rowGet row "sha1"
  match st.roms.find? (fun r =>
      r.release_id == release_id && r.rom_name == rom_name && r.size == size &&
      r.crc == crc && r.md5 == md5 && r.sha1 == sha1) with
  | some r => (r, st, stats)
  | Option.none =>
    let r : DbRom := ⟨st.nextRomId, release_id, rom_name, size, crc, md5, sha1⟩
    (r, { st with roms := st.roms ++ [r], nextRomId := st.nextRomId + 1 },
     { stats with roms := stats.roms + 1 })

/-- `_store_attributes`: one fresh attribute row per non-null field
whose (textual) key is not a known field; a non-textual key counts as a
skipped field. -/
def store_attributes (source : String) (release_id : Nat) :
    Row → DbState → ImportStats → DbState × ImportStats
  | [], st, stats => (st, stats)
  | kv :: rest, st, stats =>
    match kv.1 with
    | .str key =>
      if key ∈ KNOWN_FIELDS then store_attributes source release_id rest st stats
      else if kv.2 = RValue.none then store_attributes source release_id rest st stats
      else
        store_attributes source release_id rest
          { st with
            attrs := st.attrs ++
              [⟨st.nextAttrId, "release", release_id, key, pyStr kv.2, source⟩],
            nextAttrId := st.nextAttrId + 1 }
          { stats with attributes := stats.attributes + 1 }
    | _ =>
      store_attributes source release_id rest st
        { stats with skipped_fields := stats.skipped_fields + 1 }

/-- The body of the `import_file` row loop for one row. -/
def import_row (source : String) (system_id : Nat) (row : Row)
    (st : DbState) (stats : ImportStats) : DbState × ImportStats :=
  let title_name := rowGet row "name"
  if ¬ truthy title_name then (st, { stats with skipped_rows := stats.skipped_rows + 1 })
  else
    let (title, st1, stats1) :=
      get_or_create_title system_id title_name (rowGet row "description") st stats
    let (release, st2, stats2) := get_or_create_release title.id row st1 stats1
    let (_, st3, stats3) := get_or_create_rom release.id row st2 stats2
    store_attributes source release.id row st3 stats3

/-- `import_file` on already-decoded rows (system name is the file
stem; file loading, the row limit and the commit are outside the
model). -/
def import_file (source system_name : String) (rows : List Row)
    (st : DbState) : DbState × ImportStats :=
  let (system, st0, stats0) := get_or_create_system system_name st {}
  rows.foldl (fun acc row => import_row source system.id row acc.1 acc.2) (st0, stats0)

/-- The number of attribute rows one call of `_store_attributes`
inserts for a row: its non-null fields with a textual key outside
`KNOWN_FIELDS`. -/
def attrFieldCount (row : Row) : Nat :=
  (row.filter (fun kv =>
    match kv.1 with
    | .str key => decide (key ∉ KNOWN_FIELDS) && decide (kv.2 ≠ RValue.none)
    | _ => false)).length

/-- The number of non-textual keys of a row (the importer's
`skipped_fields` contribution). -/
def nonStrKeyCount (row : Row) : Nat :=
  (row.filter (fun kv => match kv.1 with | .str _ => false | _ => true)).length

/-! ## The media matcher (`app/core/media/importer.py`) -/

/-- Python `str.isspace()` / regex `\s` (the Unicode whitespace set
used by `str.split` and `str.strip`). -/
def pyIsSpace (c : Char) : Bool :=
  let n := c.toNat
  (0x09 ≤ n && n ≤ 0x0D) || (0x1C ≤ n && n ≤ 0x1F) || n == 0x20 || n == 0x85 ||
    n == 0xA0 || n == 0x1680 || (0x2000 ≤ n && n ≤ 0x200A) || n == 0x2028 ||
    n == 0x2029 || n == 0x202F || n == 0x205F || n == 0x3000

/-- `str.split()` worker: split on whitespace runs, dropping empties;
`acc` holds the reversed current word. -/
def wordsAux : List Char → List Char → List (List Char)
  | [], acc => if acc = [] then [] else [acc.reverse]
  | c :: cs, acc =>
    if pyIsSpace c then
      if acc = [] then wordsAux cs [] else acc.reverse :: wordsAux cs []
    else wordsAux cs (c :: acc)

/-- `str.split()` (no separator: whitespace runs, no empty words). -/
def pyWords (cs : List Char) : List (List Char) := wordsAux cs []

/-- `" ".join(words)`. -/
def intercalateSp : List (List Char) → List Char
  | [] => []
  | [w] => w
  | w :: rest => w ++ ' ' :: intercalateSp rest

/-- `str.strip()`. -/
def stripL (cs : List Char) : List Char :=
  ((cs.dropWhile pyIsSpace).reverse.dropWhile pyIsSpace).reverse

/-- `" ".join(s.split()).strip()`. -/
def collapseL (cs : List Char) : List Char := stripL (intercalateSp (pyWords cs))

/-- `str.replace(")(", ") (")`: left-to-right, non-overlapping,
scanning resumes after each replacement. -/
def parenFix : List Char → List Char
  | ')' :: '(' :: rest => ')' :: ' ' :: '(' :: parenFix rest
  | c :: rest => c :: parenFix rest
  | [] => []

/-- `MediaImporter._normalize_title`, parameterized by the NFKC
normalization and case folding maps (`unicodedata.normalize("NFKC", ·)`
and `str.casefold`), whose tables cannot be embedded: NFKC-normalize,
collapse whitespace runs and trim, rewrite `")("` to `") ("`, then
case-fold. -/
def normalize_title (nfkc cf : String → String) (s : String) : String :=
  cf (String.mk (parenFix (collapseL (nfkc s).data)))

/-- Does `cs` match `REGION_RE`-style trailing-group anatomy?  Used by
`extractRegion` below. -/
def extractRegion (s : String) : Option String :=
  match (s.data.reverse).dropWhile pyIsSpace with
  | ')' :: rest =>
    let fwd := (rest.takeWhile (fun c => c ≠ ')')).reverse
    match fwd.dropWhile (fun c => c ≠ '(') with
    | '(' :: content => if content = [] then Option.none else some (String.mk content)
    | _ => Option.none
  | _ => Option.none

/-- `MediaImporter._match_release`: returns `(release_id?, reason?)`
exactly as the source does. -/
def match_release (releases : List (Nat × Option String × Option String))
    (title_name : String) : Option Nat × Option String :=
  match releases with
  | [] => (Option.none, some "no_releases")
  | [r] => (some r.1, Option.none)
  | _ =>
    match releases.find? (fun r =>
        match r.2.2 with
        | some d => decide (d ≠ "") && decide (d = title_name)
        | Option.none => false) with
    | some r => (some r.1, Option.none)
    | Option.none =>
      let nullStep : Option Nat × Option String :=
        match releases.filter (fun r => r.2.1 == (Option.none : Option String)) with
        | [m] => (some m.1, Option.none)
        | _ => (Option.none, some "ambiguous_release")
      match extractRegion title_name with
      | some region =>
        match releases.filter (fun r => r.2.1 == some region) with
        | [m] => (some m.1, Option.none)
        | [] => nullStep
        | _ => (Option.none, some "ambiguous_release")
      | Option.none => nullStep

/-- Does the suffix match `TRAILING_GROUP_RE`
(`\s*(\[[^\]]*\]|\([^\)]*\))\s*$`) starting here? -/
def groupSuffix (cs : List Char) : Bool :=
  match cs.dropWhile pyIsSpace with
  | '[' :: r =>
    (match r.dropWhile (fun c => c ≠ ']') with
     | ']' :: tail => tail.all pyIsSpace
     | _ => false)
  | '(' :: r =>
    (match r.dropWhile (fun c => c ≠ ')') with
     | ')' :: tail => tail.all pyIsSpace
     | _ => false)
  | _ => false

/-- `TRAILING_GROUP_RE.sub("", cs)`: remove the suffix from the
leftmost position where the anchored pattern matches. -/
def subTrailingGroup (cs : List Char) : List Char :=
  match (List.range (cs.length + 1)).find? (fun i => groupSuffix (cs.drop i)) with
  | some i => cs.take i
  | Option.none => cs

/-- `\d+(?:\.\d+)*` anchored to the end. -/
def numTail (cs : List Char) : Bool :=
  let ds := cs.takeWhile Char.isDigit
  let r := cs.dropWhile Char.isDigit
  ds ≠ [] && numTailGroups r
where
  numTailGroups : List Char → Bool
    | [] => true
    | '.' :: r =>
      let ds := r.takeWhile Char.isDigit
      ds ≠ [] && numTailGroups (r.dropWhile Char.isDigit)
    | _ => false
  termination_by l => l.length
  decreasing_by
    simp only [List.length_cons]
    have := (List.dropWhile_sublist Char.isDigit (l := r)).length_le
    omega

/-- Does the suffix match `TRAILING_VERSION_RE`
(`\s+v?\d+(?:\.\d+)*$`, case-insensitive) starting here? -/
def verSuffix (cs : List Char) : Bool :=
  let sp := cs.takeWhile pyIsSpace
  let r := cs.dropWhile pyIsSpace
  sp ≠ [] &&
    (match r with
     | c :: r2 => (c == 'v' || c == 'V') && numTail r2 || numTail r
     | [] => false)

/-- `TRAILING_VERSION_RE.sub("", cs)`. -/
def subVer (cs : List Char) : List Char :=
  match (List.range (cs.length + 1)).find? (fun i => verSuffix (cs.drop i)) with
  | some i => cs.take i
  | Option.none => cs

/-- Does the suffix match `TRAILING_REV_RE`
(`\s+rev\s*[0-9a-z]+$`, case-insensitive) starting here? -/
def revSuffix (cs : List Char) : Bool :=
  let sp := cs.takeWhile pyIsSpace
  let r := cs.dropWhile pyIsSpace
  sp ≠ [] &&
    (match r with
     | c1 :: c2 :: c3 :: r3 =>
       (c1 == 'r' || c1 == 'R') && (c2 == 'e' || c2 == 'E') && (c3 == 'v' || c3 == 'V') &&
         (let r4 := r3.dropWhile pyIsSpace
          r4 ≠ [] && r4.all (fun c => c.isDigit || ('a' ≤ c && c ≤ 'z') || ('A' ≤ c && c ≤ 'Z')))
     | _ => false)

/-- `TRAILING_REV_RE.sub("", cs)`. -/
def subRev (cs : List Char) : List Char :=
  match (List.range (cs.length + 1)).find? (fun i => revSuffix (cs.drop i)) with
  | some i => cs.take i
  | Option.none => cs

/-- The `while` phase of `_iter_title_candidates`: repeatedly strip one
trailing bracketed group (then `strip()`); stop on the empty string, a
repeat, or a strip that changes nothing.  Returns the yielded
candidates and the final `seen` set (modelled as an insertion-ordered
list).  `fuel` bounds the iterations; each continuing iteration
strictly shortens the string, so `length + 1` always suffices. -/
def bracketPhase : Nat → List Char → List (List Char) → List (List Char) × List (List Char)
  | 0, _, seen => ([], seen)
  | fuel + 1, current, seen =>
    if current ≠ [] ∧ current ∉ seen then
      let seen2 := seen ++ [current]
      let trimmed := stripL (subTrailingGroup current)
      if trimmed = current then ([current], seen2)
      else
        (current :: (bracketPhase fuel trimmed seen2).1, (bracketPhase fuel trimmed seen2).2)
    else ([], seen)

/-- The second phase of `_iter_title_candidates`: for each collected
candidate, additionally strip a trailing version and/or revision
suffix, yielding unseen results. -/
def extraPhase : List (List Char) → List (List Char) → List (List Char)
  | [], _ => []
  | cand :: rest, seen =>
    let stripped := stripL (subRev (stripL (subVer cand)))
    if stripped ≠ [] ∧ stripped ∉ seen then
      stripped :: extraPhase rest (seen ++ [stripped])
    else extraPhase rest seen

/-- `MediaImporter._iter_title_candidates` as the list of yielded
candidates, in order. -/
def iter_title_candidates (nfkc cf : String → String) (title_name : String) : List String :=
  let c0 := (normalize_title nfkc cf title_name).data
  let (ys, seen) := bracketPhase (c0.length + 1) c0 []
  (ys ++ extraPhase seen seen).map String.mk

/-! ## A concrete fragment of the Unicode data

`nfkcFrag`/`cfFrag` agree with Python's `unicodedata.normalize("NFKC", ·)`
and `str.casefold` on the Greek characters below (Unicode 15): the
full case folding of U+1FB7 is U+03B1 U+0342 U+03B9 and of U+1FB6 is
U+03B1 U+0342; canonical composition rebuilds U+1FB6 from
U+03B1 U+0342 and U+1F30 from U+03B9 U+0313. -/

/-- Per-character full case folding on the fragment. -/
def cfFragChar (c : Char) : List Char :=
  if c = Char.ofNat 0x1FB7 then [Char.ofNat 0x3B1, Char.ofNat 0x342, Char.ofNat 0x3B9]
  else if c = Char.ofNat 0x1FB6 then [Char.ofNat 0x3B1, Char.ofNat 0x342]
  else [c]

/-- `str.casefold` on the fragment. -/
def cfFrag (s : String) : String := String.mk ((s.data.map cfFragChar).flatten)

/-- Canonical (re)composition pass of NFKC on the fragment. -/
def nfkcFragL : List Char → List Char
  | a :: b :: rest =>
    if a = Char.ofNat 0x3B1 ∧ b = Char.ofNat 0x342 then Char.ofNat 0x1FB6 :: nfkcFragL rest
    else if a = Char.ofNat 0x3B9 ∧ b = Char.ofNat 0x313 then Char.ofNat 0x1F30 :: nfkcFragL rest
    else a :: nfkcFragL (b :: rest)
  | l => l

/-- `unicodedata.normalize("NFKC", ·)` on the fragment. -/
def nfkcFrag (s : String) : String := String.mk (nfkcFragL s.data)

/-- Decidable equality of decode results (for concrete evaluation). -/
instance : DecidableEq (Except Err Rdb) := fun a b =>
  match a, b with
  | .ok x, .ok y => decidable_of_iff (x = y) (by simp)
  | .error x, .error y => decidable_of_iff (x = y) (by simp)
  | .ok _, .error _ => isFalse (by simp)
  | .error _, .ok _ => isFalse (by simp)

/-! ## Well-formedness of a table for the encode/decode round trip -/

/-- The string under a `str` dynamic value (decoded keys always are). -/
def pyKeyStr : RValue → String
  | .str s => s
  | _ => ""

/-- All characters ASCII (so `struct.pack(f"{len}s", ...)` does not
truncate the UTF-8 payload). -/
def asciiStrB (s : String) : Bool := s.data.all (fun c => c.toNat < 128)

/-- A field key the wire format round-trips: ASCII and short enough
for the (correctly decoded) fixstr/str8 forms. -/
def goodKeyB (k : String) : Bool := asciiStrB k && decide (k.length < 256)

/-- A lowercase hexadecimal digit. -/
def lowerHexB (c : Char) : Bool :=
  (48 ≤ c.toNat && c.toNat ≤ 57) || (97 ≤ c.toNat && c.toNat ≤ 102)

/-- A value that survives the encode/decode round trip at the given
column type: integers within the packable 64-bit ranges, ASCII strings
shorter than 256 (fixstr/str8 decode correctly; str16/str32 do not,
see the C3 bug), lowercase even-length hex for binaries shorter than
256 bytes (bin8 decodes correctly), booleans and nil. -/
def goodValB : String → RValue → Bool
  | "uint", .num v => decide (0 ≤ v) && decide (v < 18446744073709551616)
  | "int", .num v =>
    decide (-9223372036854775808 ≤ v) && decide (v < 9223372036854775808)
  | "string", .str s => asciiStrB s && decide (s.length < 256)
  | "binstr", .str s =>
    s.data.all lowerHexB && decide (s.length % 2 = 0) && decide (s.length < 512)
  | "bool", .bool _ => true
  | "nil", .none => true
  | _, _ => false

/-- A row field the round trip preserves: a string key and a value
matching its column's recorded type. -/
def fieldOkB (columns : List (String × String)) (kv : RValue × RValue) : Bool :=
  match kv.1 with
  | .str k =>
    goodKeyB k &&
      (match lookupOD columns k with
       | some typ => goodValB typ kv.2
       | Option.none => false)
  | _ => false

/-- A row the round trip preserves: not shaped like the one-field
`count` metadata record, distinct keys, fixmap-encodable arity, and
well-typed fields. -/
def rowOkB (columns : List (String × String)) (row : Row) : Bool :=
  !(row.length == 1 && (lookupOD row (RValue.str "count")).isSome) &&
    decide ((row.map Prod.fst).Nodup) &&
    decide (row.length < 4294967296) &&
    row.all (fun kv => fieldOkB columns kv)

/-- The column map `from_bytes` derives from the rows: first
occurrence of each key wins, bound to the type the value decodes at. -/
def expectedColumns (t : Rdb) : List (String × String) :=
  t.rows.foldl
    (fun cols row =>
      row.foldl
        (fun c kv =>
          match kv.1 with
          | .str k => setdefaultOD c k (colType t.columns kv.1 kv.2)
          | _ => c)
        cols)
    []

/-- A header `struct.pack("8sQ", ...)` reproduces verbatim. -/
def headerOkB (h : RdbHeader) : Bool :=
  h.magic.length == 8 && h.magic.all (fun b => b < 256) &&
    decide (h.offset < 18446744073709551616)

/-- When a `name` column exists, every row's sort key must be a string
and the rows must already be in sorted order (the decoder's stable
sort then leaves them unchanged). -/
def sortKeysOkB (t : Rdb) : Bool :=
  match lookupOD t.columns "name" with
  | some _ =>
    t.rows.all (fun row => match nameKeyOf row with | .str _ => true | _ => false) &&
      decide (t.rows.Pairwise (fun r1 r2 => pyStrLe (strKey r1) (strKey r2) = true))
  | Option.none => true

/-- A well-formed table: the class of tables on which
`from_bytes (to_bytes t)` reproduces `t` exactly. -/
def wfTable (t : Rdb) : Bool :=
  headerOkB t.header &&
    t.metadata == [("count", RValue.num (t.rows.length : Int))] &&
    decide (t.rows.length < 18446744073709551616) &&
    t.rows.all (fun row => rowOkB t.columns row) &&
    t.columns == expectedColumns t &&
    sortKeysOkB t

/-- The tag bytes `_get_rmsg` does not recognize: `C1`, `C7`–`CB`,
`D4`–`D8`, `DC`, `DD` (array16/32 are declared as constants in the
source but never handled). -/
def unknownTag (b : Nat) : Prop :=
  b = 0xC1 ∨ (0xC7 ≤ b ∧ b ≤ 0xCB) ∨ (0xD4 ≤ b ∧ b ≤ 0xD8) ∨ b = 0xDC ∨ b = 0xDD

instance (b : Nat) : Decidable (unknownTag b) := by
  unfold unknownTag
  infer_instance

/-- The (key, column type) pairs a well-typed row contributes to the
decoder's column map, in field order. -/
def rowTypes (encCols : List (String × String)) (row : Row) : List (String × String) :=
  row.map (fun kv => (pyKeyStr kv.1, colType encCols kv.1 kv.2))

/-- A word list as `str.split()` produces it: every word nonempty and
free of whitespace. -/
def goodWordsP (ws : List (List Char)) : Prop :=
  ∀ w ∈ ws, w ≠ [] ∧ ∀ c ∈ w, pyIsSpace c = false

/-! ### Theorems -/

/-! ### Width selection of the integer encoders (claim C2) -/

/-- `set_rmsg` specialised to the `"int"` type tag. -/
theorem set_rmsg_int_def (v : RValue) : set_rmsg "int" v =
    (match v with
     | .num n =>
       if -32 ≤ n ∧ n < 128 then some (beSigned 1 n)
       else if -128 ≤ n ∧ n < 128 then some (0xD0 :: beSigned 1 n)
       else if -32768 ≤ n ∧ n < 32768 then some (0xD1 :: beSigned 2 n)
       else if -2147483648 ≤ n ∧ n < 2147483648 then some (0xD2 :: beSigned 4 n)
       else if -9223372036854775808 ≤ n ∧ n < 9223372036854775808 then
         some (0xD3 :: beSigned 8 n)
       else Option.none
     | _ => Option.none) := rfl

/-- `set_rmsg` specialised to the `"uint"` type tag. -/
theorem set_rmsg_uint_def (v : RValue) : set_rmsg "uint" v =
    (match v with
     | .num n =>
       if n < 256 then (if 0 ≤ n then some [0xCC, n.toNat] else Option.none)
       else if n < 65536 then some (0xCD :: beBytes 2 n.toNat)
       else if n < 4294967296 then some (0xCE :: beBytes 4 n.toNat)
       else if n < 18446744073709551616 then some (0xCF :: beBytes 8 n.toNat)
       else Option.none
     | _ => Option.none) := rfl

/-- C2 counterexample: the claim says values in `-32..127` are encoded
as a single fixint byte for both the `int` and the `uint` message
types, but the `uint` branch of `_set_rmsg` has no fixint case: 100 as
a `uint` message is the two-byte tagged uint8 form `CC 64`, not one
fixint byte. -/
theorem uint_100_is_not_fixint :
    set_rmsg "uint" (.num 100) = some [0xCC, 100] ∧
    ∀ bs, set_rmsg "uint" (.num 100) = some bs → bs.length ≠ 1 := by
  refine ⟨rfl, ?_⟩
  intro bs h
  rw [show set_rmsg "uint" (.num 100) = some [0xCC, 100] from rfl] at h
  cases h
  decide

/-- C2 (amended): minimal-width selection as the code implements it.
`int` messages use a single fixint byte on `-32..127` and then the
smallest signed sized form that fits; `uint` messages never use
fixint — they use the smallest of uint8/16/32/64 that fits (so 100
is one byte only as an `int` message; 200 is tagged uint8 as a `uint`
message but int16 as an `int` message). -/
theorem set_rmsg_minimal_widths (n : Int) :
    ((-32 ≤ n ∧ n < 128) → set_rmsg "int" (.num n) = some (beSigned 1 n)) ∧
    ((-128 ≤ n ∧ n < -32) → set_rmsg "int" (.num n) = some (0xD0 :: beSigned 1 n)) ∧
    (((-32768 ≤ n ∧ n < -128) ∨ (128 ≤ n ∧ n < 32768)) →
      set_rmsg "int" (.num n) = some (0xD1 :: beSigned 2 n)) ∧
    (((-2147483648 ≤ n ∧ n < -32768) ∨ (32768 ≤ n ∧ n < 2147483648)) →
      set_rmsg "int" (.num n) = some (0xD2 :: beSigned 4 n)) ∧
    (((-9223372036854775808 ≤ n ∧ n < -2147483648) ∨
        (2147483648 ≤ n ∧ n < 9223372036854775808)) →
      set_rmsg "int" (.num n) = some (0xD3 :: beSigned 8 n)) ∧
    ((0 ≤ n ∧ n < 256) → set_rmsg "uint" (.num n) = some [0xCC, n.toNat]) ∧
    ((256 ≤ n ∧ n < 65536) → set_rmsg "uint" (.num n) = some (0xCD :: beBytes 2 n.toNat)) ∧
    ((65536 ≤ n ∧ n < 4294967296) →
      set_rmsg "uint" (.num n) = some (0xCE :: beBytes 4 n.toNat)) ∧
    ((4294967296 ≤ n ∧ n < 18446744073709551616) →
      set_rmsg "uint" (.num n) = some (0xCF :: beBytes 8 n.toNat)) := by
  rw [set_rmsg_int_def, set_rmsg_uint_def]
  dsimp only
  refine ⟨?_, ?_, ?_, ?_, ?_, ?_, ?_, ?_, ?_⟩ <;> intro h <;> split_ifs <;> first
    | rfl
    | omega

/-- Witness for `set_rmsg_minimal_widths` at `n = 200`. -/
theorem set_rmsg_minimal_widths_witness :
    set_rmsg "int" (.num 200) = some (0xD1 :: beSigned 2 200) ∧
    set_rmsg "uint" (.num 200) = some [0xCC, (200 : Int).toNat] := by
  refine ⟨(set_rmsg_minimal_widths 200).2.2.1 ?_, (set_rmsg_minimal_widths 200).2.2.2.2.2.1 ?_⟩
  · right; constructor <;> norm_num
  · constructor <;> norm_num

/-! ### The bin/str length-prefix bug of the decoder (claim C3) -/

/-- C3: the decoder's bin/str length prefixes are wrong.  The spec
(and the encoder, which packs `>H`/`>I` prefixes) mandates big-endian
length prefixes of exactly 1/2/4 bytes for bin8/16/32 and str8/16/32.
The decoder instead computes `bytelen = (tag ^ base) + 1`, which is
1/2/3 for `C4/C5/C6` and 1/4/3 for `D9/DA/DB`, and then takes only the
FIRST prefix byte as the length.  Concretely: a bin16 message with a
big-endian length of `0x012C = 300` is read as length 1 (consuming 4
bytes in total), and a str16 message consumes a 4-byte prefix instead
of 2, and a str32 message a 3-byte prefix instead of 4. -/
theorem bin_str_prefix_bug :
    get_rmsg [0xC5, 0x01, 0x2C, 0xAA] 0 = .ok (4, .binstr "aa") ∧
    get_rmsg [0xDA, 0, 5, 104, 101, 108, 108, 111] 0 = .ok (5, .string "") ∧
    get_rmsg [0xDB, 0, 0, 1, 65] 0 = .ok (4, .string "") := by
  refine ⟨rfl, rfl, rfl⟩

/-! ### The encoder silently drops unknown message types (claim C10) -/

/-- C10: `_set_rmsg` never raises on an unrecognized message type tag;
any `typ` outside {fixmap, string, binstr, uint, int, nil, bool} — in
particular the `"fixarray"` type the decoder can produce — falls
through every branch and returns the empty byte sequence, silently
omitting the value. -/
theorem set_rmsg_unknown_typ_empty (typ : String) (v : RValue)
    (h1 : typ ≠ "fixmap") (h2 : typ ≠ "string") (h3 : typ ≠ "binstr")
    (h4 : typ ≠ "uint") (h5 : typ ≠ "int") (h6 : typ ≠ "nil") (h7 : typ ≠ "bool") :
    set_rmsg typ v = some [] := by
  unfold set_rmsg
  rw [if_neg h1, if_neg h2, if_neg h3, if_neg h4, if_neg h5, if_neg h6, if_neg h7]

/-- Witness for `set_rmsg_unknown_typ_empty` at the `"fixarray"` type
actually produced by the decoder. -/
theorem set_rmsg_unknown_typ_empty_witness :
    set_rmsg "fixarray" (.bytes [1, 2, 3]) = some [] :=
  set_rmsg_unknown_typ_empty "fixarray" (.bytes [1, 2, 3])
    (by decide) (by decide) (by decide) (by decide) (by decide) (by decide) (by decide)

/-! ### Totality of release matching (claim C4) -/

/-- C4: `_match_release` is total: for every release list and title
string it returns either a release id present in the list (with no
failure reason) or one of the failure reasons `no_releases` /
`ambiguous_release` (the caller maps any other missing id to
`unmatched_release`); and when the list has exactly one element that
release is returned unconditionally, whatever the title string. -/
theorem match_release_total (releases : List (Nat × Option String × Option String))
    (title_name : String) :
    ((∃ rid, match_release releases title_name = (some rid, Option.none) ∧
        rid ∈ releases.map (fun r => r.1)) ∨
      match_release releases title_name = (Option.none, some "no_releases") ∨
      match_release releases title_name = (Option.none, some "ambiguous_release")) ∧
    (∀ r, releases = [r] → match_release releases title_name = (some r.1, Option.none)) := by
  constructor
  · match releases with
    | [] => right; left; rfl
    | [r] => left; exact ⟨r.1, rfl, by simp⟩
    | a :: b :: rest =>
      rw [match_release]
      cases hf : (a :: b :: rest).find? (fun r =>
          match r.2.2 with
          | some d => decide (d ≠ "") && decide (d = title_name)
          | Option.none => false) with
      | some r =>
        dsimp only
        left
        exact ⟨r.1, rfl, List.mem_map_of_mem _ (List.mem_of_find?_eq_some hf)⟩
      | none =>
        dsimp only
        have hnull :
            (∃ rid, (match (a :: b :: rest).filter
                  (fun r => r.2.1 == (Option.none : Option String)) with
                | [m] => (some m.1, (Option.none : Option String))
                | _ => ((Option.none : Option Nat), some "ambiguous_release")) =
                (some rid, Option.none) ∧
              rid ∈ (a :: b :: rest).map (fun r => r.1)) ∨
            (match (a :: b :: rest).filter
                (fun r => r.2.1 == (Option.none : Option String)) with
              | [m] => (some m.1, (Option.none : Option String))
              | _ => ((Option.none : Option Nat), some "ambiguous_release")) =
              (Option.none, some "no_releases") ∨
            (match (a :: b :: rest).filter
                (fun r => r.2.1 == (Option.none : Option String)) with
              | [m] => (some m.1, (Option.none : Option String))
              | _ => ((Option.none : Option Nat), some "ambiguous_release")) =
              (Option.none, some "ambiguous_release") := by
          cases hfl : (a :: b :: rest).filter
              (fun r => r.2.1 == (Option.none : Option String)) with
          | nil => right; right; rfl
          | cons m tl =>
            cases tl with
            | nil =>
              left
              refine ⟨m.1, rfl, List.mem_map_of_mem _ ?_⟩
              have hm : m ∈ (a :: b :: rest).filter
                  (fun r => r.2.1 == (Option.none : Option String)) := by
                rw [hfl]; exact List.mem_singleton_self m
              exact List.mem_of_mem_filter hm
            | cons m2 tl2 => right; right; rfl
        cases hr : extractRegion title_name with
        | none => exact hnull
        | some region =>
          dsimp only
          cases hfl : (a :: b :: rest).filter (fun r => r.2.1 == some region) with
          | nil => exact hnull
          | cons m tl =>
            cases tl with
            | nil =>
              left
              refine ⟨m.1, rfl, List.mem_map_of_mem _ ?_⟩
              have hm : m ∈ (a :: b :: rest).filter (fun r => r.2.1 == some region) := by
                rw [hfl]; exact List.mem_singleton_self m
              exact List.mem_of_mem_filter hm
            | cons m2 tl2 => right; right; rfl
      all_goals first
        | (intro h; exact List.noConfusion h)
        | (intro r h; injection h with h1 h2; exact List.noConfusion h2)
  · intro r hr
    subst hr
    rfl

/-! ### Candidate generation (claim C7) -/

/-- `strip()` never lengthens a string. -/
theorem length_stripL_le (cs : List Char) : (stripL cs).length ≤ cs.length := by
  have h1 := (List.dropWhile_sublist pyIsSpace (l := cs)).length_le
  have h2 := (List.dropWhile_sublist pyIsSpace
    (l := (cs.dropWhile pyIsSpace).reverse)).length_le
  simp only [stripL, List.length_reverse] at *
  omega

/-- `strip()` that preserves the length is the identity. -/
theorem stripL_eq_of_length (cs : List Char) (h : (stripL cs).length = cs.length) :
    stripL cs = cs := by
  have h1 := (List.dropWhile_sublist pyIsSpace (l := cs))
  have h2 := (List.dropWhile_sublist pyIsSpace (l := (cs.dropWhile pyIsSpace).reverse))
  simp only [stripL, List.length_reverse] at h
  have e1 : cs.dropWhile pyIsSpace = cs := h1.eq_of_length (by
    have := h2.length_le
    have := h1.length_le
    simp only [List.length_reverse] at *
    omega)
  have e2 : (cs.dropWhile pyIsSpace).reverse.dropWhile pyIsSpace =
      (cs.dropWhile pyIsSpace).reverse := h2.eq_of_length (by
    simp only [List.length_reverse, e1] at *
    omega)
  rw [stripL, e2, List.reverse_reverse]
  exact e1

/-- A matched trailing group spans at least two characters. -/
theorem groupSuffix_length (cs : List Char) (h : groupSuffix cs = true) :
    2 ≤ cs.length := by
  unfold groupSuffix at h
  split at h
  next r heq =>
    have hlen : ('[' :: r).length ≤ cs.length := by
      have hs := (List.dropWhile_sublist pyIsSpace (l := cs)).length_le
      rw [heq] at hs
      exact hs
    split at h
    next tail heq2 =>
      have hlen2 : (']' :: tail).length ≤ r.length := by
        have hs := (List.dropWhile_sublist (fun c => decide (c ≠ ']')) (l := r)).length_le
        rw [heq2] at hs
        exact hs
      simp only [List.length_cons] at *
      omega
    next => exact absurd h (by simp)
  next r heq =>
    have hlen : ('(' :: r).length ≤ cs.length := by
      have hs := (List.dropWhile_sublist pyIsSpace (l := cs)).length_le
      rw [heq] at hs
      exact hs
    split at h
    next tail heq2 =>
      have hlen2 : (')' :: tail).length ≤ r.length := by
        have hs := (List.dropWhile_sublist (fun c => decide (c ≠ ')')) (l := r)).length_le
        rw [heq2] at hs
        exact hs
      simp only [List.length_cons] at *
      omega
    next => exact absurd h (by simp)
  next => exact absurd h (by simp)

/-- `TRAILING_GROUP_RE.sub` either changes nothing or removes at least
two characters. -/
theorem subTrailingGroup_cases (cs : List Char) :
    subTrailingGroup cs = cs ∨ (subTrailingGroup cs).length + 2 ≤ cs.length := by
  unfold subTrailingGroup
  cases hfind : (List.range (cs.length + 1)).find? (fun i => groupSuffix (cs.drop i)) with
  | none => left; rfl
  | some i =>
    right
    have hgs : groupSuffix (cs.drop i) = true := by
      have hp := List.find?_some hfind
      simpa using hp
    have h2 : 2 ≤ (cs.drop i).length := groupSuffix_length _ hgs
    have hdl : (cs.drop i).length = cs.length - i := List.length_drop i cs
    have htk : (cs.take i).length ≤ i := List.length_take_le i cs
    dsimp only
    omega

/-- One continuing iteration of the candidate loop strictly shortens
the current string. -/
theorem trimmed_length_lt (current : List Char)
    (h : stripL (subTrailingGroup current) ≠ current) :
    (stripL (subTrailingGroup current)).length < current.length := by
  rcases subTrailingGroup_cases current with heq | hlt
  · rw [heq] at h ⊢
    have hle := length_stripL_le current
    rcases Nat.lt_or_ge (stripL current).length current.length with hl | hg
    · exact hl
    · exact absurd (stripL_eq_of_length current (by omega)) h
  · have := length_stripL_le (subTrailingGroup current)
    omega

/-- The candidate loop is insensitive to the fuel bound once the fuel
exceeds the current string length: the recursion reaches its stopping
condition first. -/
theorem bracketPhase_fuel_stable (n : Nat) :
    ∀ (current : List Char) (seen : List (List Char)) (f1 f2 : Nat),
      current.length ≤ n → current.length < f1 → current.length < f2 →
      bracketPhase f1 current seen = bracketPhase f2 current seen := by
  induction n with
  | zero =>
    intro current seen f1 f2 hn h1 h2
    obtain ⟨a, rfl⟩ : ∃ a, f1 = a + 1 := ⟨f1 - 1, by omega⟩
    obtain ⟨b, rfl⟩ : ∃ b, f2 = b + 1 := ⟨f2 - 1, by omega⟩
    have hcur : current = [] := List.eq_nil_of_length_eq_zero (by omega)
    subst hcur
    simp [bracketPhase]
  | succ n ih =>
    intro current seen f1 f2 hn h1 h2
    obtain ⟨a, rfl⟩ : ∃ a, f1 = a + 1 := ⟨f1 - 1, by omega⟩
    obtain ⟨b, rfl⟩ : ∃ b, f2 = b + 1 := ⟨f2 - 1, by omega⟩
    simp only [bracketPhase]
    split_ifs with hcond htrim
    · rfl
    · have hlt := trimmed_length_lt current htrim
      rw [ih (stripL (subTrailingGroup current)) (seen ++ [current]) a b
        (by omega) (by omega) (by omega)]
    · rfl

/-- The yielded list of the candidate loop starts with the current
string (when nonempty) and its successive entries never lengthen. -/
theorem bracketPhase_chain (fuel : Nat) :
    ∀ (current : List Char) (seen : List (List Char)),
      ((bracketPhase fuel current seen).1 = [] ∨
        ∃ tl, (bracketPhase fuel current seen).1 = current :: tl) ∧
      List.Chain' (fun a b => b.length ≤ a.length) (bracketPhase fuel current seen).1 := by
  induction fuel with
  | zero => intro current seen; exact ⟨Or.inl rfl, List.chain'_nil⟩
  | succ f ih =>
    intro current seen
    simp only [bracketPhase]
    split_ifs with hcond htrim
    · exact ⟨Or.inr ⟨[], rfl⟩, List.chain'_singleton _⟩
    · obtain ⟨hshape, hchain⟩ := ih (stripL (subTrailingGroup current)) (seen ++ [current])
      refine ⟨Or.inr ⟨_, rfl⟩, ?_⟩
      rcases hshape with hnil | ⟨tl, htl⟩
      · rw [hnil]
        exact List.chain'_singleton _
      · rw [htl] at hchain ⊢
        exact List.chain'_cons.mpr ⟨Nat.le_of_lt (trimmed_length_lt current htrim), hchain⟩
    · exact ⟨Or.inl rfl, List.chain'_nil⟩

/-- C7: candidate generation terminates — the while loop of
`_iter_title_candidates` reaches its stopping condition within
`length + 1` iterations, so the candidate sequence is the finite list
`iter_title_candidates` — and every successive bracket-stripped
candidate is no longer than its predecessor. -/
theorem iter_title_candidates_finite_and_monotone (nfkc cf : String → String) (s : String) :
    (∀ fuel, (normalize_title nfkc cf s).data.length < fuel →
      bracketPhase fuel (normalize_title nfkc cf s).data [] =
        bracketPhase ((normalize_title nfkc cf s).data.length + 1)
          (normalize_title nfkc cf s).data []) ∧
    List.Chain' (fun a b => b.length ≤ a.length)
      (bracketPhase ((normalize_title nfkc cf s).data.length + 1)
        (normalize_title nfkc cf s).data []).1 := by
  constructor
  · intro fuel hfuel
    exact bracketPhase_fuel_stable (normalize_title nfkc cf s).data.length
      (normalize_title nfkc cf s).data [] fuel _ (Nat.le_refl _) hfuel (Nat.lt_succ_self _)
  · exact (bracketPhase_chain _ _ _).2

/-- Witness for `iter_title_candidates_finite_and_monotone` at the
identity Unicode maps and a concrete title: any fuel beyond the bound
computes the same candidate chain. -/
theorem iter_title_candidates_witness :
    bracketPhase 100 (normalize_title id id "Game (USA) [b1]").data [] =
      bracketPhase ((normalize_title id id "Game (USA) [b1]").data.length + 1)
        (normalize_title id id "Game (USA) [b1]").data [] ∧
    List.Chain' (fun a b => b.length ≤ a.length)
      (bracketPhase ((normalize_title id id "Game (USA) [b1]").data.length + 1)
        (normalize_title id id "Game (USA) [b1]").data []).1 :=
  ⟨(iter_title_candidates_finite_and_monotone id id "Game (USA) [b1]").1 100 (by decide),
   (iter_title_candidates_finite_and_monotone id id "Game (USA) [b1]").2⟩

/-- Witness for `match_release_total`: a two-release list resolved by
the trailing region code, and the singleton clause at a concrete
release. -/
theorem match_release_total_witness :
    ((∃ rid, match_release [(1, some "USA", Option.none), (2, some "Europe", Option.none)]
        "Game (Europe)" = (some rid, Option.none) ∧
        rid ∈ ([(1, some "USA", Option.none), (2, some "Europe", Option.none)] :
          List (Nat × Option String × Option String)).map (fun r => r.1)) ∨
      match_release [(1, some "USA", Option.none), (2, some "Europe", Option.none)]
        "Game (Europe)" = (Option.none, some "no_releases") ∨
      match_release [(1, some "USA", Option.none), (2, some "Europe", Option.none)]
        "Game (Europe)" = (Option.none, some "ambiguous_release")) ∧
    match_release [(7, some "USA", Option.none)] "anything" = (some 7, Option.none) :=
  ⟨(match_release_total [(1, some "USA", Option.none), (2, some "Europe", Option.none)]
      "Game (Europe)").1,
   (match_release_total [(7, some "USA", Option.none)] "anything").2
      (7, some "USA", Option.none) rfl⟩

/-! ### Dedup on natural keys versus attribute accumulation (claim C5) -/

/-- `_store_attributes` only appends attribute rows: every other table
and counter is untouched, and exactly one row per non-null
unrecognized textual field is added. -/
theorem store_attributes_spec (source : String) (rid : Nat) :
    ∀ (row : Row) (st : DbState) (stats : ImportStats),
      (store_attributes source rid row st stats).1.systems = st.systems ∧
      (store_attributes source rid row st stats).1.titles = st.titles ∧
      (store_attributes source rid row st stats).1.releases = st.releases ∧
      (store_attributes source rid row st stats).1.roms = st.roms ∧
      (store_attributes source rid row st stats).1.nextSystemId = st.nextSystemId ∧
      (store_attributes source rid row st stats).1.nextTitleId = st.nextTitleId ∧
      (store_attributes source rid row st stats).1.nextReleaseId = st.nextReleaseId ∧
      (store_attributes source rid row st stats).1.nextRomId = st.nextRomId ∧
      (store_attributes source rid row st stats).1.attrs.length =
        st.attrs.length + attrFieldCount row := by
  intro row
  induction row with
  | nil => intro st stats; simp [store_attributes, attrFieldCount]
  | cons kv rest ih =>
    intro st stats
    rw [store_attributes]
    cases hk : kv.1 with
    | str key =>
      dsimp only
      by_cases hknown : key ∈ KNOWN_FIELDS
      · rw [if_pos hknown]
        have hcnt : attrFieldCount (kv :: rest) = attrFieldCount rest := by
          simp [attrFieldCount, List.filter, hk, hknown]
        rw [hcnt]
        exact ih st stats
      · rw [if_neg hknown]
        by_cases hnone : kv.2 = RValue.none
        · rw [if_pos hnone]
          have hcnt : attrFieldCount (kv :: rest) = attrFieldCount rest := by
            simp [attrFieldCount, List.filter, hk, hknown, hnone]
          rw [hcnt]
          exact ih st stats
        · rw [if_neg hnone]
          have hcnt : attrFieldCount (kv :: rest) = attrFieldCount rest + 1 := by
            simp [attrFieldCount, List.filter, hk, hknown, hnone]
          obtain ⟨e1, e2, e3, e4, e5, e6, e7, e8, e9⟩ := ih
            { st with
              attrs := st.attrs ++
                [⟨st.nextAttrId, "release", rid, key, pyStr kv.2, source⟩],
              nextAttrId := st.nextAttrId + 1 }
            { stats with attributes := stats.attributes + 1 }
          refine ⟨e1, e2, e3, e4, e5, e6, e7, e8, ?_⟩
          rw [e9]
          simp [hcnt]
          omega
    | num n =>
      dsimp only
      have hcnt : attrFieldCount (kv :: rest) = attrFieldCount rest := by
        simp [attrFieldCount, List.filter, hk]
      rw [hcnt]
      exact ih st _
    | bool b =>
      dsimp only
      have hcnt : attrFieldCount (kv :: rest) = attrFieldCount rest := by
        simp [attrFieldCount, List.filter, hk]
      rw [hcnt]
      exact ih st _
    | none =>
      dsimp only
      have hcnt : attrFieldCount (kv :: rest) = attrFieldCount rest := by
        simp [attrFieldCount, List.filter, hk]
      rw [hcnt]
      exact ih st _
    | bytes bs =>
      dsimp only
      have hcnt : attrFieldCount (kv :: rest) = attrFieldCount rest := by
        simp [attrFieldCount, List.filter, hk]
      rw [hcnt]
      exact ih st _

/-- The first import of a row into an empty store creates one system,
one title, one release and one rom, then stores the attributes. -/
theorem import_file_first_step (source system_name : String) (row : Row)
    (hname : truthy (rowGet row "name") = true) :
    import_file source system_name [row] {} =
      store_attributes source 1 row
        { systems := [⟨1, system_name⟩],
          titles := [⟨1, 1, rowGet row "name", rowGet row "description"⟩],
          releases := [⟨1, 1, rowGet row "region", to_int (rowGet row "releaseyear"),
            to_int (rowGet row "releasemonth"), rowGet row "serial", Option.none⟩],
          roms := [⟨1, 1, rowGet row "rom_name", to_int (rowGet row "size"),
            rowGet row "crc", rowGet row "md5", rowGet row "sha1"⟩],
          attrs := [],
          nextSystemId := 2, nextTitleId := 2, nextReleaseId := 2, nextRomId := 2,
          nextAttrId := 1 }
        { systems := 1, titles := 1, releases := 1, roms := 1 } := by
  simp only [import_file, get_or_create_system, get_or_create_title, get_or_create_release,
    get_or_create_rom, import_row, List.find?_nil, List.foldl_cons, List.foldl_nil, hname,
    not_true, if_false]
  rfl

/-- A repeated import of the same row into a store already holding its
system, title, release and rom rows finds every entity by its natural
key and only re-stores the attributes. -/
theorem import_file_second_step (source system_name : String) (row : Row)
    (hname : truthy (rowGet row "name") = true) (st : DbState)
    (h1 : st.systems = [⟨1, system_name⟩])
    (h2 : st.titles = [⟨1, 1, rowGet row "name", rowGet row "description"⟩])
    (h3 : st.releases = [⟨1, 1, rowGet row "region", to_int (rowGet row "releaseyear"),
        to_int (rowGet row "releasemonth"), rowGet row "serial", Option.none⟩])
    (h4 : st.roms = [⟨1, 1, rowGet row "rom_name", to_int (rowGet row "size"),
        rowGet row "crc", rowGet row "md5", rowGet row "sha1"⟩]) :
    import_file source system_name [row] st = store_attributes source 1 row st {} := by
  simp only [import_file, get_or_create_system, get_or_create_title, get_or_create_release,
    get_or_create_rom, import_row, h1, h2, h3, h4, List.find?_cons, List.find?_nil,
    List.foldl_cons, List.foldl_nil, hname, beq_self_eq_true, Bool.and_self, if_true,
    not_true, if_false, and_not_self, Bool.true_and, Bool.and_true]

/-- C5: importing the same RDB row twice into the same (initially
empty) store leaves exactly one System, Title, Release and Rom row —
get-or-create deduplicates on the natural keys — while Attribute rows
are not deduplicated: each import inserts one fresh Attribute row per
non-null unrecognized field, so the double import holds twice as many
of them. -/
theorem import_rdb_row_twice_dedup (source system_name : String) (row : Row)
    (hname : truthy (rowGet row "name") = true) :
    ((import_file source system_name [row] {}).1.systems.length = 1 ∧
      (import_file source system_name [row] {}).1.titles.length = 1 ∧
      (import_file source system_name [row] {}).1.releases.length = 1 ∧
      (import_file source system_name [row] {}).1.roms.length = 1 ∧
      (import_file source system_name [row] {}).1.attrs.length = attrFieldCount row) ∧
    ((import_file source system_name [row]
        (import_file source system_name [row] {}).1).1.systems.length = 1 ∧
      (import_file source system_name [row]
        (import_file source system_name [row] {}).1).1.titles.length = 1 ∧
      (import_file source system_name [row]
        (import_file source system_name [row] {}).1).1.releases.length = 1 ∧
      (import_file source system_name [row]
        (import_file source system_name [row] {}).1).1.roms.length = 1 ∧
      (import_file source system_name [row]
        (import_file source system_name [row] {}).1).1.attrs.length =
        2 * attrFieldCount row) := by
  rw [import_file_first_step source system_name row hname]
  obtain ⟨e1, e2, e3, e4, _, _, _, _, e9⟩ := store_attributes_spec source 1 row
    { systems := [⟨1, system_name⟩],
      titles := [⟨1, 1, rowGet row "name", rowGet row "description"⟩],
      releases := [⟨1, 1, rowGet row "region", to_int (rowGet row "releaseyear"),
        to_int (rowGet row "releasemonth"), rowGet row "serial", Option.none⟩],
      roms := [⟨1, 1, rowGet row "rom_name", to_int (rowGet row "size"),
        rowGet row "crc", rowGet row "md5", rowGet row "sha1"⟩],
      attrs := [],
      nextSystemId := 2, nextTitleId := 2, nextReleaseId := 2, nextRomId := 2,
      nextAttrId := 1 }
    { systems := 1, titles := 1, releases := 1, roms := 1 }
  rw [import_file_second_step source system_name row hname _ e1 e2 e3 e4]
  obtain ⟨f1, f2, f3, f4, _, _, _, _, f9⟩ := store_attributes_spec source 1 row
    (store_attributes source 1 row
      { systems := [⟨1, system_name⟩],
        titles := [⟨1, 1, rowGet row "name", rowGet row "description"⟩],
        releases := [⟨1, 1, rowGet row "region", to_int (rowGet row "releaseyear"),
          to_int (rowGet row "releasemonth"), rowGet row "serial", Option.none⟩],
        roms := [⟨1, 1, rowGet row "rom_name", to_int (rowGet row "size"),
          rowGet row "crc", rowGet row "md5", rowGet row "sha1"⟩],
        attrs := [],
        nextSystemId := 2, nextTitleId := 2, nextReleaseId := 2, nextRomId := 2,
        nextAttrId := 1 }
      { systems := 1, titles := 1, releases := 1, roms := 1 }).1 {}
  refine ⟨⟨?_, ?_, ?_, ?_, ?_⟩, ⟨?_, ?_, ?_, ?_, ?_⟩⟩ <;>
    simp only [e1, e2, e3, e4, e9, f1, f2, f3, f4, f9, List.length_cons,
      List.length_nil, List.length_append]
  · omega
  · omega

/-- Witness for `import_rdb_row_twice_dedup` on a concrete row with one
unrecognized field (`genre`). -/
theorem import_rdb_row_twice_dedup_witness :
    ((import_file "librdb" "SystemX"
        [[(RValue.str "name", RValue.str "Game"), (RValue.str "region", RValue.str "USA"),
          (RValue.str "genre", RValue.str "RPG")]] {}).1.titles.length = 1 ∧
      (import_file "librdb" "SystemX"
        [[(RValue.str "name", RValue.str "Game"), (RValue.str "region", RValue.str "USA"),
          (RValue.str "genre", RValue.str "RPG")]] {}).1.attrs.length =
        attrFieldCount [(RValue.str "name", RValue.str "Game"),
          (RValue.str "region", RValue.str "USA"), (RValue.str "genre", RValue.str "RPG")]) ∧
    (import_file "librdb" "SystemX"
        [[(RValue.str "name", RValue.str "Game"), (RValue.str "region", RValue.str "USA"),
          (RValue.str "genre", RValue.str "RPG")]]
        (import_file "librdb" "SystemX"
          [[(RValue.str "name", RValue.str "Game"), (RValue.str "region", RValue.str "USA"),
            (RValue.str "genre", RValue.str "RPG")]] {}).1).1.attrs.length =
      2 * attrFieldCount [(RValue.str "name", RValue.str "Game"),
        (RValue.str "region", RValue.str "USA"), (RValue.str "genre", RValue.str "RPG")] := by
  have h := import_rdb_row_twice_dedup "librdb" "SystemX"
    [(RValue.str "name", RValue.str "Game"), (RValue.str "region", RValue.str "USA"),
      (RValue.str "genre", RValue.str "RPG")] (by decide)
  exact ⟨⟨h.1.2.1, h.1.2.2.2.2⟩, h.2.2.2.2.2⟩

/-! ### Error behavior of the decoder (claims C8, C9, C1 groundwork) -/

set_option maxHeartbeats 3200000 in
/-- Exhaustive behavior of `_get_rmsg` at one offset: it either
succeeds and advances, fails with `truncated` at this offset, or fails
with `unknownPrefix` at this offset; the unknown-prefix failure happens
exactly when the byte at the offset is an unhandled tag. -/
theorem get_rmsg_cases (data : List Nat) (i : Nat) :
    (∃ j m, get_rmsg data i = .ok (j, m) ∧ i < j ∧
      ∀ b, data[i]? = some b → ¬ unknownTag b) ∨
    (get_rmsg data i = .error (.truncated i) ∧
      ∀ b, data[i]? = some b → ¬ unknownTag b) ∨
    (∃ b, data[i]? = some b ∧ unknownTag b ∧
      get_rmsg data i = .error (.unknownPrefix i)) := by
  have hres : get_rmsg data i = get_rmsg data i := rfl
  nth_rewrite 2 [get_rmsg] at hres
  cases hd : data.drop i with
  | nil =>
    rw [hd] at hres
    refine Or.inr (Or.inl ⟨hres, ?_⟩)
    intro b hb2 hu
    have hi : i < data.length := by
      by_contra hge
      rw [List.getElem?_eq_none (by omega)] at hb2
      exact Option.noConfusion hb2
    have : data.drop i ≠ [] := by
      intro hnil
      have := List.length_drop i data
      rw [hnil] at this
      simp at this
      omega
    exact this hd
  | cons buf tail =>
    rw [hd] at hres
    dsimp only at hres
    have hb : data[i]? = some buf := by
      have hg := List.getElem?_drop data i 0
      rw [hd] at hg
      simpa using hg.symm
    by_cases hc1 : buf ≤ 127
    · rw [if_pos hc1] at hres
      refine Or.inl ⟨_, _, hres, by omega, ?_⟩
      intro b hb2 hu
      rw [hb] at hb2
      injection hb2 with hbe
      subst hbe
      unfold unknownTag at hu
      omega
    rw [if_neg hc1] at hres
    by_cases hc2 : 224 ≤ buf
    · rw [if_pos hc2] at hres
      refine Or.inl ⟨_, _, hres, by omega, ?_⟩
      intro b hb2 hu
      rw [hb] at hb2
      injection hb2 with hbe
      subst hbe
      unfold unknownTag at hu
      omega
    rw [if_neg hc2] at hres
    by_cases hc3 : 128 ≤ buf ∧ buf ≤ 143
    · rw [if_pos hc3] at hres
      refine Or.inl ⟨_, _, hres, by omega, ?_⟩
      intro b hb2 hu
      rw [hb] at hb2
      injection hb2 with hbe
      subst hbe
      unfold unknownTag at hu
      omega
    rw [if_neg hc3] at hres
    by_cases hc4 : 144 ≤ buf ∧ buf ≤ 159
    · rw [if_pos hc4] at hres
      refine Or.inl ⟨_, _, hres, by omega, ?_⟩
      intro b hb2 hu
      rw [hb] at hb2
      injection hb2 with hbe
      subst hbe
      unfold unknownTag at hu
      omega
    rw [if_neg hc4] at hres
    by_cases hc5 : 160 ≤ buf ∧ buf ≤ 191
    · rw [if_pos hc5] at hres
      refine Or.inl ⟨_, _, hres, by omega, ?_⟩
      intro b hb2 hu
      rw [hb] at hb2
      injection hb2 with hbe
      subst hbe
      unfold unknownTag at hu
      omega
    rw [if_neg hc5] at hres
    by_cases hc6 : buf = 192
    · rw [if_pos hc6] at hres
      refine Or.inl ⟨_, _, hres, by omega, ?_⟩
      intro b hb2 hu
      rw [hb] at hb2
      injection hb2 with hbe
      subst hbe
      unfold unknownTag at hu
      omega
    rw [if_neg hc6] at hres
    by_cases hc7 : buf = 194
    · rw [if_pos hc7] at hres
      refine Or.inl ⟨_, _, hres, by omega, ?_⟩
      intro b hb2 hu
      rw [hb] at hb2
      injection hb2 with hbe
      subst hbe
      unfold unknownTag at hu
      omega
    rw [if_neg hc7] at hres
    by_cases hc8 : buf = 195
    · rw [if_pos hc8] at hres
      refine Or.inl ⟨_, _, hres, by omega, ?_⟩
      intro b hb2 hu
      rw [hb] at hb2
      injection hb2 with hbe
      subst hbe
      unfold unknownTag at hu
      omega
    rw [if_neg hc8] at hres
    by_cases hc9 : buf = 196 ∨ buf = 197 ∨ buf = 198
    · rw [if_pos hc9] at hres
      by_cases hp9 : (pySlice data (i + 1) (i + ((buf ^^^ 196) + 1) + 1)).length = (buf ^^^ 196) + 1
      · rw [if_pos hp9] at hres
        refine Or.inl ⟨_, _, hres, by omega, ?_⟩
        intro b hb2 hu
        rw [hb] at hb2
        injection hb2 with hbe
        subst hbe
        unfold unknownTag at hu
        omega
      · rw [if_neg hp9] at hres
        refine Or.inr (Or.inl ⟨hres, ?_⟩)
        intro b hb2 hu
        rw [hb] at hb2
        injection hb2 with hbe
        subst hbe
        unfold unknownTag at hu
        omega
    rw [if_neg hc9] at hres
    by_cases hc10 : buf = 204
    · rw [if_pos hc10] at hres
      by_cases hp10 : (pySlice data (i + 1) (i + 2)).length = 1
      · rw [if_pos hp10] at hres
        refine Or.inl ⟨_, _, hres, by omega, ?_⟩
        intro b hb2 hu
        rw [hb] at hb2
        injection hb2 with hbe
        subst hbe
        unfold unknownTag at hu
        omega
      · rw [if_neg hp10] at hres
        refine Or.inr (Or.inl ⟨hres, ?_⟩)
        intro b hb2 hu
        rw [hb] at hb2
        injection hb2 with hbe
        subst hbe
        unfold unknownTag at hu
        omega
    rw [if_neg hc10] at hres
    by_cases hc11 : buf = 205
    · rw [if_pos hc11] at hres
      by_cases hp11 : (pySlice data (i + 1) (i + 3)).length = 2
      · rw [if_pos hp11] at hres
        refine Or.inl ⟨_, _, hres, by omega, ?_⟩
        intro b hb2 hu
        rw [hb] at hb2
        injection hb2 with hbe
        subst hbe
        unfold unknownTag at hu
        omega
      · rw [if_neg hp11] at hres
        refine Or.inr (Or.inl ⟨hres, ?_⟩)
        intro b hb2 hu
        rw [hb] at hb2
        injection hb2 with hbe
        subst hbe
        unfold unknownTag at hu
        omega
    rw [if_neg hc11] at hres
    by_cases hc12 : buf = 206
    · rw [if_pos hc12] at hres
      by_cases hp12 : (pySlice data (i + 1) (i + 5)).length = 4
      · rw [if_pos hp12] at hres
        refine Or.inl ⟨_, _, hres, by omega, ?_⟩
        intro b hb2 hu
        rw [hb] at hb2
        injection hb2 with hbe
        subst hbe
        unfold unknownTag at hu
        omega
      · rw [if_neg hp12] at hres
        refine Or.inr (Or.inl ⟨hres, ?_⟩)
        intro b hb2 hu
        rw [hb] at hb2
        injection hb2 with hbe
        subst hbe
        unfold unknownTag at hu
        omega
    rw [if_neg hc12] at hres
    by_cases hc13 : buf = 207
    · rw [if_pos hc13] at hres
      by_cases hp13 : (pySlice data (i + 1) (i + 9)).length = 8
      · rw [if_pos hp13] at hres
        refine Or.inl ⟨_, _, hres, by omega, ?_⟩
        intro b hb2 hu
        rw [hb] at hb2
        injection hb2 with hbe
        subst hbe
        unfold unknownTag at hu
        omega
      · rw [if_neg hp13] at hres
        refine Or.inr (Or.inl ⟨hres, ?_⟩)
        intro b hb2 hu
        rw [hb] at hb2
        injection hb2 with hbe
        subst hbe
        unfold unknownTag at hu
        omega
    rw [if_neg hc13] at hres
    by_cases hc14 : buf = 208
    · rw [if_pos hc14] at hres
      by_cases hp14 : (pySlice data (i + 1) (i + 2)).length = 1
      · rw [if_pos hp14] at hres
        refine Or.inl ⟨_, _, hres, by omega, ?_⟩
        intro b hb2 hu
        rw [hb] at hb2
        injection hb2 with hbe
        subst hbe
        unfold unknownTag at hu
        omega
      · rw [if_neg hp14] at hres
        refine Or.inr (Or.inl ⟨hres, ?_⟩)
        intro b hb2 hu
        rw [hb] at hb2
        injection hb2 with hbe
        subst hbe
        unfold unknownTag at hu
        omega
    rw [if_neg hc14] at hres
    by_cases hc15 : buf = 209
    · rw [if_pos hc15] at hres
      by_cases hp15 : (pySlice data (i + 1) (i + 3)).length = 2
      · rw [if_pos hp15] at hres
        refine Or.inl ⟨_, _, hres, by omega, ?_⟩
        intro b hb2 hu
        rw [hb] at hb2
        injection hb2 with hbe
        subst hbe
        unfold unknownTag at hu
        omega
      · rw [if_neg hp15] at hres
        refine Or.inr (Or.inl ⟨hres, ?_⟩)
        intro b hb2 hu
        rw [hb] at hb2
        injection hb2 with hbe
        subst hbe
        unfold unknownTag at hu
        omega
    rw [if_neg hc15] at hres
    by_cases hc16 : buf = 210
    · rw [if_pos hc16] at hres
      by_cases hp16 : (pySlice data (i + 1) (i + 5)).length = 4
      · rw [if_pos hp16] at hres
        refine Or.inl ⟨_, _, hres, by omega, ?_⟩
        intro b hb2 hu
        rw [hb] at hb2
        injection hb2 with hbe
        subst hbe
        unfold unknownTag at hu
        omega
      · rw [if_neg hp16] at hres
        refine Or.inr (Or.inl ⟨hres, ?_⟩)
        intro b hb2 hu
        rw [hb] at hb2
        injection hb2 with hbe
        subst hbe
        unfold unknownTag at hu
        omega
    rw [if_neg hc16] at hres
    by_cases hc17 : buf = 211
    · rw [if_pos hc17] at hres
      by_cases hp17 : (pySlice data (i + 1) (i + 9)).length = 8
      · rw [if_pos hp17] at hres
        refine Or.inl ⟨_, _, hres, by omega, ?_⟩
        intro b hb2 hu
        rw [hb] at hb2
        injection hb2 with hbe
        subst hbe
        unfold unknownTag at hu
        omega
      · rw [if_neg hp17] at hres
        refine Or.inr (Or.inl ⟨hres, ?_⟩)
        intro b hb2 hu
        rw [hb] at hb2
        injection hb2 with hbe
        subst hbe
        unfold unknownTag at hu
        omega
    rw [if_neg hc17] at hres
    by_cases hc18 : buf = 217 ∨ buf = 218 ∨ buf = 219
    · rw [if_pos hc18] at hres
      by_cases hp18 : (pySlice data (i + 1) (i + ((buf ^^^ 217) + 1) + 1)).length = (buf ^^^ 217) + 1
      · rw [if_pos hp18] at hres
        refine Or.inl ⟨_, _, hres, by omega, ?_⟩
        intro b hb2 hu
        rw [hb] at hb2
        injection hb2 with hbe
        subst hbe
        unfold unknownTag at hu
        omega
      · rw [if_neg hp18] at hres
        refine Or.inr (Or.inl ⟨hres, ?_⟩)
        intro b hb2 hu
        rw [hb] at hb2
        injection hb2 with hbe
        subst hbe
        unfold unknownTag at hu
        omega
    rw [if_neg hc18] at hres
    by_cases hc19 : buf = 222
    · rw [if_pos hc19] at hres
      by_cases hp19 : (pySlice data (i + 1) (i + 3)).length = 2
      · rw [if_pos hp19] at hres
        refine Or.inl ⟨_, _, hres, by omega, ?_⟩
        intro b hb2 hu
        rw [hb] at hb2
        injection hb2 with hbe
        subst hbe
        unfold unknownTag at hu
        omega
      · rw [if_neg hp19] at hres
        refine Or.inr (Or.inl ⟨hres, ?_⟩)
        intro b hb2 hu
        rw [hb] at hb2
        injection hb2 with hbe
        subst hbe
        unfold unknownTag at hu
        omega
    rw [if_neg hc19] at hres
    by_cases hc20 : buf = 223
    · rw [if_pos hc20] at hres
      by_cases hp20 : (pySlice data (i + 1) (i + 5)).length = 4
      · rw [if_pos hp20] at hres
        refine Or.inl ⟨_, _, hres, by omega, ?_⟩
        intro b hb2 hu
        rw [hb] at hb2
        injection hb2 with hbe
        subst hbe
        unfold unknownTag at hu
        omega
      · rw [if_neg hp20] at hres
        refine Or.inr (Or.inl ⟨hres, ?_⟩)
        intro b hb2 hu
        rw [hb] at hb2
        injection hb2 with hbe
        subst hbe
        unfold unknownTag at hu
        omega
    rw [if_neg hc20] at hres
    exact Or.inr (Or.inr ⟨buf, hb, by unfold unknownTag; omega, hres⟩)

/-- A successful `_get_rmsg` always advances the offset. -/
theorem get_rmsg_advance (data : List Nat) (i j : Nat) (m : RMsg)
    (h : get_rmsg data i = .ok (j, m)) : i < j := by
  rcases get_rmsg_cases data i with ⟨j', m', heq, hlt, _⟩ | ⟨heq, _⟩ | ⟨b, _, _, heq⟩
  · rw [h] at heq
    injection heq with h1
    injection h1 with h2 h3
    omega
  · rw [h] at heq; exact Except.noConfusion heq
  · rw [h] at heq; exact Except.noConfusion heq

/-- `_get_rmsg` reports an unknown prefix only at the queried offset,
and only when the byte there is an unhandled tag. -/
theorem get_rmsg_unknown_iff (data : List Nat) (i j : Nat)
    (h : get_rmsg data i = .error (.unknownPrefix j)) :
    j = i ∧ ∃ b, data[i]? = some b ∧ unknownTag b := by
  rcases get_rmsg_cases data i with ⟨j', m', heq, _, _⟩ | ⟨heq, _⟩ | ⟨b, hb, ht, heq⟩
  · rw [h] at heq; exact Except.noConfusion heq
  · rw [h] at heq
    injection heq with h1
    exact Err.noConfusion h1
  · rw [h] at heq
    injection heq with h1
    injection h1 with h2
    exact ⟨h2, b, hb, ht⟩

/-- Conversely, an unhandled tag byte at the queried offset makes
`_get_rmsg` fail with exactly that offset. -/
theorem get_rmsg_unknown_of_tag (data : List Nat) (i : Nat) (b : Nat)
    (hb : data[i]? = some b) (ht : unknownTag b) :
    get_rmsg data i = .error (.unknownPrefix i) := by
  rcases get_rmsg_cases data i with ⟨j', m', heq, _, hno⟩ | ⟨heq, hno⟩ | ⟨b', hb', ht', heq⟩
  · exact absurd ht (hno b hb)
  · exact absurd ht (hno b hb)
  · exact heq

/-- `_get_rmsg` errors are only `truncated` or `unknownPrefix`. -/
theorem get_rmsg_err_shape (data : List Nat) (i : Nat) (e : Err)
    (h : get_rmsg data i = .error e) :
    e = .truncated i ∨ ∃ b, data[i]? = some b ∧ unknownTag b ∧ e = .unknownPrefix i := by
  rcases get_rmsg_cases data i with ⟨j', m', heq, _, _⟩ | ⟨heq, _⟩ | ⟨b, hb, ht, heq⟩
  · rw [h] at heq; exact Except.noConfusion heq
  · rw [h] at heq
    injection heq with h1
    exact Or.inl h1
  · rw [h] at heq
    injection heq with h1
    exact Or.inr ⟨b, hb, ht, h1⟩

/-- Field reading propagates decoder errors: a failure is either a
truncation or an unknown prefix at an offset no earlier than the start,
whose byte is an unhandled tag. -/
theorem readFields_err (data : List Nat) :
    ∀ (n i : Nat) (e : Err), readFields data i n = .error e →
      (∃ k, i ≤ k ∧ e = .truncated k) ∨
      (∃ j b, i ≤ j ∧ data[j]? = some b ∧ unknownTag b ∧ e = .unknownPrefix j) := by
  intro n
  induction n with
  | zero => intro i e h; exact Except.noConfusion h
  | succ n ih =>
    intro i e h
    rw [readFields] at h
    cases h1 : get_rmsg data i with
    | error e1 =>
      rw [h1] at h
      injection h with he
      subst he
      rcases get_rmsg_err_shape data i e1 h1 with htr | ⟨b, hb, ht, hu⟩
      · exact Or.inl ⟨i, Nat.le_refl i, htr⟩
      · exact Or.inr ⟨i, b, Nat.le_refl i, hb, ht, hu⟩
    | ok pj =>
      obtain ⟨j, namemsg⟩ := pj
      have hadv1 := get_rmsg_advance data i j namemsg h1
      rw [h1] at h
      dsimp only at h
      cases h2 : get_rmsg data j with
      | error e2 =>
        rw [h2] at h
        injection h with he
        subst he
        rcases get_rmsg_err_shape data j e2 h2 with htr | ⟨b, hb, ht, hu⟩
        · exact Or.inl ⟨j, by omega, htr⟩
        · exact Or.inr ⟨j, b, by omega, hb, ht, hu⟩
      | ok pk =>
        obtain ⟨k, valmsg⟩ := pk
        have hadv2 := get_rmsg_advance data j k valmsg h2
        rw [h2] at h
        dsimp only at h
        cases h3 : readFields data k n with
        | error e3 =>
          rw [h3] at h
          injection h with he
          subst he
          rcases ih k e3 h3 with ⟨k', hk', htr⟩ | ⟨j', b, hj', hb, ht, hu⟩
          · exact Or.inl ⟨k', by omega, htr⟩
          · exact Or.inr ⟨j', b, by omega, hb, ht, hu⟩
        | ok pr =>
          obtain ⟨fin, rest⟩ := pr
          rw [h3] at h
          exact Except.noConfusion h

/-- A successful field read never moves the offset backwards. -/
theorem readFields_advance (data : List Nat) :
    ∀ (n i k : Nat) (fields : List (String × RValue × String)),
      readFields data i n = .ok (k, fields) → i ≤ k := by
  intro n
  induction n with
  | zero =>
    intro i k fields h
    injection h with h1
    injection h1 with h2 h3
    omega
  | succ n ih =>
    intro i k fields h
    rw [readFields] at h
    cases h1 : get_rmsg data i with
    | error e1 => rw [h1] at h; exact Except.noConfusion h
    | ok pj =>
      obtain ⟨j, namemsg⟩ := pj
      have hadv1 := get_rmsg_advance data i j namemsg h1
      rw [h1] at h
      dsimp only at h
      cases h2 : get_rmsg data j with
      | error e2 => rw [h2] at h; exact Except.noConfusion h
      | ok pk =>
        obtain ⟨k2, valmsg⟩ := pk
        have hadv2 := get_rmsg_advance data j k2 valmsg h2
        rw [h2] at h
        dsimp only at h
        cases h3 : readFields data k2 n with
        | error e3 => rw [h3] at h; exact Except.noConfusion h
        | ok pr =>
          obtain ⟨fin, rest⟩ := pr
          have := ih k2 fin rest h3
          rw [h3] at h
          injection h with h4
          injection h4 with h5 h6
          omega

/-- Decode-loop failures are fuel exhaustion (unreachable), a
truncation, or an unknown prefix at an offset no earlier than the
current one whose byte is an unhandled tag; never the too-small or
sort type errors. -/
theorem parseLoop_err (data : List Nat) :
    ∀ (fuel i : Nat) (columns : List (String × String)) (rows : List Row)
      (metadata : List (String × RValue)) (e : Err),
      parseLoop data fuel i columns rows metadata = .error e →
      e = .fuelOut ∨ (∃ k, i ≤ k ∧ e = .truncated k) ∨
      (∃ j b, i ≤ j ∧ data[j]? = some b ∧ unknownTag b ∧ e = .unknownPrefix j) := by
  intro fuel
  induction fuel with
  | zero =>
    intro i columns rows metadata e h
    injection h with h1
    exact Or.inl h1.symm
  | succ fuel ih =>
    intro i columns rows metadata e h
    rw [parseLoop] at h
    by_cases hi : i < data.length
    · rw [if_pos hi] at h
      cases h1 : get_rmsg data i with
      | error e1 =>
        rw [h1] at h
        injection h with he
        subst he
        rcases get_rmsg_err_shape data i e1 h1 with htr | ⟨b, hb, ht, hu⟩
        · exact Or.inr (Or.inl ⟨i, Nat.le_refl i, htr⟩)
        · exact Or.inr (Or.inr ⟨i, b, Nat.le_refl i, hb, ht, hu⟩)
      | ok pj =>
        obtain ⟨j, msg⟩ := pj
        have hadv1 := get_rmsg_advance data i j msg h1
        rw [h1] at h
        dsimp only at h
        cases msg with
        | fixmap n =>
          dsimp only at h
          cases h2 : readFields data j n with
          | error e2 =>
            rw [h2] at h
            injection h with he
            subst he
            rcases readFields_err data n j e2 h2 with ⟨k', hk', htr⟩ | ⟨j', b, hj', hb, ht, hu⟩
            · exact Or.inr (Or.inl ⟨k', by omega, htr⟩)
            · exact Or.inr (Or.inr ⟨j', b, by omega, hb, ht, hu⟩)
          | ok pk =>
            obtain ⟨k, fields⟩ := pk
            have hadv2 := readFields_advance data n j k fields h2
            rw [h2] at h
            dsimp only at h
            rcases hm : (if (buildRecord fields).length = 1 then
                lookupOD (buildRecord fields) (RValue.str "count") else Option.none) with _ | v
            all_goals rw [hm] at h
            · rcases ih k _ _ _ e h with h0 | ⟨k', hk', htr⟩ | ⟨j', b, hj', hb, ht, hu⟩
              · exact Or.inl h0
              · exact Or.inr (Or.inl ⟨k', by omega, htr⟩)
              · exact Or.inr (Or.inr ⟨j', b, by omega, hb, ht, hu⟩)
            · rcases ih k _ _ _ e h with h0 | ⟨k', hk', htr⟩ | ⟨j', b, hj', hb, ht, hu⟩
              · exact Or.inl h0
              · exact Or.inr (Or.inl ⟨k', by omega, htr⟩)
              · exact Or.inr (Or.inr ⟨j', b, by omega, hb, ht, hu⟩)
        | int v =>
          dsimp only at h
          rcases ih j _ _ _ e h with h0 | ⟨k', hk', htr⟩ | ⟨j', b, hj', hb, ht, hu⟩
          · exact Or.inl h0
          · exact Or.inr (Or.inl ⟨k', by omega, htr⟩)
          · exact Or.inr (Or.inr ⟨j', b, by omega, hb, ht, hu⟩)
        | uint v =>
          dsimp only at h
          rcases ih j _ _ _ e h with h0 | ⟨k', hk', htr⟩ | ⟨j', b, hj', hb, ht, hu⟩
          · exact Or.inl h0
          · exact Or.inr (Or.inl ⟨k', by omega, htr⟩)
          · exact Or.inr (Or.inr ⟨j', b, by omega, hb, ht, hu⟩)
        | string s =>
          dsimp only at h
          rcases ih j _ _ _ e h with h0 | ⟨k', hk', htr⟩ | ⟨j', b, hj', hb, ht, hu⟩
          · exact Or.inl h0
          · exact Or.inr (Or.inl ⟨k', by omega, htr⟩)
          · exact Or.inr (Or.inr ⟨j', b, by omega, hb, ht, hu⟩)
        | binstr s =>
          dsimp only at h
          rcases ih j _ _ _ e h with h0 | ⟨k', hk', htr⟩ | ⟨j', b, hj', hb, ht, hu⟩
          · exact Or.inl h0
          · exact Or.inr (Or.inl ⟨k', by omega, htr⟩)
          · exact Or.inr (Or.inr ⟨j', b, by omega, hb, ht, hu⟩)
        | bool v =>
          dsimp only at h
          rcases ih j _ _ _ e h with h0 | ⟨k', hk', htr⟩ | ⟨j', b, hj', hb, ht, hu⟩
          · exact Or.inl h0
          · exact Or.inr (Or.inl ⟨k', by omega, htr⟩)
          · exact Or.inr (Or.inr ⟨j', b, by omega, hb, ht, hu⟩)
        | nil =>
          dsimp only at h
          rcases ih j _ _ _ e h with h0 | ⟨k', hk', htr⟩ | ⟨j', b, hj', hb, ht, hu⟩
          · exact Or.inl h0
          · exact Or.inr (Or.inl ⟨k', by omega, htr⟩)
          · exact Or.inr (Or.inr ⟨j', b, by omega, hb, ht, hu⟩)
        | fixarray bs =>
          dsimp only at h
          rcases ih j _ _ _ e h with h0 | ⟨k', hk', htr⟩ | ⟨j', b, hj', hb, ht, hu⟩
          · exact Or.inl h0
          · exact Or.inr (Or.inl ⟨k', by omega, htr⟩)
          · exact Or.inr (Or.inr ⟨j', b, by omega, hb, ht, hu⟩)
    · rw [if_neg hi] at h
      exact Except.noConfusion h

/-- `sortRows` can only fail with the dynamic-comparison type error. -/
theorem sortRows_err (rows : List Row) (e : Err) (h : sortRows rows = .error e) :
    e = .typeErr := by
  unfold sortRows at h
  dsimp only at h
  split_ifs at h
  all_goals first
    | (exact Except.noConfusion h)
    | (injection h with h1; exact h1.symm)

/-! ### Decoding failure modes (claim C8) -/

/-- C8: `from_bytes` fails on malformed input exactly as specified —
a buffer of fewer than 16 bytes fails with the too-small FormatError
(and with that error only on such buffers); an unknown-prefix
FormatError always carries the offset of an actual unrecognized
leading message byte within the body; and an unrecognized first
message byte at offset 16 is fatal for the file with exactly that
offset.  These errors abort decoding — there is no recovery path. -/
theorem from_bytes_failure_modes (data : List Nat) :
    (from_bytes data = .error .tooSmall ↔ data.length < 16) ∧
    (∀ j, from_bytes data = .error (.unknownPrefix j) →
      16 ≤ j ∧ j < data.length ∧ ∃ b, data[j]? = some b ∧ unknownTag b) ∧
    (∀ b, data[16]? = some b → unknownTag b →
      from_bytes data = .error (.unknownPrefix 16)) := by
  refine ⟨⟨?_, ?_⟩, ?_, ?_⟩
  · intro h
    by_contra hge
    rw [from_bytes, if_neg hge] at h
    cases hp : parseLoop data (data.length + 1) 16 [] [] [] with
    | error e =>
      rw [hp] at h
      injection h with h1
      subst h1
      rcases parseLoop_err data _ _ _ _ _ _ hp with h0 | ⟨k, _, htr⟩ | ⟨j, b, _, _, _, hu⟩
      · exact Err.noConfusion h0
      · exact Err.noConfusion htr
      · exact Err.noConfusion hu
    | ok triple =>
      obtain ⟨columns, rows, metadata⟩ := triple
      rw [hp] at h
      dsimp only at h
      cases hs : (if (lookupOD columns "name").isSome then sortRows rows else .ok rows) with
      | error e =>
        rw [hs] at h
        injection h with h1
        subst h1
        by_cases hn : (lookupOD columns "name").isSome
        · rw [if_pos hn] at hs
          exact Err.noConfusion (sortRows_err rows _ hs)
        · rw [if_neg hn] at hs
          exact Except.noConfusion hs
      | ok rows2 =>
        rw [hs] at h
        exact Except.noConfusion h
  · intro h
    rw [from_bytes, if_pos h]
  · intro j h
    by_cases hge : data.length < 16
    · rw [from_bytes, if_pos hge] at h
      injection h with h1
      exact Err.noConfusion h1
    · rw [from_bytes, if_neg hge] at h
      cases hp : parseLoop data (data.length + 1) 16 [] [] [] with
      | error e =>
        rw [hp] at h
        injection h with h1
        subst h1
        rcases parseLoop_err data _ _ _ _ _ _ hp with h0 | ⟨k, _, htr⟩ | ⟨j', b, hj, hb, ht, hu⟩
        · exact Err.noConfusion h0
        · exact Err.noConfusion htr
        · injection hu with h2
          subst h2
          refine ⟨hj, ?_, b, hb, ht⟩
          by_contra hlen
          rw [List.getElem?_eq_none (by omega)] at hb
          exact Option.noConfusion hb
      | ok triple =>
        obtain ⟨columns, rows, metadata⟩ := triple
        rw [hp] at h
        dsimp only at h
        cases hs : (if (lookupOD columns "name").isSome then sortRows rows else .ok rows) with
        | error e =>
          rw [hs] at h
          injection h with h1
          subst h1
          by_cases hn : (lookupOD columns "name").isSome
          · rw [if_pos hn] at hs
            exact Err.noConfusion (sortRows_err rows _ hs)
          · rw [if_neg hn] at hs
            exact Except.noConfusion hs
        | ok rows2 =>
          rw [hs] at h
          exact Except.noConfusion h
  · intro b hb ht
    have h16 : 16 < data.length := by
      by_contra hlen
      rw [List.getElem?_eq_none (by omega)] at hb
      exact Option.noConfusion hb
    rw [from_bytes, if_neg (by omega)]
    have hloop : parseLoop data (data.length + 1) 16 [] [] [] =
        .error (.unknownPrefix 16) := by
      rw [parseLoop, if_pos h16, get_rmsg_unknown_of_tag data 16 b hb ht]
    rw [hloop]

/-- Witness for `from_bytes_failure_modes`: a 3-byte buffer is too
small, and a 17-byte buffer whose first message byte is the unhandled
tag `C1` fails with the offset-carrying unknown-prefix error. -/
theorem from_bytes_failure_modes_witness :
    from_bytes [1, 2, 3] = .error .tooSmall ∧
    from_bytes [82, 65, 82, 67, 72, 68, 66, 0, 0, 0, 0, 0, 0, 0, 0, 0, 0xC1] =
      .error (.unknownPrefix 16) :=
  ⟨(from_bytes_failure_modes [1, 2, 3]).1.mpr (by decide),
   (from_bytes_failure_modes
      [82, 65, 82, 67, 72, 68, 66, 0, 0, 0, 0, 0, 0, 0, 0, 0, 0xC1]).2.2 0xC1
      (by decide) (by decide)⟩

/-! ### Decoded rows only carry string keys (claim C9) -/

/-- `insertOD` preserves any predicate on the keys. -/
theorem insertOD_key_pred {α β : Type} [DecidableEq α] (P : α → Prop) :
    ∀ (l : List (α × β)) (k : α) (v : β),
      (∀ kv ∈ l, P kv.1) → P k → ∀ kv ∈ insertOD l k v, P kv.1 := by
  intro l
  induction l with
  | nil =>
    intro k v _ hk kv hkv
    rw [insertOD] at hkv
    rcases List.mem_singleton.mp hkv with rfl
    exact hk
  | cons hd tl ih =>
    intro k v hall hk kv hkv
    rw [insertOD] at hkv
    split_ifs at hkv with he
    · rcases List.mem_cons.mp hkv with rfl | hmem
      · exact hall hd (List.mem_cons_self hd tl)
      · exact hall kv (List.mem_cons_of_mem hd hmem)
    · rcases List.mem_cons.mp hkv with rfl | hmem
      · exact hall hd (List.mem_cons_self hd tl)
      · exact ih k v (fun x hx => hall x (List.mem_cons_of_mem hd hx)) hk kv hmem

/-- Every key of a record built by the decoder is a `str` value: the
decoder inserts `RValue.str (normalize_key ...)` for every field. -/
theorem buildRecord_keys (fields : List (String × RValue × String)) :
    ∀ kv ∈ buildRecord fields, ∃ s, kv.1 = RValue.str s := by
  have haux : ∀ (fs : List (String × RValue × String)) (r0 : Row),
      (∀ kv ∈ r0, ∃ s, kv.1 = RValue.str s) →
      ∀ kv ∈ fs.foldl (fun r f => insertOD r (RValue.str f.1) f.2.1) r0,
        ∃ s, kv.1 = RValue.str s := by
    intro fs
    induction fs with
    | nil => intro r0 h0; exact h0
    | cons f rest ih =>
      intro r0 h0
      rw [List.foldl_cons]
      exact ih _ (insertOD_key_pred (fun k => ∃ s, k = RValue.str s) r0
        (RValue.str f.1) f.2.1 h0 ⟨f.1, rfl⟩)
  exact haux fields [] (by intro kv hkv; exact absurd hkv (List.not_mem_nil kv))

/-- Every row accumulated by the decode loop has only string keys. -/
theorem parseLoop_rows_keys (data : List Nat) :
    ∀ (fuel i : Nat) (columns : List (String × String)) (rows : List Row)
      (metadata : List (String × RValue)) (out : List (String × String) × List Row ×
        List (String × RValue)),
      parseLoop data fuel i columns rows metadata = .ok out →
      (∀ row ∈ rows, ∀ kv ∈ row, ∃ s, kv.1 = RValue.str s) →
      ∀ row ∈ out.2.1, ∀ kv ∈ row, ∃ s, kv.1 = RValue.str s := by
  intro fuel
  induction fuel with
  | zero => intro i c r m out h; exact Except.noConfusion h
  | succ fuel ih =>
    intro i columns rows metadata out h hrows
    rw [parseLoop] at h
    by_cases hi : i < data.length
    · rw [if_pos hi] at h
      cases h1 : get_rmsg data i with
      | error e1 => rw [h1] at h; exact Except.noConfusion h
      | ok pj =>
        obtain ⟨j, msg⟩ := pj
        rw [h1] at h
        dsimp only at h
        cases msg with
        | fixmap n =>
          dsimp only at h
          cases h2 : readFields data j n with
          | error e2 => rw [h2] at h; exact Except.noConfusion h
          | ok pk =>
            obtain ⟨k, fields⟩ := pk
            rw [h2] at h
            dsimp only at h
            rcases hm : (if (buildRecord fields).length = 1 then
                lookupOD (buildRecord fields) (RValue.str "count")
                else Option.none) with _ | v
            all_goals rw [hm] at h
            · refine ih k _ _ _ out h ?_
              intro row hrow
              rcases List.mem_append.mp hrow with hmem | hmem
              · exact hrows row hmem
              · rcases List.mem_singleton.mp hmem with rfl
                exact buildRecord_keys fields
            · exact ih k _ _ _ out h hrows
        | int v => dsimp only at h; exact ih j _ _ _ out h hrows
        | uint v => dsimp only at h; exact ih j _ _ _ out h hrows
        | string s => dsimp only at h; exact ih j _ _ _ out h hrows
        | binstr s => dsimp only at h; exact ih j _ _ _ out h hrows
        | bool v => dsimp only at h; exact ih j _ _ _ out h hrows
        | nil => dsimp only at h; exact ih j _ _ _ out h hrows
        | fixarray bs => dsimp only at h; exact ih j _ _ _ out h hrows
    · rw [if_neg hi] at h
      injection h with h1
      subst h1
      exact hrows

/-- The post-decode sort only permutes rows. -/
theorem sortRows_mem (rows rows2 : List Row) (h : sortRows rows = .ok rows2) :
    ∀ row ∈ rows2, row ∈ rows := by
  unfold sortRows at h
  dsimp only at h
  split_ifs at h
  all_goals first
    | exact Except.noConfusion h
    | (injection h with h1; subst h1;
       intro row hrow;
       exact (List.perm_insertionSort _ rows).mem_iff.mp hrow)

/-- On a row whose keys are all strings, `_store_attributes` never
increments `skipped_fields`. -/
theorem store_attributes_no_skip (source : String) (rid : Nat) :
    ∀ (row : Row) (st : DbState) (stats : ImportStats),
      (∀ kv ∈ row, ∃ s, kv.1 = RValue.str s) →
      (store_attributes source rid row st stats).2.skipped_fields = stats.skipped_fields := by
  intro row
  induction row with
  | nil => intro st stats _; rfl
  | cons kv rest ih =>
    intro st stats hall
    obtain ⟨s, hs⟩ := hall kv (List.mem_cons_self kv rest)
    rw [store_attributes, hs]
    dsimp only
    have hrest : ∀ kv2 ∈ rest, ∃ s2, kv2.1 = RValue.str s2 :=
      fun kv2 hkv2 => hall kv2 (List.mem_cons_of_mem kv hkv2)
    split_ifs
    · exact ih st stats hrest
    · exact ih st stats hrest
    · exact ih _ _ hrest

/-- C9: every field key of every row produced by `from_bytes` is a
string — non-string decoded key messages are coerced by
`_normalize_key` — so the RDB importer's non-textual-key branch
(`skipped_fields`) is unreachable on decoder-produced rows. -/
theorem decoded_rows_have_string_keys (data : List Nat) (t : Rdb)
    (h : from_bytes data = .ok t) :
    ∀ row ∈ t.rows,
      (∀ kv ∈ row, ∃ s, kv.1 = RValue.str s) ∧
      (∀ (source : String) (rid : Nat) (st : DbState) (stats : ImportStats),
        (store_attributes source rid row st stats).2.skipped_fields =
          stats.skipped_fields) := by
  have hkeys : ∀ row ∈ t.rows, ∀ kv ∈ row, ∃ s, kv.1 = RValue.str s := by
    by_cases hge : data.length < 16
    · rw [from_bytes, if_pos hge] at h
      exact Except.noConfusion h
    · rw [from_bytes, if_neg hge] at h
      cases hp : parseLoop data (data.length + 1) 16 [] [] [] with
      | error e => rw [hp] at h; exact Except.noConfusion h
      | ok triple =>
        obtain ⟨columns, rows, metadata⟩ := triple
        rw [hp] at h
        dsimp only at h
        have hrows : ∀ row ∈ rows, ∀ kv ∈ row, ∃ s, kv.1 = RValue.str s :=
          parseLoop_rows_keys data _ _ _ _ _ _ hp
            (by intro row hrow; exact absurd hrow (List.not_mem_nil row))
        cases hs : (if (lookupOD columns "name").isSome then sortRows rows else .ok rows) with
        | error e => rw [hs] at h; exact Except.noConfusion h
        | ok rows2 =>
          rw [hs] at h
          injection h with h1
          subst h1
          intro row hrow
          by_cases hn : (lookupOD columns "name").isSome
          · rw [if_pos hn] at hs
            exact hrows row (sortRows_mem rows rows2 hs row hrow)
          · rw [if_neg hn] at hs
            injection hs with h2
            subst h2
            exact hrows row hrow
  intro row hrow
  exact ⟨hkeys row hrow,
    fun source rid st stats => store_attributes_no_skip source rid row st stats (hkeys row hrow)⟩

/-- Witness for `decoded_rows_have_string_keys`: a file whose single
row has an integer key message (fixint 1); the decoder coerces it to
the string `"1"` and the importer skips no field on that row. -/
theorem decoded_rows_have_string_keys_witness :
    (∀ kv ∈ [(RValue.str "1", RValue.str "a")], ∃ s, kv.1 = RValue.str s) ∧
    (store_attributes "libretro_rdb" 7 [(RValue.str "1", RValue.str "a")]
        {} {}).2.skipped_fields = ImportStats.skipped_fields {} := by
  have h := decoded_rows_have_string_keys
    [82, 65, 82, 67, 72, 68, 66, 0, 0, 0, 0, 0, 0, 0, 0, 0, 0x81, 0x01, 0xA1, 0x61]
    ⟨[("1", "string")], [[(RValue.str "1", RValue.str "a")]],
      [("count", RValue.num 1)], ⟨[82, 65, 82, 67, 72, 68, 66, 0], 0⟩⟩
    (by rfl)
    [(RValue.str "1", RValue.str "a")] (by simp)
  exact ⟨h.1, h.2 "libretro_rdb" 7 {} {}⟩

/-! ### The encode/decode round trip (claim C1) -/

/-- C1 counterexample: the round trip is not the identity on every
table of int/uint/string/binary/bool/nil fields — `from_bytes` sorts
rows by their `name` field, so a table whose rows are not already in
sorted order decodes to a REORDERED table: with rows named "b", "a"
(in that order), `decode(encode(t))` has them as "a", "b". -/
theorem roundtrip_reorders_unsorted_rows :
    (to_bytes (Rdb.mk [("name", "string")]
        [[(RValue.str "name", RValue.str "b")], [(RValue.str "name", RValue.str "a")]]
        [("count", RValue.num 2)] ⟨[82, 65, 82, 67, 72, 68, 66, 0], 0⟩)).map from_bytes ≠
      some (.ok (Rdb.mk [("name", "string")]
        [[(RValue.str "name", RValue.str "b")], [(RValue.str "name", RValue.str "a")]]
        [("count", RValue.num 2)] ⟨[82, 65, 82, 67, 72, 68, 66, 0], 0⟩)) ∧
    (to_bytes (Rdb.mk [("name", "string")]
        [[(RValue.str "name", RValue.str "b")], [(RValue.str "name", RValue.str "a")]]
        [("count", RValue.num 2)] ⟨[82, 65, 82, 67, 72, 68, 66, 0], 0⟩)).map from_bytes =
      some (.ok (Rdb.mk [("name", "string")]
        [[(RValue.str "name", RValue.str "a")], [(RValue.str "name", RValue.str "b")]]
        [("count", RValue.num 2)] ⟨[82, 65, 82, 67, 72, 68, 66, 0], 0⟩)) := by
  constructor
  · have heq : (to_bytes (Rdb.mk [("name", "string")]
        [[(RValue.str "name", RValue.str "b")], [(RValue.str "name", RValue.str "a")]]
        [("count", RValue.num 2)] ⟨[82, 65, 82, 67, 72, 68, 66, 0], 0⟩)).map from_bytes =
        some (.ok (Rdb.mk [("name", "string")]
          [[(RValue.str "name", RValue.str "a")], [(RValue.str "name", RValue.str "b")]]
          [("count", RValue.num 2)] ⟨[82, 65, 82, 67, 72, 68, 66, 0], 0⟩)) := by rfl
    rw [heq]
    intro hcontra
    injection hcontra with h1
    injection h1 with h2
    have h3 := congrArg Rdb.rows h2
    exact absurd h3 (by decide)
  · rfl

/-- `beBytes` produces exactly `w` bytes. -/
theorem beBytes_length (w : Nat) : ∀ n, (beBytes w n).length = w := by
  induction w with
  | zero => intro n; rfl
  | succ w ih => intro n; simp [beBytes, ih]

/-- Big-endian encode/decode round trip below `256 ^ w`. -/
theorem beVal_beBytes (w : Nat) : ∀ n, n < 256 ^ w → beVal (beBytes w n) = n := by
  have happ : ∀ (l : List Nat) (b : Nat),
      (l ++ [b]).foldl (fun a c => a * 256 + c) 0 =
        l.foldl (fun a c => a * 256 + c) 0 * 256 + b := by
    intro l b
    rw [List.foldl_append]
    rfl
  induction w with
  | zero => intro n hn; interval_cases n; rfl
  | succ w ih =>
    intro n hn
    have hdiv : n / 256 < 256 ^ w := by
      have : 256 ^ (w + 1) = 256 ^ w * 256 := by ring
      rw [this] at hn
      omega
    simp only [beBytes, beVal] at *
    rw [happ, ih (n / 256) hdiv]
    omega

/-- `leBytes` produces exactly `w` bytes. -/
theorem leBytes_length (w : Nat) : ∀ n, (leBytes w n).length = w := by
  induction w with
  | zero => intro n; rfl
  | succ w ih => intro n; simp [leBytes, ih]

/-- Little-endian encode/decode round trip below `256 ^ w`. -/
theorem leVal_leBytes (w : Nat) : ∀ n, n < 256 ^ w → leVal (leBytes w n) = n := by
  induction w with
  | zero => intro n hn; interval_cases n; rfl
  | succ w ih =>
    intro n hn
    have hdiv : n / 256 < 256 ^ w := by
      have : 256 ^ (w + 1) = 256 ^ w * 256 := by ring
      rw [this] at hn
      omega
    simp only [leBytes, leVal]
    rw [ih (n / 256) hdiv]
    omega

/-- Two's-complement encode/decode round trip for `w`-byte integers. -/
theorem toSigned_beSigned (w : Nat) (n : Int) (hw : 1 ≤ w)
    (h1 : -(2 ^ (8 * w - 1)) ≤ n) (h2 : n < 2 ^ (8 * w - 1)) :
    toSigned (beVal (beSigned w n)) w = n := by
  have hMH : (2 : Int) ^ (8 * w) = 2 ^ (8 * w - 1) * 2 := by
    rw [← pow_succ]
    congr 1
    omega
  have hm_lt : n % 2 ^ (8 * w) < 2 ^ (8 * w) := Int.emod_lt_of_pos n (by positivity)
  have hm_nonneg : 0 ≤ n % 2 ^ (8 * w) := Int.emod_nonneg n (by positivity)
  have hpow : ((256 : Nat) : Int) ^ w = 2 ^ (8 * w) := by
    rw [show ((256 : Nat) : Int) = 2 ^ 8 from rfl, ← pow_mul]
  have hnat : (n % 2 ^ (8 * w)).toNat < 256 ^ w := by
    have : ((256 ^ w : Nat) : Int) = 2 ^ (8 * w) := by
      push_cast
      exact hpow
    omega
  have hval : beVal (beSigned w n) = (n % 2 ^ (8 * w)).toNat :=
    beVal_beBytes w _ hnat
  have hmod : n % 2 ^ (8 * w) = if n < 0 then n + 2 ^ (8 * w) else n := by
    split_ifs with hneg
    · have h' : (n + 2 ^ (8 * w) * 1) % 2 ^ (8 * w) = n % 2 ^ (8 * w) :=
        Int.add_mul_emod_self_left n (2 ^ (8 * w)) 1
      rw [mul_one] at h'
      rw [← h', Int.emod_eq_of_lt (by omega) (by omega)]
    · exact Int.emod_eq_of_lt (by omega) (by omega)
  rw [toSigned, hval]
  split_ifs with hlt
  · -- decoded value below the sign threshold: n was nonnegative
    split_ifs at hmod with hneg
    · exfalso
      have : ((2 : Nat) ^ (8 * w - 1) : Int) = 2 ^ (8 * w - 1) := by push_cast; rfl
      omega
    · have : ((2 : Nat) ^ (8 * w - 1) : Int) = 2 ^ (8 * w - 1) := by push_cast; rfl
      omega
  · split_ifs at hmod with hneg
    · have h256 : ((2 : Nat) ^ (8 * w) : Int) = 2 ^ (8 * w) := by push_cast; rfl
      omega
    · exfalso
      have : ((2 : Nat) ^ (8 * w - 1) : Int) = 2 ^ (8 * w - 1) := by push_cast; rfl
      omega

/-- `Char.ofNat` inverts `Char.toNat`. -/
theorem char_ofNat_toNat (c : Char) : Char.ofNat c.toNat = c := by
  rcases c with ⟨val, hvalid⟩
  simp only [Char.toNat, Char.ofNat]
  rw [dif_pos]
  · apply Char.ext
    simp only [Char.ofNatAux]
    apply UInt32.ext
    simp [UInt32.toNat]
  · exact hvalid

/-- UTF-8 encodes an ASCII character as its own single byte. -/
theorem utf8Char_ascii (c : Char) (h : c.toNat < 128) : utf8Char c = [c.toNat] := by
  simp only [utf8Char]
  rw [if_pos (by omega)]

/-- UTF-8 encoding of ASCII characters is the byte-per-character map. -/
theorem utf8Enc_ascii_l : ∀ (l : List Char), (∀ c ∈ l, c.toNat < 128) →
    (l.map utf8Char).flatten = l.map Char.toNat := by
  intro l
  induction l with
  | nil => intro _; rfl
  | cons c cs ih =>
    intro h
    simp only [List.map_cons, List.flatten_cons]
    rw [utf8Char_ascii c (h c (List.mem_cons_self c cs)),
      ih (fun x hx => h x (List.mem_cons_of_mem c hx))]
    rfl

/-- UTF-8 encoding of an ASCII string is the byte-per-character map. -/
theorem utf8Enc_ascii (s : String) (h : asciiStrB s = true) :
    utf8Enc s = s.data.map Char.toNat := by
  rw [asciiStrB, List.all_eq_true] at h
  exact utf8Enc_ascii_l s.data (fun c hc => by simpa using h c hc)

/-- UTF-8 decoding of ASCII bytes is the character-per-byte map. -/
theorem utf8DecF_ascii : ∀ (fuel : Nat) (l : List Nat), l.length ≤ fuel →
    (∀ b ∈ l, b < 128) → utf8DecF fuel l = l.map Char.ofNat := by
  intro fuel
  induction fuel with
  | zero =>
    intro l hl _
    have hnil : l = [] := List.length_eq_zero.mp (by omega)
    subst hnil
    rfl
  | succ fuel ih =>
    intro l hl hb
    cases l with
    | nil => rfl
    | cons b rest =>
      have hb1 : b < 128 := hb b (List.mem_cons_self b rest)
      simp only [utf8DecF]
      rw [if_pos (by omega : b < 128)]
      rw [ih rest (by simp only [List.length_cons] at hl; omega)
        (fun x hx => hb x (List.mem_cons_of_mem b hx))]
      rfl

/-- Decoding the UTF-8 encoding of an ASCII string gives it back. -/
theorem pyDecodeUtf8_ascii (s : String) (h : asciiStrB s = true) :
    pyDecodeUtf8 (utf8Enc s) = s := by
  rw [utf8Enc_ascii s h, pyDecodeUtf8]
  rw [asciiStrB, List.all_eq_true] at h
  rw [utf8DecF_ascii _ _ (Nat.le_refl _) ?hb]
  case hb =>
    intro b hbm
    obtain ⟨c, hc, rfl⟩ := List.mem_map.mp hbm
    simpa using h c hc
  rw [List.map_map]
  have hid : (Char.ofNat ∘ Char.toNat) = id := by
    funext c
    exact char_ofNat_toNat c
  rw [hid, List.map_id]

/-- A lowercase hex digit character round-trips through its value. -/
theorem hexDig_hexDigVal (c : Char) (h : lowerHexB c = true) :
    ∃ d, hexDigVal c = some d ∧ d < 16 ∧ hexDig d = c := by
  rw [lowerHexB] at h
  simp only [Bool.or_eq_true, Bool.and_eq_true, decide_eq_true_eq] at h
  rcases h with ⟨h1, h2⟩ | ⟨h1, h2⟩
  · refine ⟨c.toNat - 48, ?_, by omega, ?_⟩
    · simp only [hexDigVal]
      rw [if_pos (by omega)]
    · rw [hexDig, if_pos (by omega)]
      rw [show ('0'.toNat) = 48 from rfl, show 48 + (c.toNat - 48) = c.toNat by omega]
      exact char_ofNat_toNat c
  · refine ⟨c.toNat - 97 + 10, ?_, by omega, ?_⟩
    · simp only [hexDigVal]
      rw [if_neg (by omega), if_pos (by omega)]
    · rw [hexDig, if_neg (by omega)]
      rw [show ('a'.toNat) = 97 from rfl, show 97 + (c.toNat - 97 + 10) - 10 = c.toNat by omega]
      exact char_ofNat_toNat c

/-- Unhexlify of a lowercase even-length hex string succeeds and
hexlify inverts it. -/
theorem unhexlify_hexlify : ∀ (cs : List Char), cs.all lowerHexB = true →
    cs.length % 2 = 0 →
    ∃ bytes, unhexlify cs = some bytes ∧ hexlify bytes = cs ∧
      2 * bytes.length = cs.length := by
  intro cs
  induction cs using unhexlify.induct with
  | case1 =>
    intro _ _
    exact ⟨[], rfl, rfl, rfl⟩
  | case2 c =>
    intro _ hlen
    simp at hlen
  | case3 c1 c2 rest ih =>
    intro hall hlen
    simp only [List.all_cons, Bool.and_eq_true] at hall
    obtain ⟨h1, h2, hrest⟩ := hall
    obtain ⟨d1, hd1, hd1lt, hc1⟩ := hexDig_hexDigVal c1 h1
    obtain ⟨d2, hd2, hd2lt, hc2⟩ := hexDig_hexDigVal c2 h2
    obtain ⟨bytes, hbytes, hhex, hlen2⟩ := ih hrest
      (by simp only [List.length_cons] at hlen ⊢; omega)
    refine ⟨(d1 * 16 + d2) :: bytes, ?_, ?_, ?_⟩
    · rw [unhexlify, hd1, hd2, hbytes]
      rfl
    · rw [hexlify, List.foldr_cons]
      have e1 : (d1 * 16 + d2) / 16 % 16 = d1 := by omega
      have e2 : (d1 * 16 + d2) % 16 = d2 := by omega
      rw [e1, e2, hc1, hc2]
      rw [hexlify] at hhex
      rw [hhex]
    · simp only [List.length_cons] at *
      omega

/-- Shift a drop across a known prefix. -/
theorem drop_shift (data : List Nat) (i : Nat) (pre post : List Nat)
    (h : data.drop i = pre ++ post) : data.drop (i + pre.length) = post := by
  rw [← List.drop_drop, h]
  exact List.drop_left pre post

/-- Round trip of the nil message. -/
theorem set_get_nil :
    ∃ bs, set_rmsg "nil" RValue.none = some bs ∧ 0 < bs.length ∧
      ∀ (data : List Nat) (i : Nat) (post : List Nat), data.drop i = bs ++ post →
        ∃ m, get_rmsg data i = .ok (i + bs.length, m) ∧ m.typ = "nil" ∧
          m.val = RValue.none := by
  refine ⟨[0xC0], rfl, by norm_num, ?_⟩
  intro data i post hd
  refine ⟨.nil, ?_, rfl, rfl⟩
  rw [get_rmsg, hd]
  dsimp only
  norm_num

/-- Round trip of a boolean message. -/
theorem set_get_bool (b : Bool) :
    ∃ bs, set_rmsg "bool" (.bool b) = some bs ∧ 0 < bs.length ∧
      ∀ (data : List Nat) (i : Nat) (post : List Nat), data.drop i = bs ++ post →
        ∃ m, get_rmsg data i = .ok (i + bs.length, m) ∧ m.typ = "bool" ∧
          m.val = .bool b := by
  cases b
  · refine ⟨[0xC2], rfl, by norm_num, ?_⟩
    intro data i post hd
    refine ⟨.bool false, ?_, rfl, rfl⟩
    rw [get_rmsg, hd]
    dsimp only
    norm_num
  · refine ⟨[0xC3], rfl, by norm_num, ?_⟩
    intro data i post hd
    refine ⟨.bool true, ?_, rfl, rfl⟩
    rw [get_rmsg, hd]
    dsimp only
    norm_num

/-- Round trip of a `uint` message: the smallest sized form is used and
decodes to the same value. -/
theorem set_get_uint (n : Int) (h0 : 0 ≤ n) (h1 : n < 18446744073709551616) :
    ∃ bs, set_rmsg "uint" (.num n) = some bs ∧ 0 < bs.length ∧
      ∀ (data : List Nat) (i : Nat) (post : List Nat), data.drop i = bs ++ post →
        ∃ m, get_rmsg data i = .ok (i + bs.length, m) ∧ m.typ = "uint" ∧
          m.val = .num n := by
  have hv : RValue.num (n.toNat : Int) = .num n := by
    rw [Int.toNat_of_nonneg h0]
  by_cases hc1 : n < 256
  · refine ⟨[0xCC, n.toNat], ?_, by norm_num, ?_⟩
    · rw [set_rmsg_uint_def]
      dsimp only
      rw [if_pos hc1, if_pos h0]
    · intro data i post hd
      have hd1 : data.drop (i + 1) = [n.toNat] ++ post := by
        have h2 := drop_shift data i [0xCC] ([n.toNat] ++ post) (by simpa using hd)
        simpa using h2
      refine ⟨.uint n.toNat, ?_, rfl, hv⟩
      rw [get_rmsg, hd]
      dsimp only
      norm_num
      have hs : pySlice data (i + 1) (i + 2) = [n.toNat] := by
        rw [pySlice, hd1]
        rw [show i + 2 - (i + 1) = 1 by omega]
        rfl
      rw [hs]
      norm_num [beVal]
  · by_cases hc2 : n < 65536
    · refine ⟨0xCD :: beBytes 2 n.toNat, ?_, by norm_num, ?_⟩
      · rw [set_rmsg_uint_def]
        dsimp only
        rw [if_neg hc1, if_pos hc2]
      · intro data i post hd
        have hlen : (beBytes 2 n.toNat).length = 2 := beBytes_length 2 n.toNat
        have hd1 : data.drop (i + 1) = beBytes 2 n.toNat ++ post := by
          have h2 := drop_shift data i [0xCD] (beBytes 2 n.toNat ++ post) (by simpa using hd)
          simpa using h2
        refine ⟨.uint n.toNat, ?_, rfl, hv⟩
        rw [get_rmsg, hd]
        dsimp only
        norm_num
        have hs : pySlice data (i + 1) (i + 3) = beBytes 2 n.toNat := by
          rw [pySlice, hd1]
          rw [show i + 3 - (i + 1) = 2 by omega, ← hlen]
          exact List.take_left _ _
        rw [hs, hlen, beVal_beBytes 2 n.toNat (by norm_num; omega)]
        norm_num
    · by_cases hc3 : n < 4294967296
      · refine ⟨0xCE :: beBytes 4 n.toNat, ?_, by norm_num, ?_⟩
        · rw [set_rmsg_uint_def]
          dsimp only
          rw [if_neg hc1, if_neg hc2, if_pos hc3]
        · intro data i post hd
          have hlen : (beBytes 4 n.toNat).length = 4 := beBytes_length 4 n.toNat
          have hd1 : data.drop (i + 1) = beBytes 4 n.toNat ++ post := by
            have h2 := drop_shift data i [0xCE] (beBytes 4 n.toNat ++ post)
              (by simpa using hd)
            simpa using h2
          refine ⟨.uint n.toNat, ?_, rfl, hv⟩
          rw [get_rmsg, hd]
          dsimp only
          norm_num
          have hs : pySlice data (i + 1) (i + 5) = beBytes 4 n.toNat := by
            rw [pySlice, hd1]
            rw [show i + 5 - (i + 1) = 4 by omega, ← hlen]
            exact List.take_left _ _
          rw [hs, hlen, beVal_beBytes 4 n.toNat (by norm_num; omega)]
          norm_num
      · refine ⟨0xCF :: beBytes 8 n.toNat, ?_, by norm_num, ?_⟩
        · rw [set_rmsg_uint_def]
          dsimp only
          rw [if_neg hc1, if_neg hc2, if_neg hc3, if_pos h1]
        · intro data i post hd
          have hlen : (beBytes 8 n.toNat).length = 8 := beBytes_length 8 n.toNat
          have hd1 : data.drop (i + 1) = beBytes 8 n.toNat ++ post := by
            have h2 := drop_shift data i [0xCF] (beBytes 8 n.toNat ++ post)
              (by simpa using hd)
            simpa using h2
          refine ⟨.uint n.toNat, ?_, rfl, hv⟩
          rw [get_rmsg, hd]
          dsimp only
          norm_num
          have hs : pySlice data (i + 1) (i + 9) = beBytes 8 n.toNat := by
            rw [pySlice, hd1]
            rw [show i + 9 - (i + 1) = 8 by omega, ← hlen]
            exact List.take_left _ _
          rw [hs, hlen, beVal_beBytes 8 n.toNat (by norm_num; omega)]
          norm_num

/-- Round trip of an `int` message: fixint or the smallest signed sized
form, decoding to the same value. -/
theorem set_get_int (n : Int) (h1 : -9223372036854775808 ≤ n)
    (h2 : n < 9223372036854775808) :
    ∃ bs, set_rmsg "int" (.num n) = some bs ∧ 0 < bs.length ∧
      ∀ (data : List Nat) (i : Nat) (post : List Nat), data.drop i = bs ++ post →
        ∃ m, get_rmsg data i = .ok (i + bs.length, m) ∧ m.typ = "int" ∧
          m.val = .num n := by
  by_cases hF : -32 ≤ n ∧ n < 128
  · have hb : beSigned 1 n = [(n % 256).toNat] := by
      show beBytes 1 (n % 256).toNat = _
      simp only [beBytes, List.nil_append]
      rw [Nat.mod_eq_of_lt (by omega)]
    refine ⟨beSigned 1 n, ?_, by rw [hb]; norm_num, ?_⟩
    · rw [set_rmsg_int_def]
      dsimp only
      rw [if_pos hF]
    · intro data i post hd
      rw [hb] at hd
      by_cases hpos : 0 ≤ n
      · refine ⟨.int ((n % 256).toNat : Int), ?_, rfl, ?_⟩
        · rw [get_rmsg, hd]
          simp only [List.cons_append, List.nil_append]
          rw [if_pos (show (n % 256).toNat ≤ 127 by omega), hb]
          rfl
        · show RValue.num _ = _
          congr 1
          omega
      · refine ⟨.int (toSigned (n % 256).toNat 1), ?_, rfl, ?_⟩
        · rw [get_rmsg, hd]
          simp only [List.cons_append, List.nil_append]
          rw [if_neg (show ¬ (n % 256).toNat ≤ 127 by omega),
            if_pos (show 224 ≤ (n % 256).toNat by omega), hb]
          rfl
        · show RValue.num _ = _
          rw [toSigned, if_neg (by norm_num; omega)]
          congr 1
          norm_num
          omega
  · by_cases hc8 : -128 ≤ n ∧ n < 128
    · refine ⟨0xD0 :: beSigned 1 n, ?_, Nat.succ_pos _, ?_⟩
      · rw [set_rmsg_int_def]
        dsimp only
        rw [if_neg hF, if_pos hc8]
      · intro data i post hd
        have hlen : (beSigned 1 n).length = 1 := beBytes_length 1 _
        have hd1 : data.drop (i + 1) = beSigned 1 n ++ post := by
          have h2' := drop_shift data i [0xD0] (beSigned 1 n ++ post) (by simpa using hd)
          simpa using h2'
        refine ⟨.int n, ?_, rfl, rfl⟩
        rw [get_rmsg, hd]
        dsimp only
        norm_num
        have hs : pySlice data (i + 1) (i + 2) = beSigned 1 n := by
          rw [pySlice, hd1]
          rw [show i + 2 - (i + 1) = 1 by omega, ← hlen]
          exact List.take_left _ _
        rw [hs, hlen,
          toSigned_beSigned 1 n (by norm_num) (by norm_num; omega) (by norm_num; omega)]
        norm_num
    · by_cases hc16 : -32768 ≤ n ∧ n < 32768
      · refine ⟨0xD1 :: beSigned 2 n, ?_, Nat.succ_pos _, ?_⟩
        · rw [set_rmsg_int_def]
          dsimp only
          rw [if_neg hF, if_neg hc8, if_pos hc16]
        · intro data i post hd
          have hlen : (beSigned 2 n).length = 2 := beBytes_length 2 _
          have hd1 : data.drop (i + 1) = beSigned 2 n ++ post := by
            have h2' := drop_shift data i [0xD1] (beSigned 2 n ++ post) (by simpa using hd)
            simpa using h2'
          refine ⟨.int n, ?_, rfl, rfl⟩
          rw [get_rmsg, hd]
          dsimp only
          norm_num
          have hs : pySlice data (i + 1) (i + 3) = beSigned 2 n := by
            rw [pySlice, hd1]
            rw [show i + 3 - (i + 1) = 2 by omega, ← hlen]
            exact List.take_left _ _
          rw [hs, hlen,
            toSigned_beSigned 2 n (by norm_num) (by norm_num; omega) (by norm_num; omega)]
          norm_num
      · by_cases hc32 : -2147483648 ≤ n ∧ n < 2147483648
        · refine ⟨0xD2 :: beSigned 4 n, ?_, Nat.succ_pos _, ?_⟩
          · rw [set_rmsg_int_def]
            dsimp only
            rw [if_neg hF, if_neg hc8, if_neg hc16, if_pos hc32]
          · intro data i post hd
            have hlen : (beSigned 4 n).length = 4 := beBytes_length 4 _
            have hd1 : data.drop (i + 1) = beSigned 4 n ++ post := by
              have h2' := drop_shift data i [0xD2] (beSigned 4 n ++ post)
                (by simpa using hd)
              simpa using h2'
            refine ⟨.int n, ?_, rfl, rfl⟩
            rw [get_rmsg, hd]
            dsimp only
            norm_num
            have hs : pySlice data (i + 1) (i + 5) = beSigned 4 n := by
              rw [pySlice, hd1]
              rw [show i + 5 - (i + 1) = 4 by omega, ← hlen]
              exact List.take_left _ _
            rw [hs, hlen,
              toSigned_beSigned 4 n (by norm_num) (by norm_num; omega) (by norm_num; omega)]
            norm_num
        · refine ⟨0xD3 :: beSigned 8 n, ?_, Nat.succ_pos _, ?_⟩
          · rw [set_rmsg_int_def]
            dsimp only
            rw [if_neg hF, if_neg hc8, if_neg hc16, if_neg hc32, if_pos (by omega)]
          · intro data i post hd
            have hlen : (beSigned 8 n).length = 8 := beBytes_length 8 _
            have hd1 : data.drop (i + 1) = beSigned 8 n ++ post := by
              have h2' := drop_shift data i [0xD3] (beSigned 8 n ++ post)
                (by simpa using hd)
              simpa using h2'
            refine ⟨.int n, ?_, rfl, rfl⟩
            rw [get_rmsg, hd]
            dsimp only
            norm_num
            have hs : pySlice data (i + 1) (i + 9) = beSigned 8 n := by
              rw [pySlice, hd1]
              rw [show i + 9 - (i + 1) = 8 by omega, ← hlen]
              exact List.take_left _ _
            rw [hs, hlen,
              toSigned_beSigned 8 n (by norm_num) (by norm_num; omega) (by norm_num; omega)]
            norm_num

/-- `set_rmsg` specialised to the `"string"` type tag. -/
theorem set_rmsg_string_def (v : RValue) : set_rmsg "string" v =
    (match v with
     | .str s =>
       let strlen := s.length
       let payload := (utf8Enc s).take strlen
       if strlen < 32 then some ((0xA0 + strlen) :: payload)
       else if strlen < 256 then some (0xD9 :: strlen :: payload)
       else if strlen < 65536 then some (0xDA :: (beBytes 2 strlen ++ payload))
       else if strlen < 4294967296 then some (0xDB :: (beBytes 4 strlen ++ payload))
       else Option.none
     | _ => Option.none) := rfl

/-- `set_rmsg` specialised to the `"binstr"` type tag. -/
theorem set_rmsg_binstr_def (v : RValue) : set_rmsg "binstr" v =
    (match v with
     | .str s =>
       match unhexlify s.data with
       | some binstr =>
         let strlen := binstr.length
         if strlen < 256 then some (0xC4 :: strlen :: binstr)
         else if strlen < 65536 then some (0xC5 :: (beBytes 2 strlen ++ binstr))
         else if strlen < 4294967296 then some (0xC6 :: (beBytes 4 strlen ++ binstr))
         else Option.none
       | Option.none => Option.none
     | _ => Option.none) := rfl

/-- `set_rmsg` specialised to the `"fixmap"` type tag. -/
theorem set_rmsg_fixmap_def (v : RValue) : set_rmsg "fixmap" v =
    (match v with
     | .num n =>
       if n < 16 then (if 0 ≤ n then some [0x80 + n.toNat] else Option.none)
       else if n < 65536 then some (0xDE :: beBytes 2 n.toNat)
       else if n < 4294967296 then some (0xDF :: beBytes 4 n.toNat)
       else some []
     | _ => Option.none) := rfl

/-- Rebuilding a string from its character list is the identity. -/
theorem string_mk_data (s : String) : String.mk s.data = s := by
  rcases s with ⟨d⟩
  rfl

/-- Round trip of a `string` message for ASCII strings shorter than
256 characters (fixstr or str8 forms). -/
theorem set_get_string (s : String) (hA : asciiStrB s = true) (hL : s.length < 256) :
    ∃ bs, set_rmsg "string" (.str s) = some bs ∧ 0 < bs.length ∧
      ∀ (data : List Nat) (i : Nat) (post : List Nat), data.drop i = bs ++ post →
        ∃ m, get_rmsg data i = .ok (i + bs.length, m) ∧ m.typ = "string" ∧
          m.val = .str s := by
  have hEncLen : (utf8Enc s).length = s.length := by
    rw [utf8Enc_ascii s hA, List.length_map]
    rfl
  have hpay : (utf8Enc s).take s.length = utf8Enc s := by
    rw [← hEncLen]
    exact List.take_length _
  by_cases h32 : s.length < 32
  · refine ⟨(0xA0 + s.length) :: utf8Enc s, ?_, Nat.succ_pos _, ?_⟩
    · rw [set_rmsg_string_def]
      dsimp only
      rw [if_pos h32, hpay]
    · intro data i post hd
      refine ⟨.string s, ?_, rfl, rfl⟩
      rw [get_rmsg, hd]
      simp only [List.cons_append]
      rw [if_neg (show ¬ (0xA0 + s.length) ≤ 127 by omega),
        if_neg (show ¬ 224 ≤ (0xA0 + s.length) by omega),
        if_neg (show ¬ (128 ≤ (0xA0 + s.length) ∧ (0xA0 + s.length) ≤ 143) by omega),
        if_neg (show ¬ (144 ≤ (0xA0 + s.length) ∧ (0xA0 + s.length) ≤ 159) by omega),
        if_pos (show 160 ≤ (0xA0 + s.length) ∧ (0xA0 + s.length) ≤ 191 by omega)]
      rw [show (0xA0 + s.length) % 32 = s.length by omega]
      rw [show List.take s.length (utf8Enc s ++ post) = utf8Enc s from by
        rw [← hEncLen]; exact List.take_left _ _]
      rw [pyDecodeUtf8_ascii s hA]
      rw [List.length_cons, hEncLen, Nat.add_assoc]
  · refine ⟨0xD9 :: s.length :: utf8Enc s, ?_, Nat.succ_pos _, ?_⟩
    · rw [set_rmsg_string_def]
      dsimp only
      rw [if_neg h32, if_pos hL, hpay]
    · intro data i post hd
      have hd1 : data.drop (i + 1) = s.length :: (utf8Enc s ++ post) := by
        have h2' := drop_shift data i [0xD9] (s.length :: (utf8Enc s ++ post))
          (by simpa using hd)
        simpa using h2'
      have hd2 : data.drop (i + 2) = utf8Enc s ++ post := by
        have h2' := drop_shift data i [0xD9, s.length] (utf8Enc s ++ post)
          (by simpa using hd)
        simpa using h2'
      refine ⟨.string s, ?_, rfl, rfl⟩
      rw [get_rmsg, hd]
      simp only [List.cons_append]
      norm_num
      have hpre : pySlice data (i + 1) (i + 1 + 1) = [s.length] := by
        rw [pySlice, hd1]
        rw [show i + 1 + 1 - (i + 1) = 1 by omega]
        rfl
      rw [hpre]
      norm_num
      have hpl : pySlice data (i + 1 + 1) (i + 1 + s.length + 1) = utf8Enc s := by
        rw [pySlice, show i + 1 + 1 = i + 2 by omega, hd2]
        rw [show i + 1 + s.length + 1 - (i + 2) = s.length by omega, ← hEncLen]
        exact List.take_left _ _
      rw [hpl, pyDecodeUtf8_ascii s hA]
      norm_num [List.length_cons, hEncLen]
      omega

/-- Round trip of a `binstr` message for lowercase even-length hex
strings encoding fewer than 256 bytes (bin8 form). -/
theorem set_get_binstr (s : String) (hA : s.data.all lowerHexB = true)
    (hE : s.length % 2 = 0) (hL : s.length < 512) :
    ∃ bs, set_rmsg "binstr" (.str s) = some bs ∧ 0 < bs.length ∧
      ∀ (data : List Nat) (i : Nat) (post : List Nat), data.drop i = bs ++ post →
        ∃ m, get_rmsg data i = .ok (i + bs.length, m) ∧ m.typ = "binstr" ∧
          m.val = .str s := by
  have hsl : s.length = s.data.length := rfl
  obtain ⟨bytes, hu, hh, hl2⟩ := unhexlify_hexlify s.data hA (by omega)
  have hb256 : bytes.length < 256 := by omega
  refine ⟨0xC4 :: bytes.length :: bytes, ?_, Nat.succ_pos _, ?_⟩
  · rw [set_rmsg_binstr_def]
    dsimp only
    rw [hu]
    dsimp only
    rw [if_pos hb256]
  · intro data i post hd
    have hd1 : data.drop (i + 1) = bytes.length :: (bytes ++ post) := by
      have h2' := drop_shift data i [0xC4] (bytes.length :: (bytes ++ post))
        (by simpa using hd)
      simpa using h2'
    have hd2 : data.drop (i + 2) = bytes ++ post := by
      have h2' := drop_shift data i [0xC4, bytes.length] (bytes ++ post)
        (by simpa using hd)
      simpa using h2'
    refine ⟨.binstr s, ?_, rfl, rfl⟩
    rw [get_rmsg, hd]
    simp only [List.cons_append]
    norm_num
    have hpre : pySlice data (i + 1) (i + 1 + 1) = [bytes.length] := by
      rw [pySlice, hd1]
      rw [show i + 1 + 1 - (i + 1) = 1 by omega]
      rfl
    rw [hpre]
    norm_num
    have hpl : pySlice data (i + 1 + 1) (i + 1 + bytes.length + 1) = bytes := by
      rw [pySlice, show i + 1 + 1 = i + 2 by omega, hd2]
      rw [show i + 1 + bytes.length + 1 - (i + 2) = bytes.length by omega]
      exact List.take_left _ _
    rw [hpl, hh, string_mk_data]
    norm_num [List.length_cons]
    omega

/-- Round trip of a `fixmap` arity header below `2^32`. -/
theorem set_get_fixmap (L : Nat) (hL : L < 4294967296) :
    ∃ bs, set_rmsg "fixmap" (.num (L : Int)) = some bs ∧ 0 < bs.length ∧
      ∀ (data : List Nat) (i : Nat) (post : List Nat), data.drop i = bs ++ post →
        get_rmsg data i = .ok (i + bs.length, .fixmap L) := by
  have hcast : ((L : Int)).toNat = L := by omega
  by_cases h16 : L < 16
  · refine ⟨[0x80 + L], ?_, Nat.succ_pos _, ?_⟩
    · rw [set_rmsg_fixmap_def]
      dsimp only
      rw [if_pos (show (L : Int) < 16 by omega), if_pos (show (0 : Int) ≤ L by omega),
        hcast]
    · intro data i post hd
      rw [get_rmsg, hd]
      simp only [List.cons_append]
      rw [if_neg (show ¬ (0x80 + L) ≤ 127 by omega),
        if_neg (show ¬ 224 ≤ (0x80 + L) by omega),
        if_pos (show 128 ≤ (0x80 + L) ∧ (0x80 + L) ≤ 143 by omega)]
      rw [show (0x80 + L) % 16 = L by omega]
      rfl
  · by_cases h65 : L < 65536
    · refine ⟨0xDE :: beBytes 2 L, ?_, Nat.succ_pos _, ?_⟩
      · rw [set_rmsg_fixmap_def]
        dsimp only
        rw [if_neg (show ¬ (L : Int) < 16 by omega),
          if_pos (show (L : Int) < 65536 by omega), hcast]
      · intro data i post hd
        have hlen : (beBytes 2 L).length = 2 := beBytes_length 2 L
        have hd1 : data.drop (i + 1) = beBytes 2 L ++ post := by
          have h2' := drop_shift data i [0xDE] (beBytes 2 L ++ post) (by simpa using hd)
          simpa using h2'
        rw [get_rmsg, hd]
        simp only [List.cons_append]
        norm_num
        have hs : pySlice data (i + 1) (i + 3) = beBytes 2 L := by
          rw [pySlice, hd1]
          rw [show i + 3 - (i + 1) = 2 by omega, ← hlen]
          exact List.take_left _ _
        rw [hs, hlen, beVal_beBytes 2 L (by norm_num; omega)]
        norm_num
    · refine ⟨0xDF :: beBytes 4 L, ?_, Nat.succ_pos _, ?_⟩
      · rw [set_rmsg_fixmap_def]
        dsimp only
        rw [if_neg (show ¬ (L : Int) < 16 by omega),
          if_neg (show ¬ (L : Int) < 65536 by omega),
          if_pos (show (L : Int) < 4294967296 by omega), hcast]
      · intro data i post hd
        have hlen : (beBytes 4 L).length = 4 := beBytes_length 4 L
        have hd1 : data.drop (i + 1) = beBytes 4 L ++ post := by
          have h2' := drop_shift data i [0xDF] (beBytes 4 L ++ post) (by simpa using hd)
          simpa using h2'
        rw [get_rmsg, hd]
        simp only [List.cons_append]
        norm_num
        have hs : pySlice data (i + 1) (i + 5) = beBytes 4 L := by
          rw [pySlice, hd1]
          rw [show i + 5 - (i + 1) = 4 by omega, ← hlen]
          exact List.take_left _ _
        rw [hs, hlen, beVal_beBytes 4 L (by norm_num; omega)]
        norm_num

/-- Case analysis of well-typed values. -/
theorem goodValB_cases (typ : String) (v : RValue) (h : goodValB typ v = true) :
    (∃ n, typ = "uint" ∧ v = .num n ∧ 0 ≤ n ∧ n < 18446744073709551616) ∨
    (∃ n, typ = "int" ∧ v = .num n ∧
      -9223372036854775808 ≤ n ∧ n < 9223372036854775808) ∨
    (∃ s, typ = "string" ∧ v = .str s ∧ asciiStrB s = true ∧ s.length < 256) ∨
    (∃ s, typ = "binstr" ∧ v = .str s ∧ s.data.all lowerHexB = true ∧
      s.length % 2 = 0 ∧ s.length < 512) ∨
    (∃ b, typ = "bool" ∧ v = .bool b) ∨
    (typ = "nil" ∧ v = RValue.none) := by
  unfold goodValB at h
  split at h
  · rename_i n
    exact Or.inl ⟨n, rfl, rfl, by simpa using h⟩
  · rename_i n
    exact Or.inr (Or.inl ⟨n, rfl, rfl, by simpa using h⟩)
  · rename_i s
    simp only [Bool.and_eq_true, decide_eq_true_eq] at h
    exact Or.inr (Or.inr (Or.inl ⟨s, rfl, rfl, h.1, h.2⟩))
  · rename_i s
    simp only [Bool.and_eq_true, decide_eq_true_eq] at h
    exact Or.inr (Or.inr (Or.inr (Or.inl ⟨s, rfl, rfl, h.1.1, h.1.2, h.2⟩)))
  · rename_i b
    exact Or.inr (Or.inr (Or.inr (Or.inr (Or.inl ⟨b, rfl, rfl⟩))))
  · exact Or.inr (Or.inr (Or.inr (Or.inr (Or.inr ⟨rfl, rfl⟩))))
  · exact absurd h (by simp)

/-- Round trip of any message of a well-typed value: the encoded bytes
are nonempty and decode in place to a message of the same type tag and
the same value. -/
theorem set_get_msg (typ : String) (v : RValue) (h : goodValB typ v = true) :
    ∃ bs, set_rmsg typ v = some bs ∧ 0 < bs.length ∧
      ∀ (data : List Nat) (i : Nat) (post : List Nat), data.drop i = bs ++ post →
        ∃ m, get_rmsg data i = .ok (i + bs.length, m) ∧ m.typ = typ ∧
          m.val = v := by
  rcases goodValB_cases typ v h with
      ⟨n, rfl, rfl, h1, h2⟩ | ⟨n, rfl, rfl, h1, h2⟩ | ⟨s, rfl, rfl, h1, h2⟩ |
      ⟨s, rfl, rfl, h1, h2, h3⟩ | ⟨b, rfl, rfl⟩ | ⟨rfl, rfl⟩
  · exact set_get_uint n h1 h2
  · exact set_get_int n h1 h2
  · exact set_get_string s h1 h2
  · exact set_get_binstr s h1 h2 h3
  · exact set_get_bool b
  · exact set_get_nil

/-- Round trip of one field: key message then value message, as
`_write_rfield` produces and two `_get_rmsg` calls consume. -/
theorem write_rfield_rt (columns : List (String × String)) (kv : RValue × RValue)
    (h : fieldOkB columns kv = true) :
    ∃ k fb, kv.1 = .str k ∧
      write_rfield kv.1 kv.2 (colType columns kv.1 kv.2) = some fb ∧ 0 < fb.length ∧
      ∀ (data : List Nat) (i : Nat) (post : List Nat), data.drop i = fb ++ post →
        ∃ j km vm, get_rmsg data i = .ok (j, km) ∧ km.val = .str k ∧
          get_rmsg data j = .ok (i + fb.length, vm) ∧
          vm.typ = colType columns kv.1 kv.2 ∧ vm.val = kv.2 := by
  obtain ⟨k0, v0⟩ := kv
  cases k0 with
  | num n => exact absurd h (by simp [fieldOkB])
  | bool b => exact absurd h (by simp [fieldOkB])
  | none => exact absurd h (by simp [fieldOkB])
  | bytes bs => exact absurd h (by simp [fieldOkB])
  | str k =>
    unfold fieldOkB at h
    dsimp only at h
    rw [Bool.and_eq_true] at h
    obtain ⟨hk, hv⟩ := h
    cases hlk : lookupOD columns k with
    | none => rw [hlk] at hv; simp at hv
    | some typ =>
      rw [hlk] at hv
      have hct : colType columns (.str k) v0 = typ := by
        simp [colType, hlk]
      rw [goodKeyB, Bool.and_eq_true, decide_eq_true_eq] at hk
      obtain ⟨a, hsa, hapos, hdeca⟩ := set_get_string k hk.1 hk.2
      obtain ⟨b, hsb, hbpos, hdecb⟩ := set_get_msg typ v0 hv
      refine ⟨k, a ++ b, rfl, ?_, ?_, ?_⟩
      · rw [hct]
        unfold write_rfield
        rw [hsa, hsb]
      · rw [List.length_append]
        omega
      · intro data i post hd
        have hda : data.drop i = a ++ (b ++ post) := by rw [hd, List.append_assoc]
        obtain ⟨km, hgm, hktyp, hkval⟩ := hdeca data i (b ++ post) hda
        have hdb : data.drop (i + a.length) = b ++ post := drop_shift data i a (b ++ post) hda
        obtain ⟨vm, hgv, hvtyp, hvval⟩ := hdecb data (i + a.length) post hdb
        refine ⟨i + a.length, km, vm, hgm, hkval, ?_, by rw [hct]; exact hvtyp, hvval⟩
        rw [List.length_append, ← Nat.add_assoc]
        exact hgv

/-- Round trip of a record body: the concatenated field encodings of a
well-typed row read back as exactly its field triples. -/
theorem readFields_enc (columns : List (String × String)) (kvs : Row)
    (hall : ∀ kv ∈ kvs, fieldOkB columns kv = true) :
    ∃ fbs : List (List Nat),
      kvs.mapM (fun kv => write_rfield kv.1 kv.2 (colType columns kv.1 kv.2)) =
        some fbs ∧
      ∀ (data : List Nat) (i : Nat) (post : List Nat),
        data.drop i = fbs.flatten ++ post →
        readFields data i kvs.length =
          .ok (i + fbs.flatten.length,
            kvs.map (fun kv => (pyKeyStr kv.1, kv.2, colType columns kv.1 kv.2))) := by
  induction kvs with
  | nil =>
    refine ⟨[], rfl, ?_⟩
    intro data i post _
    simp [readFields]
  | cons kv kvs ih =>
    obtain ⟨fbs, hmap, hdecs⟩ := ih (fun x hx => hall x (List.mem_cons_of_mem kv hx))
    obtain ⟨k, fb, hk1, hwf, hpos, hdec⟩ :=
      write_rfield_rt columns kv (hall kv (List.mem_cons_self kv kvs))
    refine ⟨fb :: fbs, ?_, ?_⟩
    · rw [List.mapM_cons, hwf, hmap]
      rfl
    · intro data i post hd
      rw [List.flatten_cons, List.append_assoc] at hd
      obtain ⟨j, km, vm, hgm, hkval, hgv, hvtyp, hvval⟩ := hdec data i _ hd
      have hdb : data.drop (i + fb.length) = fbs.flatten ++ post :=
        drop_shift data i fb _ hd
      rw [show (kv :: kvs).length = kvs.length + 1 from rfl]
      simp only [readFields]
      rw [hgm]
      dsimp only
      rw [hgv]
      dsimp only
      rw [hdecs data (i + fb.length) post hdb]
      dsimp only
      simp only [List.map_cons]
      rw [hkval, hvval, hvtyp, hk1]
      rw [show normalize_key (.str k) = k from rfl,
        show pyKeyStr (RValue.str k) = k from rfl]
      rw [List.flatten_cons, List.length_append, ← Nat.add_assoc]

/-- Inserting a fresh key appends it. -/
theorem insertOD_not_mem {α β : Type} [DecidableEq α] :
    ∀ (l : List (α × β)) (k : α) (v : β),
      k ∉ l.map Prod.fst → insertOD l k v = l ++ [(k, v)] := by
  intro l
  induction l with
  | nil => intro k v _; rfl
  | cons p rest ih =>
    intro k v hk
    simp only [List.map_cons, List.mem_cons] at hk
    push_neg at hk
    rw [insertOD, if_neg (fun he => hk.1 he.symm), ih k v hk.2]
    rfl

/-- A field key is a string and `pyKeyStr` recovers it. -/
theorem fieldOk_str (columns : List (String × String)) (kv : RValue × RValue)
    (h : fieldOkB columns kv = true) : kv.1 = RValue.str (pyKeyStr kv.1) := by
  obtain ⟨k0, v0⟩ := kv
  cases k0 with
  | str k => rfl
  | num n => exact absurd h (by simp [fieldOkB])
  | bool b => exact absurd h (by simp [fieldOkB])
  | none => exact absurd h (by simp [fieldOkB])
  | bytes bs => exact absurd h (by simp [fieldOkB])

/-- Sequential dict assignment of fresh distinct keys appends in order. -/
theorem buildRecord_aux (columns : List (String × String)) :
    ∀ (row : Row) (acc : Row),
      (∀ kv ∈ row, fieldOkB columns kv = true) →
      (∀ kv ∈ row, kv.1 ∉ acc.map Prod.fst) →
      (row.map Prod.fst).Nodup →
      (row.map (fun kv => (pyKeyStr kv.1, kv.2, colType columns kv.1 kv.2))).foldl
        (fun r f => insertOD r (RValue.str f.1) f.2.1) acc = acc ++ row := by
  intro row
  induction row with
  | nil => intro acc _ _ _; simp
  | cons kv rest ih =>
    intro acc hall hacc hnd
    simp only [List.map_cons, List.foldl_cons]
    have hstr : RValue.str (pyKeyStr kv.1) = kv.1 :=
      (fieldOk_str columns kv (hall kv (List.mem_cons_self kv rest))).symm
    rw [hstr, insertOD_not_mem acc kv.1 kv.2 (hacc kv (List.mem_cons_self kv rest))]
    simp only [List.map_cons, List.nodup_cons] at hnd
    rw [ih (acc ++ [(kv.1, kv.2)])
      (fun x hx => hall x (List.mem_cons_of_mem kv hx))
      (fun x hx => by
        simp only [List.map_append, List.mem_append]
        push_neg
        refine ⟨hacc x (List.mem_cons_of_mem kv hx), ?_⟩
        simp only [List.map_cons, List.map_nil, List.mem_singleton]
        intro he
        exact hnd.1 (he ▸ List.mem_map_of_mem Prod.fst hx)
        ) hnd.2]
    simp

/-- `buildRecord` of the decoded triples of a well-typed row with
distinct keys is the row itself. -/
theorem buildRecord_enc (columns : List (String × String)) (row : Row)
    (hall : ∀ kv ∈ row, fieldOkB columns kv = true)
    (hnd : (row.map Prod.fst).Nodup) :
    buildRecord (row.map (fun kv => (pyKeyStr kv.1, kv.2, colType columns kv.1 kv.2))) =
      row := by
  have h := buildRecord_aux columns row [] hall (by simp) hnd
  simpa [buildRecord] using h

/-- Sequential insertion of fresh distinct string keys appends. -/
theorem buildFtypes_aux :
    ∀ (fields : List (String × RValue × String)) (acc : List (String × String)),
      (∀ f ∈ fields, f.1 ∉ acc.map Prod.fst) →
      (fields.map (fun f => f.1)).Nodup →
      fields.foldl (fun m f => insertOD m f.1 f.2.2) acc =
        acc ++ fields.map (fun f => (f.1, f.2.2)) := by
  intro fields
  induction fields with
  | nil => intro acc _ _; simp
  | cons f rest ih =>
    intro acc hacc hnd
    simp only [List.foldl_cons]
    rw [insertOD_not_mem acc f.1 f.2.2 (hacc f (List.mem_cons_self f rest))]
    simp only [List.map_cons, List.nodup_cons] at hnd
    rw [ih (acc ++ [(f.1, f.2.2)])
      (fun x hx => by
        simp only [List.map_append, List.mem_append]
        push_neg
        refine ⟨hacc x (List.mem_cons_of_mem f hx), ?_⟩
        simp only [List.map_cons, List.map_nil, List.mem_singleton]
        intro he
        exact hnd.1 (he ▸ List.mem_map_of_mem (fun f => f.1) hx)
        ) hnd.2]
    simp

/-- The per-record `field_types` of a well-typed row with distinct
keys, as the (key, column type) list in field order. -/
theorem buildFtypes_enc (columns : List (String × String)) (row : Row)
    (hall : ∀ kv ∈ row, fieldOkB columns kv = true)
    (hnd : (row.map Prod.fst).Nodup) :
    buildFtypes (row.map (fun kv => (pyKeyStr kv.1, kv.2, colType columns kv.1 kv.2))) =
      rowTypes columns row := by
  have hnds : ((row.map (fun kv =>
      (pyKeyStr kv.1, kv.2, colType columns kv.1 kv.2))).map (fun f => f.1)).Nodup := by
    rw [List.map_map]
    have : ((fun (f : String × RValue × String) => f.1) ∘
        (fun kv : RValue × RValue => (pyKeyStr kv.1, kv.2, colType columns kv.1 kv.2))) =
        (fun kv : RValue × RValue => pyKeyStr kv.1) := rfl
    rw [this, show (fun kv : RValue × RValue => pyKeyStr kv.1) =
      (pyKeyStr ∘ Prod.fst) from rfl, ← List.map_map]
    refine List.Nodup.map_on ?_ hnd
    intro x hx y hy hxy
    obtain ⟨kx, hkx, rfl⟩ := List.mem_map.mp hx
    obtain ⟨ky, hky, rfl⟩ := List.mem_map.mp hy
    rw [fieldOk_str columns kx (hall kx hkx), fieldOk_str columns ky (hall ky hky)]
    simp only [Function.comp] at hxy
    rw [hxy]
  have h := buildFtypes_aux
    (row.map (fun kv => (pyKeyStr kv.1, kv.2, colType columns kv.1 kv.2))) []
    (by simp) hnds
  rw [buildFtypes, h, List.map_map]
  rw [rowTypes]
  simp

/-- One encoded row advances the decode loop by exactly its bytes:
the row is appended, the column map extended by its field types, and
the metadata left alone. -/
theorem encRecord_rt (encCols : List (String × String)) (row : Row)
    (hok : rowOkB encCols row = true) :
    ∃ rb, encRecord encCols row = some rb ∧ 0 < rb.length ∧
      ∀ (data : List Nat) (i : Nat) (post : List Nat) (fuel : Nat)
        (cols : List (String × String)) (rowsAcc : List Row)
        (meta : List (String × RValue)), data.drop i = rb ++ post →
        parseLoop data (fuel + 1) i cols rowsAcc meta =
          parseLoop data fuel (i + rb.length)
            ((rowTypes encCols row).foldl (fun c nt => setdefaultOD c nt.1 nt.2) cols)
            (rowsAcc ++ [row]) meta := by
  rw [rowOkB] at hok
  simp only [Bool.and_eq_true, Bool.not_eq_true', decide_eq_true_eq,
    List.all_eq_true] at hok
  obtain ⟨⟨⟨hcnt, hnd⟩, hlt⟩, hfields⟩ := hok
  obtain ⟨mb, hmb, hmbpos, hmbdec⟩ := set_get_fixmap row.length hlt
  obtain ⟨fbs, hmap, hfdec⟩ := readFields_enc encCols row hfields
  refine ⟨mb ++ fbs.flatten, ?_, by rw [List.length_append]; omega, ?_⟩
  · rw [encRecord, hmb, hmap]
    rfl
  · intro data i post fuel cols rowsAcc meta hd
    rw [List.append_assoc] at hd
    have hi : i < data.length := by
      have hlen := congrArg List.length hd
      simp only [List.length_drop, List.length_append] at hlen
      omega
    have hdf : data.drop (i + mb.length) = fbs.flatten ++ post :=
      drop_shift data i mb _ hd
    rw [parseLoop]
    rw [if_pos hi]
    rw [hmbdec data i _ hd]
    dsimp only
    rw [hfdec data (i + mb.length) post hdf]
    dsimp only
    rw [buildRecord_enc encCols row hfields hnd]
    have hcond : (if row.length = 1 then lookupOD row (RValue.str "count")
        else Option.none) = Option.none := by
      by_cases h1 : row.length = 1
      · rw [if_pos h1]
        rw [h1] at hcnt
        have h2 : (lookupOD row (RValue.str "count")).isSome = false := by
          simpa using hcnt
        cases hlo : lookupOD row (RValue.str "count") with
        | none => rfl
        | some v => rw [hlo] at h2; simp at h2
      · rw [if_neg h1]
    rw [hcond]
    dsimp only
    rw [buildFtypes_enc encCols row hfields hnd]
    rw [show i + mb.length + fbs.flatten.length = i + (mb ++ fbs.flatten).length from by
      rw [List.length_append, Nat.add_assoc]]

/-- The decode loop consumes the encoded body row by row: after
`rows.length` iterations it sits right after the body with every row
appended and the columns extended in order. -/
theorem parseLoop_body (encCols : List (String × String)) :
    ∀ (rows : List Row) (body : List (List Nat)),
      (∀ row ∈ rows, rowOkB encCols row = true) →
      rows.mapM (encRecord encCols) = some body →
      ∀ (data : List Nat) (i : Nat) (post : List Nat) (f : Nat)
        (cols : List (String × String)) (rowsAcc : List Row)
        (meta : List (String × RValue)),
        data.drop i = body.flatten ++ post →
        parseLoop data (rows.length + f) i cols rowsAcc meta =
          parseLoop data f (i + body.flatten.length)
            (rows.foldl (fun c row => (rowTypes encCols row).foldl
              (fun c2 nt => setdefaultOD c2 nt.1 nt.2) c) cols)
            (rowsAcc ++ rows) meta := by
  intro rows
  induction rows with
  | nil =>
    intro body _ hbody data i post f cols rowsAcc meta hd
    have hbody' : (some [] : Option (List (List Nat))) = some body := hbody
    have hb : body = [] := by
      injection hbody' with h
      exact h.symm
    subst hb
    simp
  | cons row rows ih =>
    intro body hall hbody data i post f cols rowsAcc meta hd
    obtain ⟨rb, hrb, hrbpos, hstep⟩ :=
      encRecord_rt encCols row (hall row (List.mem_cons_self row rows))
    rw [List.mapM_cons, hrb] at hbody
    cases hrest : rows.mapM (encRecord encCols) with
    | none => rw [hrest] at hbody; simp at hbody
    | some rest =>
      rw [hrest] at hbody
      have hbody' : some (rb :: rest) = some body := hbody
      have hb : body = rb :: rest := by
        injection hbody' with h
        exact h.symm
      subst hb
      rw [List.flatten_cons, List.append_assoc] at hd
      have hd2 : data.drop (i + rb.length) = rest.flatten ++ post :=
        drop_shift data i rb _ hd
      rw [show (row :: rows).length + f = (rows.length + f) + 1 from by
        simp [List.length_cons]; omega]
      rw [hstep data i _ (rows.length + f) cols rowsAcc meta hd]
      rw [ih rest (fun x hx => hall x (List.mem_cons_of_mem row hx)) hrest
        data (i + rb.length) post f _ _ meta hd2]
      rw [List.flatten_cons, List.length_append, ← Nat.add_assoc]
      simp

/-- The encoded trailer (bare nil, fixmap-1 header, `count` field) at
the end of the buffer finishes the decode loop in three iterations,
recording the count in the metadata. -/
theorem parseLoop_trailer (L : Int) (h0 : 0 ≤ L) (h1 : L < 18446744073709551616) :
    ∃ cf, write_rfield (.str "count") (.num L) "uint" = some cf ∧
      ∀ (data : List Nat) (i : Nat) (f : Nat) (cols : List (String × String))
        (rowsAcc : List Row) (meta : List (String × RValue)),
        data.drop i = 0xC0 :: 0x81 :: cf →
        i + (2 + cf.length) = data.length →
        parseLoop data (f + 3) i cols rowsAcc meta =
          .ok (cols, rowsAcc, insertOD meta "count" (.num L)) := by
  obtain ⟨a, hsa, hapos, hdeca⟩ := set_get_string "count" (by decide) (by decide)
  obtain ⟨b, hsb, hbpos, hdecb⟩ := set_get_uint L h0 h1
  refine ⟨a ++ b, ?_, ?_⟩
  · unfold write_rfield
    rw [hsa, hsb]
  · intro data i f cols rowsAcc meta hd hlen
    have hab : (a ++ b).length = a.length + b.length := List.length_append a b
    have hi : i < data.length := by omega
    have hd1 : data.drop (i + 1) = 0x81 :: (a ++ b) := by
      have h2' := drop_shift data i [0xC0] (0x81 :: (a ++ b)) (by simpa using hd)
      simpa using h2'
    have hd2 : data.drop (i + 2) = a ++ b := by
      have h2' := drop_shift data i [0xC0, 0x81] (a ++ b) (by simpa using hd)
      simpa using h2'
    have hdb : data.drop (i + 2 + a.length) = b ++ [] := by
      have h3 := drop_shift data i ([0xC0, 0x81] ++ a) b (by rw [hd]; simp)
      rw [List.append_nil]
      rw [show i + 2 + a.length = i + ([0xC0, 0x81] ++ a).length by
        simp [List.length_append]; omega]
      exact h3
    have hnil : get_rmsg data i = .ok (i + 1, .nil) := by
      rw [get_rmsg, hd]
      dsimp only
      norm_num
    have hfm : get_rmsg data (i + 1) = .ok (i + 1 + 1, .fixmap 1) := by
      rw [get_rmsg, hd1]
      dsimp only
      norm_num
    obtain ⟨km, hgm, hktyp, hkval⟩ := hdeca data (i + 2) b hd2
    obtain ⟨vm, hgv, hvtyp, hvval⟩ := hdecb data (i + 2 + a.length) [] hdb
    rw [show f + 3 = f + 2 + 1 by omega, parseLoop, if_pos hi, hnil]
    dsimp only
    rw [show f + 2 = f + 1 + 1 by omega, parseLoop,
      if_pos (show i + 1 < data.length by omega), hfm]
    dsimp only
    have hrf : readFields data (i + 1 + 1) 1 =
        .ok (i + 2 + a.length + b.length, [("count", .num L, "uint")]) := by
      simp only [readFields]
      rw [show i + 1 + 1 = i + 2 by omega, hgm]
      dsimp only
      rw [hgv]
      dsimp only
      rw [hkval, hvval, hvtyp]
      rfl
    rw [hrf]
    dsimp only
    rw [show buildRecord [("count", RValue.num L, "uint")] =
      [(RValue.str "count", RValue.num L)] from rfl]
    rw [if_pos (show [(RValue.str "count", RValue.num L)].length = 1 from rfl)]
    rw [show lookupOD [(RValue.str "count", RValue.num L)] (RValue.str "count") =
      some (RValue.num L) from rfl]
    dsimp only
    rw [parseLoop, if_neg (show ¬ i + 2 + a.length + b.length < data.length by omega)]

/-- Every well-typed row encodes, and the body is at least one byte
per row. -/
theorem encRecord_mapM (encCols : List (String × String)) :
    ∀ (rows : List Row), (∀ row ∈ rows, rowOkB encCols row = true) →
      ∃ body, rows.mapM (encRecord encCols) = some body ∧
        rows.length ≤ body.flatten.length := by
  intro rows
  induction rows with
  | nil => exact fun _ => ⟨[], rfl, Nat.le_refl 0⟩
  | cons row rest ih =>
    intro hall
    obtain ⟨rb, hrb, hrbpos, _⟩ :=
      encRecord_rt encCols row (hall row (List.mem_cons_self row rest))
    obtain ⟨body, hbody, hble⟩ := ih (fun x hx => hall x (List.mem_cons_of_mem row hx))
    refine ⟨rb :: body, ?_, ?_⟩
    · rw [List.mapM_cons, hrb, hbody]
      rfl
    · rw [List.flatten_cons, List.length_append, List.length_cons]
      omega

/-- Extending the column map with one well-typed row's field types is
exactly the inner fold of `expectedColumns`. -/
theorem rowTypes_fold (encCols : List (String × String)) :
    ∀ (row : Row), (∀ kv ∈ row, fieldOkB encCols kv = true) →
      ∀ (c : List (String × String)),
        (rowTypes encCols row).foldl (fun c2 nt => setdefaultOD c2 nt.1 nt.2) c =
          row.foldl
            (fun c2 kv =>
              match kv.1 with
              | .str k => setdefaultOD c2 k (colType encCols kv.1 kv.2)
              | _ => c2)
            c := by
  intro row
  induction row with
  | nil => intro _ c; rfl
  | cons kv rest ih =>
    intro hall c
    rw [rowTypes, List.map_cons, List.foldl_cons, List.foldl_cons]
    have hstr := fieldOk_str encCols kv (hall kv (List.mem_cons_self kv rest))
    rw [show (match kv.1 with
        | RValue.str k => setdefaultOD c k (colType encCols kv.1 kv.2)
        | _ => c) = setdefaultOD c (pyKeyStr kv.1) (colType encCols kv.1 kv.2) from by
      rw [hstr]
      rfl]
    exact ih (fun x hx => hall x (List.mem_cons_of_mem kv hx)) _

/-- The decode loop's accumulated column map is `expectedColumns`. -/
theorem expectedColumns_fold (t : Rdb)
    (hrows : ∀ row ∈ t.rows, rowOkB t.columns row = true) :
    t.rows.foldl
      (fun c row => (rowTypes t.columns row).foldl
        (fun c2 nt => setdefaultOD c2 nt.1 nt.2) c) [] = expectedColumns t := by
  rw [expectedColumns]
  have haux : ∀ (rows : List Row), (∀ row ∈ rows, rowOkB t.columns row = true) →
      ∀ acc, rows.foldl
        (fun c row => (rowTypes t.columns row).foldl
          (fun c2 nt => setdefaultOD c2 nt.1 nt.2) c) acc =
        rows.foldl
          (fun cols row => row.foldl
            (fun c kv =>
              match kv.1 with
              | .str k => setdefaultOD c k (colType t.columns kv.1 kv.2)
              | _ => c)
            cols) acc := by
    intro rows
    induction rows with
    | nil => intro _ _; rfl
    | cons row rest ih =>
      intro hall acc
      rw [List.foldl_cons, List.foldl_cons]
      have hfields : ∀ kv ∈ row, fieldOkB t.columns kv = true := by
        have h := hall row (List.mem_cons_self row rest)
        rw [rowOkB] at h
        simp only [Bool.and_eq_true, List.all_eq_true] at h
        exact h.2
      rw [rowTypes_fold t.columns row hfields acc]
      exact ih (fun x hx => hall x (List.mem_cons_of_mem row hx)) _
  exact haux t.rows hrows []

/-- On a table whose rows are already sorted by their string `name`
keys (or that has no `name` column), the decoder's sort is a no-op. -/
theorem sortRows_id (t : Rdb) (hsort : sortKeysOkB t = true) :
    (if (lookupOD t.columns "name").isSome then sortRows t.rows
      else .ok t.rows) = Except.ok t.rows := by
  rw [sortKeysOkB] at hsort
  cases hlk : lookupOD t.columns "name" with
  | none => rfl
  | some typ =>
    rw [if_pos (show (some typ).isSome = true from rfl)]
    rw [hlk] at hsort
    rw [show (match some typ with
      | some _ => (t.rows.all fun row =>
            match nameKeyOf row with
            | RValue.str _ => true
            | _ => false) &&
          decide (List.Pairwise (fun r1 r2 => pyStrLe (strKey r1) (strKey r2) = true)
            t.rows)
      | Option.none => true) = ((t.rows.all fun row =>
            match nameKeyOf row with
            | RValue.str _ => true
            | _ => false) &&
          decide (List.Pairwise (fun r1 r2 => pyStrLe (strKey r1) (strKey r2) = true)
            t.rows)) from rfl] at hsort
    rw [Bool.and_eq_true, decide_eq_true_eq] at hsort
    obtain ⟨hallstr, hpw⟩ := hsort
    rw [sortRows]
    rw [if_pos (show (t.rows.map nameKeyOf).all
        (fun k => match k with | RValue.str _ => true | _ => false) = true from by
      rw [List.all_eq_true]
      intro k hk
      obtain ⟨row, hrow, rfl⟩ := List.mem_map.mp hk
      exact List.all_eq_true.mp hallstr row hrow)]
    rw [List.Sorted.insertionSort_eq hpw]

/-- C1 (amended): on well-formed tables — header packable, metadata
the canonical `count` record, rows well-typed with distinct string
keys and already sorted by their string `name` keys (or no `name`
column), and the column map the one the rows induce — `Rdb.to_bytes`
succeeds and `Rdb.from_bytes` inverts it exactly. -/
theorem from_bytes_to_bytes_of_wf (t : Rdb) (hwf : wfTable t = true) :
    ∃ bs, to_bytes t = some bs ∧ from_bytes bs = Except.ok t := by
  rw [wfTable] at hwf
  simp only [Bool.and_eq_true, beq_iff_eq, decide_eq_true_eq, List.all_eq_true] at hwf
  obtain ⟨⟨⟨⟨⟨hhdr, hmeta⟩, hlen64⟩, hrows⟩, hcols⟩, hsort⟩ := hwf
  rw [headerOkB] at hhdr
  simp only [Bool.and_eq_true, beq_iff_eq, decide_eq_true_eq, List.all_eq_true,
    Nat.beq_eq_true_eq] at hhdr
  obtain ⟨⟨hmag8, hmagB⟩, hoff⟩ := hhdr
  obtain ⟨body, hbody, hRF⟩ := encRecord_mapM t.columns t.rows hrows
  have h0 : (0 : Int) ≤ (t.rows.length : Int) := Int.natCast_nonneg _
  have h1 : ((t.rows.length : Int)) < 18446744073709551616 := by
    exact_mod_cast hlen64
  obtain ⟨cf, hcf, htrail⟩ := parseLoop_trailer (t.rows.length : Int) h0 h1
  have hph : packHeader t.header = some (t.header.magic ++ leBytes 8 t.header.offset) := by
    rw [packHeader, if_pos hoff]
    have ht : t.header.magic.take 8 = t.header.magic := by
      rw [← hmag8]
      exact List.take_length _
    rw [ht, show (8 : Nat) - t.header.magic.length = 0 by omega]
    simp
  have hA16 : (t.header.magic ++ leBytes 8 t.header.offset).length = 16 := by
    rw [List.length_append, hmag8, leBytes_length]
  have htb : to_bytes t = some (t.header.magic ++ leBytes 8 t.header.offset ++
      body.flatten ++ [0xC0] ++ [0x81] ++ cf) := by
    rw [to_bytes, hph, hbody, hcf]
    rfl
  refine ⟨t.header.magic ++ leBytes 8 t.header.offset ++
      body.flatten ++ [0xC0] ++ [0x81] ++ cf, htb, ?_⟩
  have hbs' : t.header.magic ++ leBytes 8 t.header.offset ++
      body.flatten ++ [0xC0] ++ [0x81] ++ cf =
      (t.header.magic ++ leBytes 8 t.header.offset) ++
        (body.flatten ++ (0xC0 :: (0x81 :: cf))) := by
    simp [List.append_assoc]
  have hblen : (t.header.magic ++ leBytes 8 t.header.offset ++
      body.flatten ++ [0xC0] ++ [0x81] ++ cf).length =
      16 + body.flatten.length + (2 + cf.length) := by
    rw [hbs']
    simp only [List.length_append, hA16, List.length_cons]
    omega
  have hd16 : (t.header.magic ++ leBytes 8 t.header.offset ++
      body.flatten ++ [0xC0] ++ [0x81] ++ cf).drop 16 =
      body.flatten ++ (0xC0 :: (0x81 :: cf)) := by
    rw [hbs', show (16 : Nat) =
      (t.header.magic ++ leBytes 8 t.header.offset).length from hA16.symm]
    exact List.drop_left _ _
  have hdtr : (t.header.magic ++ leBytes 8 t.header.offset ++
      body.flatten ++ [0xC0] ++ [0x81] ++ cf).drop (16 + body.flatten.length) =
      0xC0 :: (0x81 :: cf) :=
    drop_shift _ 16 body.flatten _ hd16
  obtain ⟨f1, hf1⟩ : ∃ f1, (t.header.magic ++ leBytes 8 t.header.offset ++
      body.flatten ++ [0xC0] ++ [0x81] ++ cf).length + 1 =
      t.rows.length + (f1 + 3) :=
    ⟨(t.header.magic ++ leBytes 8 t.header.offset ++
      body.flatten ++ [0xC0] ++ [0x81] ++ cf).length + 1 - t.rows.length - 3,
      by omega⟩
  rw [from_bytes, if_neg (by omega)]
  rw [hf1]
  rw [parseLoop_body t.columns t.rows body hrows hbody _ 16 (0xC0 :: (0x81 :: cf))
    (f1 + 3) [] [] [] hd16]
  rw [htrail _ (16 + body.flatten.length) f1 _ _ _ hdtr (by omega)]
  dsimp only
  rw [expectedColumns_fold t hrows, ← hcols, List.nil_append]
  rw [sortRows_id t hsort]
  dsimp only
  rw [show insertOD ([] : List (String × RValue)) "count"
      (RValue.num (t.rows.length : Int)) =
      [("count", RValue.num (t.rows.length : Int))] from rfl]
  rw [show setdefaultOD [("count", RValue.num (t.rows.length : Int))] "count"
      (RValue.num (t.rows.length : Int)) =
      [("count", RValue.num (t.rows.length : Int))] from rfl]
  rw [← hmeta]
  have htake : (t.header.magic ++ leBytes 8 t.header.offset ++
      body.flatten ++ [0xC0] ++ [0x81] ++ cf).take 8 = t.header.magic := by
    rw [hbs', List.append_assoc]
    exact List.take_left' hmag8
  have hslice : pySlice (t.header.magic ++ leBytes 8 t.header.offset ++
      body.flatten ++ [0xC0] ++ [0x81] ++ cf) 8 16 = leBytes 8 t.header.offset := by
    rw [pySlice, hbs', List.append_assoc]
    rw [List.drop_left' hmag8]
    rw [show (16 : Nat) - 8 = 8 from rfl]
    exact List.take_left' (leBytes_length 8 _)
  rw [htake, hslice, leVal_leBytes 8 t.header.offset (by norm_num; omega)]

/-- Witness for `from_bytes_to_bytes_of_wf` at a concrete one-row
table. -/
theorem from_bytes_to_bytes_of_wf_witness :
    wfTable ⟨[("name", "string")], [[(RValue.str "name", RValue.str "a")]],
      [("count", RValue.num 1)], ⟨[82, 65, 82, 67, 72, 68, 66, 0], 0⟩⟩ = true ∧
    ∃ bs, to_bytes ⟨[("name", "string")], [[(RValue.str "name", RValue.str "a")]],
        [("count", RValue.num 1)], ⟨[82, 65, 82, 67, 72, 68, 66, 0], 0⟩⟩ = some bs ∧
      from_bytes bs = Except.ok ⟨[("name", "string")],
        [[(RValue.str "name", RValue.str "a")]],
        [("count", RValue.num 1)], ⟨[82, 65, 82, 67, 72, 68, 66, 0], 0⟩⟩ :=
  ⟨by rfl, from_bytes_to_bytes_of_wf _ (by rfl)⟩

/-- The split accumulator only ever flushes nonempty whitespace-free
words. -/
theorem wordsAux_good : ∀ (cs acc : List Char),
    (∀ c ∈ acc, pyIsSpace c = false) → goodWordsP (wordsAux cs acc) := by
  intro cs
  induction cs with
  | nil =>
    intro acc hacc
    rw [wordsAux]
    by_cases h0 : acc = []
    · rw [if_pos h0]
      intro w hw
      simp at hw
    · rw [if_neg h0]
      intro w hw
      rw [List.mem_singleton] at hw
      subst hw
      refine ⟨fun he => h0 (by simpa using congrArg List.reverse he), ?_⟩
      intro c hc
      exact hacc c (List.mem_reverse.mp hc)
  | cons c cs ih =>
    intro acc hacc
    rw [wordsAux]
    by_cases hsp : pyIsSpace c
    · rw [if_pos hsp]
      by_cases h0 : acc = []
      · rw [if_pos h0]
        exact ih [] (by simp)
      · rw [if_neg h0]
        intro w hw
        rw [List.mem_cons] at hw
        rcases hw with rfl | hw
        · refine ⟨fun he => h0 (by simpa using congrArg List.reverse he), ?_⟩
          intro d hd
          exact hacc d (List.mem_reverse.mp hd)
        · exact ih [] (by simp) w hw
    · rw [if_neg hsp]
      refine ih (c :: acc) ?_
      intro d hd
      rw [List.mem_cons] at hd
      rcases hd with rfl | hd
      · simpa using hsp
      · exact hacc d hd

/-- `str.split()` produces nonempty whitespace-free words. -/
theorem pyWords_good (cs : List Char) : goodWordsP (pyWords cs) :=
  wordsAux_good cs [] (by simp)

/-- Scanning a whitespace-free prefix just accumulates it reversed. -/
theorem wordsAux_nonspace_run : ∀ (w cs acc : List Char),
    (∀ c ∈ w, pyIsSpace c = false) →
    wordsAux (w ++ cs) acc = wordsAux cs (w.reverse ++ acc) := by
  intro w
  induction w with
  | nil => intro cs acc _; simp
  | cons c w ih =>
    intro cs acc hw
    rw [List.cons_append, wordsAux,
      if_neg (by simp [hw c (List.mem_cons_self c w)])]
    rw [ih cs (c :: acc) (fun d hd => hw d (List.mem_cons_of_mem c hd))]
    simp

/-- Splitting a single-space intercalation of good words recovers
them. -/
theorem pyWords_intercalateSp : ∀ (ws : List (List Char)), goodWordsP ws →
    pyWords (intercalateSp ws) = ws := by
  intro ws
  induction ws with
  | nil => intro _; rfl
  | cons w rest ih =>
    intro hgood
    obtain ⟨hw0, hwc⟩ := hgood w (List.mem_cons_self w rest)
    cases rest with
    | nil =>
      rw [show intercalateSp [w] = w from rfl, pyWords]
      rw [show w = w ++ [] from by simp, wordsAux_nonspace_run w [] [] hwc]
      rw [wordsAux, if_neg (by simpa using hw0)]
      simp
    | cons w2 rest2 =>
      rw [show intercalateSp (w :: w2 :: rest2) =
        w ++ ' ' :: intercalateSp (w2 :: rest2) from rfl, pyWords]
      rw [wordsAux_nonspace_run w _ [] hwc]
      rw [wordsAux, if_pos (by decide), if_neg (by simpa using hw0)]
      rw [show wordsAux (intercalateSp (w2 :: rest2)) [] =
        pyWords (intercalateSp (w2 :: rest2)) from rfl]
      rw [ih (fun x hx => hgood x (List.mem_cons_of_mem w hx))]
      simp

/-- A good intercalation starts with a non-space character, so a
leading `dropWhile` is a no-op. -/
theorem intercalate_dropWhile (ws : List (List Char)) (hgood : goodWordsP ws) :
    (intercalateSp ws).dropWhile pyIsSpace = intercalateSp ws := by
  cases ws with
  | nil => rfl
  | cons w rest =>
    obtain ⟨hw0, hwc⟩ := hgood w (List.mem_cons_self w rest)
    cases hw : w with
    | nil => exact absurd hw hw0
    | cons c w' =>
      have hc : pyIsSpace c = false := hwc c (by rw [hw]; exact List.mem_cons_self _ _)
      cases rest with
      | nil =>
        rw [show intercalateSp [c :: w'] = c :: w' from rfl]
        rw [List.dropWhile_cons_of_neg (by simp [hc])]
      | cons w2 rest2 =>
        rw [show intercalateSp ((c :: w') :: w2 :: rest2) =
          c :: (w' ++ ' ' :: intercalateSp (w2 :: rest2)) from rfl]
        rw [List.dropWhile_cons_of_neg (by simp [hc])]

/-- A nonempty good intercalation ends with a non-space character. -/
theorem intercalate_rev_cons : ∀ (ws : List (List Char)), goodWordsP ws →
    ws ≠ [] → ∃ c t, (intercalateSp ws).reverse = c :: t ∧ pyIsSpace c = false := by
  intro ws
  induction ws with
  | nil => intro _ h; exact absurd rfl h
  | cons w rest ih =>
    intro hgood _
    obtain ⟨hw0, hwc⟩ := hgood w (List.mem_cons_self w rest)
    cases rest with
    | nil =>
      rw [show intercalateSp [w] = w from rfl]
      cases hr : w.reverse with
      | nil => exact absurd (by simpa using congrArg List.reverse hr) hw0
      | cons c t =>
        refine ⟨c, t, rfl, ?_⟩
        have : c ∈ w.reverse := by rw [hr]; exact List.mem_cons_self _ _
        exact hwc c (List.mem_reverse.mp this)
    | cons w2 rest2 =>
      obtain ⟨c, t, hct, hc⟩ := ih (fun x hx => hgood x (List.mem_cons_of_mem w hx))
        (by simp)
      refine ⟨c, t ++ ' ' :: w.reverse, ?_, hc⟩
      rw [show intercalateSp (w :: w2 :: rest2) =
        w ++ ' ' :: intercalateSp (w2 :: rest2) from rfl]
      rw [List.reverse_append, List.reverse_cons, List.append_assoc, hct]
      simp

/-- Stripping a good intercalation is a no-op. -/
theorem stripL_intercalate (ws : List (List Char)) (hgood : goodWordsP ws) :
    stripL (intercalateSp ws) = intercalateSp ws := by
  rw [stripL, intercalate_dropWhile ws hgood]
  cases hws : ws with
  | nil => rfl
  | cons w rest =>
    obtain ⟨c, t, hct, hc⟩ := intercalate_rev_cons ws hgood (by rw [hws]; simp)
    rw [← hws, hct, List.dropWhile_cons_of_neg (by simp [hc])]
    rw [← hct]
    simp

/-- The strip in `collapseL` is redundant: collapsing is intercalating
the split words. -/
theorem collapseL_eq (cs : List Char) :
    collapseL cs = intercalateSp (pyWords cs) := by
  rw [collapseL, stripL_intercalate (pyWords cs) (pyWords_good cs)]

/-- Collapsing a good intercalation is a no-op. -/
theorem collapseL_intercalate (ws : List (List Char)) (hgood : goodWordsP ws) :
    collapseL (intercalateSp ws) = intercalateSp ws := by
  rw [collapseL_eq, pyWords_intercalateSp ws hgood]

/-- `parenFix` copies any head that does not open a `)(` pair. -/
theorem parenFix_cons (c : Char) (rest : List Char)
    (h : c = ')' → ∀ r, rest ≠ '(' :: r) :
    parenFix (c :: rest) = c :: parenFix rest := by
  rw [parenFix.eq_def]
  split
  · rename_i r heq
    injection heq with h1 h2
    exact absurd h2 (h h1 r)
  · rename_i c' rest' heq
    injection heq with h1 h2
    rw [h1, h2]
  · rename_i heq
    exact List.noConfusion heq

/-- `parenFix` preserves the first character. -/
theorem parenFix_head : ∀ (l : List Char), (parenFix l).head? = l.head? := by
  intro l
  induction l using parenFix.induct with
  | case1 rest ih =>
    rw [parenFix]
    rfl
  | case2 c rest hguard ih =>
    rw [parenFix_cons c rest (fun hc r hr => absurd trivial
      (fun _ => hguard r hc hr))]
    rfl
  | case3 => rfl

/-- `parenFix` distributes over an append whose right part does not
begin with `(`. -/
theorem parenFix_append : ∀ (xs ys : List Char), (∀ r, ys ≠ '(' :: r) →
    parenFix (xs ++ ys) = parenFix xs ++ parenFix ys := by
  intro xs
  induction xs using parenFix.induct with
  | case1 rest ih =>
    intro ys hy
    rw [show (')' :: '(' :: rest) ++ ys = ')' :: '(' :: (rest ++ ys) from rfl]
    rw [parenFix, parenFix, ih ys hy]
    simp
  | case2 c rest hguard ih =>
    intro ys hy
    have hcomb : c = ')' → ∀ r, rest ++ ys ≠ '(' :: r := by
      intro hc r hr
      cases rest with
      | nil => exact hy r (by simpa using hr)
      | cons d rest' =>
        rw [List.cons_append] at hr
        injection hr with h1 h2
        exact hguard rest' hc (by rw [h1])
    rw [List.cons_append, parenFix_cons c (rest ++ ys) hcomb,
      parenFix_cons c rest (fun hc r hr => hguard r hc hr), ih ys hy,
      List.cons_append]
  | case3 =>
    intro ys hy
    rw [List.nil_append, show parenFix [] = [] from rfl, List.nil_append]

/-- Prepending into the first word of an intercalation. -/
theorem intercalateSp_cons_first (c : Char) (w : List Char) (ws : List (List Char)) :
    intercalateSp ((c :: w) :: ws) = c :: intercalateSp (w :: ws) := by
  cases ws <;> rfl

/-- Unfolding an intercalation with a nonempty tail. -/
theorem intercalateSp_cons_ne (w : List Char) (ws : List (List Char)) (h : ws ≠ []) :
    intercalateSp (w :: ws) = w ++ ' ' :: intercalateSp ws := by
  cases ws with
  | nil => exact absurd rfl h
  | cons _ _ => rfl

/-- Concatenating two nonempty word lists intercalates across the
boundary. -/
theorem intercalateSp_append : ∀ (A B : List (List Char)), A ≠ [] → B ≠ [] →
    intercalateSp (A ++ B) = intercalateSp A ++ ' ' :: intercalateSp B := by
  intro A
  induction A with
  | nil => intro B h; exact absurd rfl h
  | cons w A' ih =>
    intro B _ hB
    cases A' with
    | nil =>
      rw [List.cons_append, List.nil_append,
        intercalateSp_cons_ne w B hB]
      rfl
    | cons x xs =>
      rw [List.cons_append,
        intercalateSp_cons_ne w (x :: xs ++ B) (by simp),
        intercalateSp_cons_ne w (x :: xs) (by simp),
        ih B (by simp) hB]
      simp

/-- `parenFix` of a nonempty whitespace-free word is an intercalation
of such words. -/
theorem parenFix_word : ∀ (w : List Char), w ≠ [] →
    (∀ c ∈ w, pyIsSpace c = false) →
    ∃ ws, goodWordsP ws ∧ ws ≠ [] ∧ parenFix w = intercalateSp ws := by
  intro w
  induction w using parenFix.induct with
  | case1 rest ih =>
    intro _ hsp
    have hparen : pyIsSpace ')' = false := by decide
    have hparen2 : pyIsSpace '(' = false := by decide
    cases rest with
    | nil =>
      refine ⟨[[')'], ['(']], ?_, by simp, ?_⟩
      · intro x hx
        rcases List.mem_cons.mp hx with rfl | hx
        · exact ⟨by simp, by intro c hc; rw [List.mem_singleton] at hc; rw [hc]; exact hparen⟩
        · rw [List.mem_singleton] at hx
          subst hx
          exact ⟨by simp, by intro c hc; rw [List.mem_singleton] at hc; rw [hc]; exact hparen2⟩
      · rfl
    | cons d rest' =>
      obtain ⟨ws, hgood, hne, heq⟩ := ih (by simp)
        (fun c hc => hsp c (List.mem_cons_of_mem _ (List.mem_cons_of_mem _ hc)))
      cases ws with
      | nil => exact absurd rfl hne
      | cons w0 ws0 =>
        refine ⟨[')'] :: ('(' :: w0) :: ws0, ?_, by simp, ?_⟩
        · intro x hx
          rcases List.mem_cons.mp hx with rfl | hx
          · exact ⟨by simp, by intro c hc; rw [List.mem_singleton] at hc; rw [hc]; exact hparen⟩
          rcases List.mem_cons.mp hx with rfl | hx
          · refine ⟨by simp, ?_⟩
            intro c hc
            rcases List.mem_cons.mp hc with rfl | hc
            · exact hparen2
            · exact (hgood w0 (List.mem_cons_self w0 ws0)).2 c hc
          · exact hgood x (List.mem_cons_of_mem w0 hx)
        · rw [parenFix, heq]
          rw [intercalateSp_cons_ne [')'] (('(' :: w0) :: ws0) (by simp),
            intercalateSp_cons_first '(' w0 ws0]
          rfl
  | case2 c rest hguard ih =>
    intro _ hsp
    have hc : pyIsSpace c = false := hsp c (List.mem_cons_self c rest)
    cases rest with
    | nil =>
      refine ⟨[[c]], ?_, by simp, ?_⟩
      · intro x hx
        rw [List.mem_singleton] at hx
        subst hx
        exact ⟨by simp, by intro d hd; rw [List.mem_singleton] at hd; rw [hd]; exact hc⟩
      · rw [parenFix_cons c [] (by intro _ r hcon; exact List.noConfusion hcon)]
        rfl
    | cons d rest' =>
      obtain ⟨ws, hgood, hne, heq⟩ := ih (by simp)
        (fun x hx => hsp x (List.mem_cons_of_mem _ hx))
      cases ws with
      | nil => exact absurd rfl hne
      | cons w0 ws0 =>
        refine ⟨(c :: w0) :: ws0, ?_, by simp, ?_⟩
        · intro x hx
          rcases List.mem_cons.mp hx with rfl | hx
          · refine ⟨by simp, ?_⟩
            intro e he
            rcases List.mem_cons.mp he with rfl | he
            · exact hc
            · exact (hgood w0 (List.mem_cons_self w0 ws0)).2 e he
          · exact hgood x (List.mem_cons_of_mem w0 hx)
        · rw [parenFix_cons c (d :: rest') (fun hcp r hr => hguard r hcp hr), heq,
            intercalateSp_cons_first c w0 ws0]
  | case3 =>
    intro h _
    exact absurd rfl h

/-- `parenFix` of a good intercalation is again a good intercalation. -/
theorem parenFix_intercalate : ∀ (ws : List (List Char)), goodWordsP ws →
    ∃ ws', goodWordsP ws' ∧ (ws ≠ [] → ws' ≠ []) ∧
      parenFix (intercalateSp ws) = intercalateSp ws' := by
  intro ws
  induction ws with
  | nil =>
    intro _
    exact ⟨[], by intro w hw; simp at hw, by simp, rfl⟩
  | cons w rest ih =>
    intro hgood
    obtain ⟨hw0, hwc⟩ := hgood w (List.mem_cons_self w rest)
    obtain ⟨wsw, hgw, hnw, heqw⟩ := parenFix_word w hw0 hwc
    cases rest with
    | nil =>
      refine ⟨wsw, hgw, fun _ => hnw, ?_⟩
      rw [show intercalateSp [w] = w from rfl, heqw]
    | cons w2 rest2 =>
      obtain ⟨wsr, hgr, hnr, heqr⟩ := ih (fun x hx => hgood x (List.mem_cons_of_mem w hx))
      refine ⟨wsw ++ wsr, ?_, by simp [hnw], ?_⟩
      · intro x hx
        rcases List.mem_append.mp hx with hx | hx
        · exact hgw x hx
        · exact hgr x hx
      · rw [intercalateSp_cons_ne w (w2 :: rest2) (by simp)]
        rw [parenFix_append w (' ' :: intercalateSp (w2 :: rest2))
          (by intro r hcon; injection hcon with h1 _; exact absurd h1 (by decide))]
        rw [parenFix_cons ' ' (intercalateSp (w2 :: rest2))
          (fun hsp => absurd hsp (by decide))]
        rw [heqw, heqr]
        rw [intercalateSp_append wsw wsr hnw (hnr (by simp))]

/-- `parenFix` is idempotent: its output has no adjacent `)(`. -/
theorem parenFix_idem : ∀ (l : List Char), parenFix (parenFix l) = parenFix l := by
  intro l
  induction l using parenFix.induct with
  | case1 rest ih =>
    rw [parenFix]
    rw [parenFix_cons ')' (' ' :: '(' :: parenFix rest)
      (by intro _ r hcon; injection hcon with h1 _; exact absurd h1 (by decide))]
    rw [parenFix_cons ' ' ('(' :: parenFix rest) (fun hsp => absurd hsp (by decide))]
    rw [parenFix_cons '(' (parenFix rest) (fun hp => absurd hp (by decide))]
    rw [ih]
  | case2 c rest hguard ih =>
    rw [parenFix_cons c rest (fun hc r hr => hguard r hc hr)]
    have hg2 : c = ')' → ∀ r, parenFix rest ≠ '(' :: r := by
      intro hc r hr
      have hh := parenFix_head rest
      rw [hr] at hh
      cases rest with
      | nil => simp at hh
      | cons d t =>
        simp only [List.head?_cons, Option.some.injEq] at hh
        exact hguard t hc (by rw [← hh])
    rw [parenFix_cons c (parenFix rest) hg2, ih]
  | case3 => rfl

/-- Collapsing after `parenFix` of a collapsed list is a no-op. -/
theorem collapseL_parenFix_collapse (x : List Char) :
    collapseL (parenFix (collapseL x)) = parenFix (collapseL x) := by
  rw [collapseL_eq x]
  obtain ⟨ws', hg', _, heq⟩ := parenFix_intercalate (pyWords x) (pyWords_good x)
  rw [heq, collapseL_intercalate ws' hg']

/-- C6 (amended): `_normalize_title` is idempotent exactly when its
Unicode stages cooperate: if `cf ∘ nfkc` is stable on case-folded
output (`cf (nfkc (cf t)) = cf t`) and both `cf` and `nfkc` preserve
whitespace-collapsedness and `)(`-freeness of already-normalized
text, then applying the normalization twice equals applying it once.
The pure collapsing/paren-fixing core is idempotent unconditionally;
the Python `casefold`/NFKC pair violates the stability hypothesis
(see the recorded counterexample), which is the only failure mode. -/
theorem normalize_title_idem_of_stable (nfkc cf : String → String)
    (hstab : ∀ t, cf (nfkc (cf t)) = cf t)
    (hfix : ∀ l, collapseL l = l → parenFix l = l →
      collapseL (cf (String.mk l)).data = (cf (String.mk l)).data ∧
      parenFix (cf (String.mk l)).data = (cf (String.mk l)).data)
    (hfixN : ∀ l, collapseL l = l → parenFix l = l →
      collapseL (nfkc (String.mk l)).data = (nfkc (String.mk l)).data ∧
      parenFix (nfkc (String.mk l)).data = (nfkc (String.mk l)).data)
    (s : String) :
    normalize_title nfkc cf (normalize_title nfkc cf s) =
      normalize_title nfkc cf s := by
  have hu1 : collapseL (parenFix (collapseL (nfkc s).data)) =
      parenFix (collapseL (nfkc s).data) :=
    collapseL_parenFix_collapse _
  have hu2 : parenFix (parenFix (collapseL (nfkc s).data)) =
      parenFix (collapseL (nfkc s).data) :=
    parenFix_idem _
  obtain ⟨hc1, hc2⟩ := hfix (parenFix (collapseL (nfkc s).data)) hu1 hu2
  obtain ⟨hn1, hn2⟩ :=
    hfixN (cf (String.mk (parenFix (collapseL (nfkc s).data)))).data hc1 hc2
  rw [string_mk_data] at hn1 hn2
  unfold normalize_title
  rw [hn1, hn2, string_mk_data]
  exact hstab (String.mk (parenFix (collapseL (nfkc s).data)))

/-- Witness for `normalize_title_idem_of_stable` with identity Unicode
stages at a concrete messy string. -/
theorem normalize_title_idem_of_stable_witness :
    normalize_title id id (normalize_title id id (String.mk
      [' ', 'a', ')', '(', 'b', ' ', ' ', 'c', ' '])) =
      normalize_title id id (String.mk
        [' ', 'a', ')', '(', 'b', ' ', ' ', 'c', ' ']) ∧
    normalize_title id id (String.mk
      [' ', 'a', ')', '(', 'b', ' ', ' ', 'c', ' ']) =
      String.mk ['a', ')', ' ', '(', 'b', ' ', 'c'] :=
  ⟨normalize_title_idem_of_stable id id (fun _ => rfl)
      (fun _ h1 h2 => ⟨h1, h2⟩) (fun _ h1 h2 => ⟨h1, h2⟩)
      (String.mk [' ', 'a', ')', '(', 'b', ' ', ' ', 'c', ' ']),
    by decide⟩

/-- C6 counterexample: with the modelled NFKC/casefold fragment
(`U+1FB7 ↦ α + combining tilde + iota` under casefold, which NFKC then
recomposes with a following combining comma to `U+1FB6 U+1F30`), the
Python normalization is not idempotent on "ᾷ̓" (U+1FB7 U+0313): the
first pass yields α-tilde-iota-comma, the second recombines it. -/
theorem normalize_title_not_idempotent :
    normalize_title nfkcFrag cfFrag (normalize_title nfkcFrag cfFrag
      (String.mk [Char.ofNat 0x1FB7, Char.ofNat 0x313])) ≠
    normalize_title nfkcFrag cfFrag
      (String.mk [Char.ofNat 0x1FB7, Char.ofNat 0x313]) := by
  decide

end GameDb
